import Mathlib

/-!
Slack event decoding (`events.go`)

A shallow embedding of the polymorphic event decoder of `events.go`:
`EventUnmarshaller.Unmarshal`, `EventCallback.UnmarshalJSON` and the
package-level table `eventMapping`, together with the part of
`encoding/json` these functions rely on (validity check, struct decoding with
case-folded key matching, `json.RawMessage` capture).

Conventions of the embedding:

* byte strings are `List Char`: the input is taken to be valid UTF-8 text;
* a JSON text is parsed to a tree whose object members keep the raw text of
  their values; numbers keep no value; a text with more than 10000 arrays
  and objects open at once is refused, as by `encoding/json`;
* the grammar of JSON is written down on its own (`Gram`, `IsText`), the
  parser is proved to read every text of it, and the statements about the
  fields of a payload are made for the texts of the grammar;
* an error is one of four kinds, without the position and the wording that
  the errors of `encoding/json` carry;
* the structs declared outside `events.go` are decoded by a parameter `ext`,
  except `MessageEvent` and `ReactionAddedEvent`, which are modelled with the
  fields the tests read;
* a nil slice and an empty slice are the same list, and a slice found in a
  receiver has no spare capacity.
-/

namespace Slack

/-! ## JSON documents -/

/-- A JSON document tree. Every object member keeps, next to its decoded
value, the exact text of the value as it stood in the input: this is what a
`json.RawMessage` field receives. Numbers keep no value (no decoded field of
this package is numeric). -/
inductive JValue where
  | null : JValue
  | bool (b : Bool) : JValue
  | num : JValue
  | str (s : List Char) : JValue
  | arr (xs : List JValue) : JValue
  | obj (ms : List (List Char × List Char × JValue)) : JValue

/-- One object member: key, raw text of the value, decoded value. -/
abbrev Member := List Char × List Char × JValue

/-- The four JSON whitespace characters. -/
def isWS (c : Char) : Bool :=
  c = ' ' || c = '\t' || c = '\r' || c = '\n'

/-- Drop leading JSON whitespace. -/
def skipWS : List Char → List Char
  | [] => []
  | c :: r => if isWS c then skipWS r else c :: r

def isDigit (c : Char) : Bool := 48 ≤ c.toNat && c.toNat ≤ 57

def isHex (c : Char) : Bool :=
  isDigit c || (97 ≤ c.toNat && c.toNat ≤ 102) || (65 ≤ c.toNat && c.toNat ≤ 70)

/-- The characters allowed after a backslash, `u` apart. -/
def isSimpleEscape (c : Char) : Bool :=
  c = '"' || c = '\\' || c = '/' || c = 'b' || c = 'f' || c = 'n' || c = 'r' || c = 't'

/-- Scan a string literal after its opening quote: the body between the
quotes (escapes not yet interpreted) and the input after the closing quote. -/
def scanStr : List Char → Option (List Char × List Char)
  | [] => none
  | c :: r =>
    if c = '"' then some ([], r)
    else if c = '\\' then
      match r with
      | [] => none
      | e :: r2 =>
        if e = 'u' then
          match r2 with
          | h1 :: h2 :: h3 :: h4 :: r3 =>
            if isHex h1 && isHex h2 && isHex h3 && isHex h4 then
              match scanStr r3 with
              | some (b, rest) => some (c :: e :: h1 :: h2 :: h3 :: h4 :: b, rest)
              | none => none
            else none
          | _ => none
        else if isSimpleEscape e then
          match scanStr r2 with
          | some (b, rest) => some (c :: e :: b, rest)
          | none => none
        else none
    else if c.toNat < 32 then none
    else
      match scanStr r with
      | some (b, rest) => some (c :: b, rest)
      | none => none

def hexVal (c : Char) : Nat :=
  if isDigit c then c.toNat - 48
  else if 97 ≤ c.toNat && c.toNat ≤ 102 then c.toNat - 87
  else c.toNat - 55

def hex4 (h1 h2 h3 h4 : Char) : Nat :=
  ((hexVal h1 * 16 + hexVal h2) * 16 + hexVal h3) * 16 + hexVal h4

/-- The character a simple escape stands for. -/
def unescape (e : Char) : Char :=
  if e = 'b' then Char.ofNat 8
  else if e = 'f' then Char.ofNat 12
  else if e = 'n' then '\n'
  else if e = 'r' then '\r'
  else if e = 't' then '\t'
  else e

/-- Interpret the escapes of a scanned string body (`unquote` of
`encoding/json`): a `\u` surrogate pair gives one character, a lone
surrogate gives U+FFFD. -/
def unquote : Nat → List Char → List Char
  | 0, _ => []
  | _ + 1, [] => []
  | n + 1, c :: r =>
    if c = '\\' then
      match r with
      | [] => []
      | e :: r2 =>
        if e = 'u' then
          match r2 with
          | h1 :: h2 :: h3 :: h4 :: r3 =>
            let u := hex4 h1 h2 h3 h4
            if 0xD800 ≤ u && u < 0xE000 then
              match r3 with
              | b :: v :: g1 :: g2 :: g3 :: g4 :: r4 =>
                let w := hex4 g1 g2 g3 g4
                if b = '\\' && v = 'u' && isHex g1 && isHex g2 && isHex g3 && isHex g4
                    && u < 0xDC00 && 0xDC00 ≤ w && w < 0xE000 then
                  Char.ofNat ((u - 0xD800) * 1024 + (w - 0xDC00) + 0x10000) :: unquote n r4
                else Char.ofNat 0xFFFD :: unquote n r3
              | _ => Char.ofNat 0xFFFD :: unquote n r3
            else Char.ofNat u :: unquote n r3
          | _ => []
        else unescape e :: unquote n r2
    else c :: unquote n r

/-- Scan the digits of a number part: at least one digit, then the rest. -/
def scanDigits (s : List Char) : Option (List Char) :=
  match s with
  | c :: r => if isDigit c then some (r.dropWhile isDigit) else none
  | [] => none

/-- Optional fraction part. -/
def scanFrac (s : List Char) : Option (List Char) :=
  match s with
  | c :: r => if c = '.' then scanDigits r else some s
  | [] => some s

/-- Optional exponent part. -/
def scanExp (s : List Char) : Option (List Char) :=
  match s with
  | c :: r =>
    if c = 'e' || c = 'E' then
      match r with
      | d :: r2 => if d = '+' || d = '-' then scanDigits r2 else scanDigits r
      | [] => none
    else some s
  | [] => some s

/-- Integer part, without sign: `0`, or a non-zero digit and more digits. -/
def scanInt (s : List Char) : Option (List Char) :=
  match s with
  | c :: r => if c = '0' then some r else scanDigits s
  | [] => none

/-- Scan a number literal; the input after it. -/
def scanNumber (s : List Char) : Option (List Char) :=
  match s with
  | c :: r =>
    match (if c = '-' then scanInt r else scanInt s) with
    | some r1 =>
      match scanFrac r1 with
      | some r2 => scanExp r2
      | none => none
    | none => none
  | [] => none

/-- Drop a literal word from the front of the input. -/
def dropWord : List Char → List Char → Option (List Char)
  | [], s => some s
  | _ :: _, [] => none
  | w :: ws, c :: r => if c = w then dropWord ws r else none

/-- The text a parser consumed, given its input and what it left. -/
def consumed (s rest : List Char) : List Char := s.take (s.length - rest.length)

/-- The bound of `encoding/json` on the number of arrays and objects open at
once: a text nested deeper is refused. -/
def maxNestingDepth : Nat := 10000

mutual
/-- Parse one JSON value at the head of the input (no leading whitespace);
`dep` is the number of arrays and objects open around it. -/
def parseValue : Nat → Nat → List Char → Option (JValue × List Char)
  | 0, _, _ => none
  | n + 1, dep, s =>
    match s with
    | [] => none
    | c :: r =>
      if c = '{' then
        if maxNestingDepth ≤ dep then none
        else
          match skipWS r with
          | d :: r2 =>
            if d = '}' then some (JValue.obj [], r2)
            else
              match parseMembers n (dep + 1) (d :: r2) with
              | some (ms, rest) => some (JValue.obj ms, rest)
              | none => none
          | [] => none
      else if c = '[' then
        if maxNestingDepth ≤ dep then none
        else
          match skipWS r with
          | d :: r2 =>
            if d = ']' then some (JValue.arr [], r2)
            else
              match parseElems n (dep + 1) (d :: r2) with
              | some (xs, rest) => some (JValue.arr xs, rest)
              | none => none
          | [] => none
      else if c = '"' then
        match scanStr r with
        | some (b, rest) => some (JValue.str (unquote (b.length + 1) b), rest)
        | none => none
      else if c = 't' then (dropWord ['r', 'u', 'e'] r).map (fun rest => (JValue.bool true, rest))
      else if c = 'f' then
        (dropWord ['a', 'l', 's', 'e'] r).map (fun rest => (JValue.bool false, rest))
      else if c = 'n' then (dropWord ['u', 'l', 'l'] r).map (fun rest => (JValue.null, rest))
      else (scanNumber s).map (fun rest => (JValue.num, rest))
/-- Parse the members of an object up to and including the closing brace;
the input starts at the first key. -/
def parseMembers : Nat → Nat → List Char → Option (List Member × List Char)
  | 0, _, _ => none
  | n + 1, dep, s =>
    match s with
    | [] => none
    | q :: r =>
      if q = '"' then
        match scanStr r with
        | none => none
        | some (kb, r1) =>
          match skipWS r1 with
          | [] => none
          | col :: r2 =>
            if col = ':' then
              match parseValue n dep (skipWS r2) with
              | none => none
              | some (v, r3) =>
                let m : Member := (unquote (kb.length + 1) kb, consumed (skipWS r2) r3, v)
                match skipWS r3 with
                | [] => none
                | sep :: r4 =>
                  if sep = '}' then some ([m], r4)
                  else if sep = ',' then
                    match parseMembers n dep (skipWS r4) with
                    | some (ms, rest) => some (m :: ms, rest)
                    | none => none
                  else none
            else none
      else none
/-- Parse the elements of an array up to and including the closing bracket;
the input starts at the first element. -/
def parseElems : Nat → Nat → List Char → Option (List JValue × List Char)
  | 0, _, _ => none
  | n + 1, dep, s =>
    match parseValue n dep s with
    | none => none
    | some (v, r1) =>
      match skipWS r1 with
      | [] => none
      | sep :: r2 =>
        if sep = ']' then some ([v], r2)
        else if sep = ',' then
          match parseElems n dep (skipWS r2) with
          | some (xs, rest) => some (v :: xs, rest)
          | none => none
        else none
end

/-- A whole JSON text: optional whitespace, one value, optional whitespace.
Returns the value and its text without the surrounding whitespace. `none`
is the `SyntaxError` of `encoding/json`, also given for a text nested
deeper than `maxNestingDepth`. -/
def parseJSON (b : List Char) : Option (JValue × List Char) :=
  match parseValue (b.length + 1) 0 (skipWS b) with
  | some (v, rest) =>
    match skipWS rest with
    | [] => some (v, consumed (skipWS b) rest)
    | _ :: _ => none
  | none => none


/-! ## Struct decoding of `encoding/json` -/

/-- Case folding of one character of an object key, as far as it can reach
an ASCII field name: ASCII upper case to lower case, the Kelvin sign to `k`
and the long s to `s`. -/
def foldChar (c : Char) : Char :=
  if 65 ≤ c.toNat && c.toNat ≤ 90 then Char.ofNat (c.toNat + 32)
  else if c.toNat = 0x212A then 'k'
  else if c.toNat = 0x17F then 's'
  else c

/-- An object key selects the field tagged `name`: exact match, or else a
match up to case folding. -/
def keyMatches (name key : List Char) : Bool :=
  key = name || key.map foldChar = name.map foldChar

/-- A JSON value is acceptable for a Go `string` field: a string, or `null`
(which leaves the field as it is). Anything else is an
`UnmarshalTypeError`. -/
def okString : JValue → Bool
  | JValue.str _ => true
  | JValue.null => true
  | _ => false

/-- Decode the members of an object into a `string` field: every member
whose key matches stores its string; `null` and ill-typed values leave the
field unchanged. -/
def strField (name : List Char) : List Member → List Char → List Char
  | [], acc => acc
  | m :: ms, acc =>
    strField name ms
      (if keyMatches name m.1 then
        (match m.2.2 with
         | JValue.str s => s
         | _ => acc)
       else acc)

/-- No member matching the `string` field `name` has an ill-typed value. -/
def strFieldOK (name : List Char) (ms : List Member) : Bool :=
  ms.all (fun m => !keyMatches name m.1 || okString m.2.2)

/-- Decode the members of an object into a `json.RawMessage` field: every
member whose key matches stores the raw text of its value, whatever the
value is (`null` included). -/
def rawField (name : List Char) : List Member → List Char → List Char
  | [], acc => acc
  | m :: ms, acc => rawField name ms (if keyMatches name m.1 then m.2.1 else acc)

/-- Decode the elements of a JSON array into the elements of a `[]string`
whose backing array holds `backing`: a string is stored; `null` (and an
ill-typed element) leaves what the backing array holds at that index, the
empty string beyond its end. -/
def strElems : List JValue → List (List Char) → List (List Char)
  | [], _ => []
  | x :: xs, backing =>
    (match x with
     | JValue.str s => s
     | _ => backing.headD []) :: strElems xs backing.tail

/-- A JSON value is acceptable for a `[]string` field. -/
def okStrings : JValue → Bool
  | JValue.arr xs => xs.all okString
  | JValue.null => true
  | _ => false

/-- Decode one JSON value into a `[]string` field, given as its elements and
the rest of its backing array: an array is decoded element by element over
the backing array and sets the length (the empty array gives a fresh empty
slice); `null` gives the nil slice; an ill-typed value leaves the field as
it is. A nil slice and an empty slice are both the empty list. -/
def strsStore (v : JValue) (acc : List (List Char) × List (List Char)) :
    List (List Char) × List (List Char) :=
  match v with
  | JValue.arr [] => ([], [])
  | JValue.arr xs => (strElems xs (acc.1 ++ acc.2), (acc.1 ++ acc.2).drop xs.length)
  | JValue.null => ([], [])
  | _ => acc

/-- Decode the members of an object into a `[]string` field: every member
whose key matches is stored in turn. -/
def strsField (name : List Char) :
    List Member → List (List Char) × List (List Char) → List (List Char) × List (List Char)
  | [], acc => acc
  | m :: ms, acc =>
    strsField name ms (if keyMatches name m.1 then strsStore m.2.2 acc else acc)

/-- No member matching the `[]string` field `name` has an ill-typed value. -/
def strsFieldOK (name : List Char) (ms : List Member) : Bool :=
  ms.all (fun m => !keyMatches name m.1 || okStrings m.2.2)

/-! ## Data model -/

/-- The Go types that occur as values of `eventMapping` (the dynamic type of
a decoded event is a pointer to one of them). -/
inductive Shape where
  | MessageEvent
  | PresenceChangeEvent
  | UserTypingEvent
  | ChannelMarkedEvent
  | ChannelCreatedEvent
  | ChannelJoinedEvent
  | ChannelLeftEvent
  | ChannelDeletedEvent
  | ChannelRenameEvent
  | ChannelArchiveEvent
  | ChannelUnarchiveEvent
  | ChannelHistoryChangedEvent
  | DNDUpdatedEvent
  | IMCreatedEvent
  | IMOpenEvent
  | IMCloseEvent
  | IMMarkedEvent
  | IMHistoryChangedEvent
  | GroupMarkedEvent
  | GroupOpenEvent
  | GroupJoinedEvent
  | GroupLeftEvent
  | GroupCloseEvent
  | GroupRenameEvent
  | GroupArchiveEvent
  | GroupUnarchiveEvent
  | GroupHistoryChangedEvent
  | FileCreatedEvent
  | FileSharedEvent
  | FileUnsharedEvent
  | FilePublicEvent
  | FilePrivateEvent
  | FileChangeEvent
  | FileDeletedEvent
  | FileCommentAddedEvent
  | FileCommentEditedEvent
  | FileCommentDeletedEvent
  | PinAddedEvent
  | PinRemovedEvent
  | StarAddedEvent
  | StarRemovedEvent
  | ReactionAddedEvent
  | ReactionRemovedEvent
  | PrefChangeEvent
  | TeamJoinEvent
  | TeamRenameEvent
  | TeamPrefChangeEvent
  | TeamDomainChangeEvent
  | TeamMigrationStartedEvent
  | ManualPresenceChangeEvent
  | UserChangeEvent
  | EmojiChangedEvent
  | CommandsChangedEvent
  | EmailDomainChangedEvent
  | BotAddedEvent
  | BotChangedEvent
  | AccountsChangedEvent
  | ReconnectUrlEvent
  | EventCallback
  | EventURLVerification
  deriving DecidableEq, Repr
/-- `EventUnmarshaller`: a mapping of event types to unmarshalling targets,
`map[string]interface{}` with each value represented by its type. -/
abbrev EventUnmarshaller := List (List Char × Shape)

/-- The package-level table `eventMapping`: event name to the type of its
unmarshalling target. -/
def eventMapping : EventUnmarshaller :=
  [("message".toList, Shape.MessageEvent),
   ("message.channels".toList, Shape.MessageEvent),
   ("message.groups".toList, Shape.MessageEvent),
   ("message.im".toList, Shape.MessageEvent),
   ("message.mpim".toList, Shape.MessageEvent),
   ("presence_change".toList, Shape.PresenceChangeEvent),
   ("user_typing".toList, Shape.UserTypingEvent),
   ("channel_marked".toList, Shape.ChannelMarkedEvent),
   ("channel_created".toList, Shape.ChannelCreatedEvent),
   ("channel_joined".toList, Shape.ChannelJoinedEvent),
   ("channel_left".toList, Shape.ChannelLeftEvent),
   ("channel_deleted".toList, Shape.ChannelDeletedEvent),
   ("channel_rename".toList, Shape.ChannelRenameEvent),
   ("channel_archive".toList, Shape.ChannelArchiveEvent),
   ("channel_unarchive".toList, Shape.ChannelUnarchiveEvent),
   ("channel_history_changed".toList, Shape.ChannelHistoryChangedEvent),
   ("dnd_updated".toList, Shape.DNDUpdatedEvent),
   ("dnd_updated_user".toList, Shape.DNDUpdatedEvent),
   ("im_created".toList, Shape.IMCreatedEvent),
   ("im_open".toList, Shape.IMOpenEvent),
   ("im_close".toList, Shape.IMCloseEvent),
   ("im_marked".toList, Shape.IMMarkedEvent),
   ("im_history_changed".toList, Shape.IMHistoryChangedEvent),
   ("group_marked".toList, Shape.GroupMarkedEvent),
   ("group_open".toList, Shape.GroupOpenEvent),
   ("group_joined".toList, Shape.GroupJoinedEvent),
   ("group_left".toList, Shape.GroupLeftEvent),
   ("group_close".toList, Shape.GroupCloseEvent),
   ("group_rename".toList, Shape.GroupRenameEvent),
   ("group_archive".toList, Shape.GroupArchiveEvent),
   ("group_unarchive".toList, Shape.GroupUnarchiveEvent),
   ("group_history_changed".toList, Shape.GroupHistoryChangedEvent),
   ("file_created".toList, Shape.FileCreatedEvent),
   ("file_shared".toList, Shape.FileSharedEvent),
   ("file_unshared".toList, Shape.FileUnsharedEvent),
   ("file_public".toList, Shape.FilePublicEvent),
   ("file_private".toList, Shape.FilePrivateEvent),
   ("file_change".toList, Shape.FileChangeEvent),
   ("file_deleted".toList, Shape.FileDeletedEvent),
   ("file_comment_added".toList, Shape.FileCommentAddedEvent),
   ("file_comment_edited".toList, Shape.FileCommentEditedEvent),
   ("file_comment_deleted".toList, Shape.FileCommentDeletedEvent),
   ("pin_added".toList, Shape.PinAddedEvent),
   ("pin_removed".toList, Shape.PinRemovedEvent),
   ("star_added".toList, Shape.StarAddedEvent),
   ("star_removed".toList, Shape.StarRemovedEvent),
   ("reaction_added".toList, Shape.ReactionAddedEvent),
   ("reaction_removed".toList, Shape.ReactionRemovedEvent),
   ("pref_change".toList, Shape.PrefChangeEvent),
   ("team_join".toList, Shape.TeamJoinEvent),
   ("team_rename".toList, Shape.TeamRenameEvent),
   ("team_pref_change".toList, Shape.TeamPrefChangeEvent),
   ("team_domain_change".toList, Shape.TeamDomainChangeEvent),
   ("team_migration_started".toList, Shape.TeamMigrationStartedEvent),
   ("manual_presence_change".toList, Shape.ManualPresenceChangeEvent),
   ("user_change".toList, Shape.UserChangeEvent),
   ("emoji_changed".toList, Shape.EmojiChangedEvent),
   ("commands_changed".toList, Shape.CommandsChangedEvent),
   ("email_domain_changed".toList, Shape.EmailDomainChangedEvent),
   ("bot_added".toList, Shape.BotAddedEvent),
   ("bot_changed".toList, Shape.BotChangedEvent),
   ("accounts_changed".toList, Shape.AccountsChangedEvent),
   ("reconnect_url".toList, Shape.ReconnectUrlEvent),
   ("event_callback".toList, Shape.EventCallback),
   ("url_verification".toList, Shape.EventURLVerification)]
/-- The errors of a decode. `malformed` and `mismatch` are the `SyntaxError`
and `UnmarshalTypeError` of `encoding/json`; `unmapped` is the error built
by `fmt.Errorf` in `Unmarshal`, with its two arguments; `exhausted` marks a
decode cut short by the recursion bound of this embedding. -/
inductive DecodeError where
  | malformed
  | mismatch
  | unmapped (eventType : List Char) (jsonEvent : List Char)
  | exhausted
  deriving DecidableEq, Repr

/-- The struct `Event`: the header holding only the event type. -/
structure Event where
  Type_ : List Char
  deriving DecidableEq, Repr

/-- The struct `EventURLVerification`. -/
structure EventURLVerification where
  Token : List Char
  Challenge : List Char
  Type_ : List Char
  deriving DecidableEq, Repr

/-- Modelled from the spec: the struct `MessageEvent` is declared outside
`events.go`; its fields are those the specification and `events_test.go`
name, with JSON keys `type`, `channel`, `user`, `text`, `ts`. -/
structure MessageEvent where
  Type_ : List Char
  Channel : List Char
  User : List Char
  Text : List Char
  Timestamp : List Char
  deriving DecidableEq, Repr

/-- Modelled from the spec: the item of a `ReactionAddedEvent`, declared
outside `events.go`, with JSON keys `type`, `channel`, `ts`. -/
structure ReactionItem where
  Type_ : List Char
  Channel : List Char
  Timestamp : List Char
  deriving DecidableEq, Repr

/-- Modelled from the spec: the struct `ReactionAddedEvent` is declared
outside `events.go`; its fields are those the specification and
`events_test.go` name, with JSON keys `type`, `user`, `item`, `reaction`. -/
structure ReactionAddedEvent where
  Type_ : List Char
  User : List Char
  Item : ReactionItem
  Reaction : List Char
  deriving DecidableEq, Repr

/-- The struct `EventCallback`, over the type `ε` of decoded events; `Event`
is the `interface{}` field, `none` for nil. -/
structure EventCallback (ε : Type) where
  Token : List Char
  TeamID : List Char
  APIAppID : List Char
  RawEvent : List Char
  Event : Option ε
  EventTS : List Char
  Type_ : List Char
  AuthedUsers : List (List Char)

/-- A decoded event: the value behind the `interface{}` that `Unmarshal`
returns. `other t a` is a value of a type `t` declared outside `events.go`,
with contents `a`. -/
inductive Decoded (α : Type) where
  | eventCallback (e : EventCallback (Decoded α)) : Decoded α
  | urlVerification (e : EventURLVerification) : Decoded α
  | message (e : MessageEvent) : Decoded α
  | reactionAdded (e : ReactionAddedEvent) : Decoded α
  | other (t : Shape) (a : α) : Decoded α

/-- The dynamic type of a decoded event. -/
def Decoded.shape {α : Type} : Decoded α → Shape
  | Decoded.eventCallback _ => Shape.EventCallback
  | Decoded.urlVerification _ => Shape.EventURLVerification
  | Decoded.message _ => Shape.MessageEvent
  | Decoded.reactionAdded _ => Shape.ReactionAddedEvent
  | Decoded.other t _ => t

/-! ## Decoding into the structs -/

/-- `json.Unmarshal(b, p)` for `p` pointing to a struct without an
`UnmarshalJSON` method, holding `init`: a `SyntaxError` on invalid input; an
object is decoded member by member by `fields` (`none` when some member is
ill-typed); `null` leaves the struct as it is; any other value is a type
error. -/
def unmarshalStruct {σ : Type} (fields : List Member → σ → Option σ) (init : σ)
    (b : List Char) : Except DecodeError σ :=
  match parseJSON b with
  | none => Except.error DecodeError.malformed
  | some (v, _) =>
    match v with
    | JValue.obj ms =>
      match fields ms init with
      | some x => Except.ok x
      | none => Except.error DecodeError.mismatch
    | JValue.null => Except.ok init
    | _ => Except.error DecodeError.mismatch

/-- Field decoding of `Event`. -/
def eventFields (ms : List Member) (init : Event) : Option Event :=
  if strFieldOK "type".toList ms then
    some { Type_ := strField "type".toList ms init.Type_ }
  else none

/-- Field decoding of `EventURLVerification`. -/
def urlVerificationFields (ms : List Member) (init : EventURLVerification) :
    Option EventURLVerification :=
  if strFieldOK "token".toList ms && strFieldOK "challenge".toList ms
      && strFieldOK "type".toList ms then
    some { Token := strField "token".toList ms init.Token
           Challenge := strField "challenge".toList ms init.Challenge
           Type_ := strField "type".toList ms init.Type_ }
  else none

/-- Field decoding of `MessageEvent`. -/
def messageFields (ms : List Member) (init : MessageEvent) : Option MessageEvent :=
  if strFieldOK "type".toList ms && strFieldOK "channel".toList ms
      && strFieldOK "user".toList ms && strFieldOK "text".toList ms
      && strFieldOK "ts".toList ms then
    some { Type_ := strField "type".toList ms init.Type_
           Channel := strField "channel".toList ms init.Channel
           User := strField "user".toList ms init.User
           Text := strField "text".toList ms init.Text
           Timestamp := strField "ts".toList ms init.Timestamp }
  else none

/-- A JSON value is acceptable for the struct field `Item`: an object with
well-typed members, or `null`. -/
def okItem : JValue → Bool
  | JValue.obj ms =>
    strFieldOK "type".toList ms && strFieldOK "channel".toList ms && strFieldOK "ts".toList ms
  | JValue.null => true
  | _ => false

/-- Decode the members of an object into the struct field `Item`: every
matching member that is an object is decoded into the item in place. -/
def itemField (name : List Char) : List Member → ReactionItem → ReactionItem
  | [], acc => acc
  | m :: ms, acc =>
    itemField name ms
      (if keyMatches name m.1 then
        (match m.2.2 with
         | JValue.obj ims =>
           { Type_ := strField "type".toList ims acc.Type_
             Channel := strField "channel".toList ims acc.Channel
             Timestamp := strField "ts".toList ims acc.Timestamp }
         | _ => acc)
       else acc)

/-- Field decoding of `ReactionAddedEvent`. -/
def reactionAddedFields (ms : List Member) (init : ReactionAddedEvent) :
    Option ReactionAddedEvent :=
  if strFieldOK "type".toList ms && strFieldOK "user".toList ms
      && ms.all (fun m => !keyMatches "item".toList m.1 || okItem m.2.2)
      && strFieldOK "reaction".toList ms then
    some { Type_ := strField "type".toList ms init.Type_
           User := strField "user".toList ms init.User
           Item := itemField "item".toList ms init.Item
           Reaction := strField "reaction".toList ms init.Reaction }
  else none

/-- Field decoding of `serializedEventCallback`, the alias of
`EventCallback` without the `UnmarshalJSON` method; `Event` is tagged `-`
and is not touched. The slice `AuthedUsers` of the receiver is taken to
have no spare capacity. -/
def callbackFields {ε : Type} (ms : List Member) (init : EventCallback ε) :
    Option (EventCallback ε) :=
  if strFieldOK "token".toList ms && strFieldOK "team_id".toList ms
      && strFieldOK "api_app_id".toList ms && strFieldOK "event_ts".toList ms
      && strFieldOK "type".toList ms && strsFieldOK "authed_users".toList ms then
    some { Token := strField "token".toList ms init.Token
           TeamID := strField "team_id".toList ms init.TeamID
           APIAppID := strField "api_app_id".toList ms init.APIAppID
           RawEvent := rawField "event".toList ms init.RawEvent
           Event := init.Event
           EventTS := strField "event_ts".toList ms init.EventTS
           Type_ := strField "type".toList ms init.Type_
           AuthedUsers := (strsField "authed_users".toList ms (init.AuthedUsers, [])).1 }
  else none

/-- The zero value `EventCallback{}`. -/
def EventCallback.zero {ε : Type} : EventCallback ε :=
  { Token := [], TeamID := [], APIAppID := [], RawEvent := [], Event := none,
    EventTS := [], Type_ := [], AuthedUsers := [] }

/-! ## The functions of `events.go` -/

/-- `(e *EventCallback) UnmarshalJSON(b)`, with `unmarshal` standing for
`eventMapping.Unmarshal` and `e` for the contents of the receiver: decode
`b` into the alias type, then decode `RawEvent` and store the result in
`Event`. The result is the receiver on success, the returned error
otherwise. -/
def EventCallback.UnmarshalJSON {ε : Type} (unmarshal : List Char → Except DecodeError ε)
    (e : EventCallback ε) (b : List Char) : Except DecodeError (EventCallback ε) :=
  match unmarshalStruct callbackFields e b with
  | Except.error err => Except.error err
  | Except.ok cb =>
    match unmarshal cb.RawEvent with
    | Except.error err => Except.error err
    | Except.ok ev => Except.ok { cb with Event := some ev }

/-- `event := reflect.New(t).Interface(); err = json.Unmarshal(jsonEvent, event)`:
decode into a fresh value of type `t`. The input is checked for validity; a
`*EventCallback` is decoded by its `UnmarshalJSON` method, which receives the
text of the value without the surrounding whitespace; the types declared
outside `events.go` are decoded by `ext` (`none` for an error). -/
def unmarshalNew {α : Type} (ext : Shape → List Char → Option α)
    (unmarshal : List Char → Except DecodeError (Decoded α)) (t : Shape)
    (jsonEvent : List Char) : Except DecodeError (Decoded α) :=
  match t with
  | Shape.EventCallback =>
    match parseJSON jsonEvent with
    | none => Except.error DecodeError.malformed
    | some (_, raw) =>
      match EventCallback.UnmarshalJSON unmarshal EventCallback.zero raw with
      | Except.error err => Except.error err
      | Except.ok e => Except.ok (Decoded.eventCallback e)
  | Shape.EventURLVerification =>
    match unmarshalStruct urlVerificationFields ⟨[], [], []⟩ jsonEvent with
    | Except.error err => Except.error err
    | Except.ok e => Except.ok (Decoded.urlVerification e)
  | Shape.MessageEvent =>
    match unmarshalStruct messageFields ⟨[], [], [], [], []⟩ jsonEvent with
    | Except.error err => Except.error err
    | Except.ok e => Except.ok (Decoded.message e)
  | Shape.ReactionAddedEvent =>
    match unmarshalStruct reactionAddedFields ⟨[], [], ⟨[], [], []⟩, []⟩ jsonEvent with
    | Except.error err => Except.error err
    | Except.ok e => Except.ok (Decoded.reactionAdded e)
  | t =>
    match ext t jsonEvent with
    | some a => Except.ok (Decoded.other t a)
    | none => Except.error DecodeError.mismatch

/-- The body of `(e *EventUnmarshaller) Unmarshal(jsonEvent)`, with a bound
on the depth of nested envelopes. The receiver `e` (`none` for a nil
pointer) is not read: the lookup is in the package-level `eventMapping`. -/
def unmarshalFuel {α : Type} (ext : Shape → List Char → Option α) :
    Nat → Option EventUnmarshaller → List Char → Except DecodeError (Decoded α)
  | 0, _, _ => Except.error DecodeError.exhausted
  | n + 1, _, jsonEvent =>
    match unmarshalStruct eventFields ⟨[]⟩ jsonEvent with
    | Except.error err => Except.error err
    | Except.ok eventHeader =>
      match eventMapping.lookup eventHeader.Type_ with
      | none => Except.error (DecodeError.unmapped eventHeader.Type_ jsonEvent)
      | some t => unmarshalNew ext (unmarshalFuel ext n (some eventMapping)) t jsonEvent

/-- `(e *EventUnmarshaller) Unmarshal(jsonEvent)`. Every nested envelope is
strictly shorter than the one around it, so the length of the input bounds
the depth. -/
def EventUnmarshaller.Unmarshal {α : Type} (ext : Shape → List Char → Option α)
    (e : Option EventUnmarshaller) (jsonEvent : List Char) :
    Except DecodeError (Decoded α) :=
  unmarshalFuel ext (jsonEvent.length + 1) e jsonEvent

/-- The message of the error built by
`fmt.Errorf("Event Error: Received unmapped event %q: %s\n", ...)`; `quote`
is the `%q` formatting of a string. -/
def unmappedMessage (quote : List Char → List Char) (eventType jsonEvent : List Char) :
    List Char :=
  "Event Error: Received unmapped event ".toList ++ quote eventType ++ ": ".toList
    ++ jsonEvent ++ "\n".toList

/-! ## The inputs of `events_test.go` -/

/-- `newEventCallback(eventJSON)` of the tests: an envelope around the given
inner event. -/
def newEventCallback (eventJSON : List Char) : List Char :=
  "\n    \x7b\n      \"token\": \"z26uFbvR1xHJEdHE1OQiO6t8\",\n      \"team_id\": \"T061EG9RZ\",\n      \"api_app_id\": \"A0FFV41KK\",\n      \"event\": ".toList
    ++ eventJSON ++
  ",\n      \"event_ts\": \"1465244570.336841\",\n      \"type\": \"event_callback\",\n      \"authed_users\": [\n              \"U061F7AUR\"\n      ]\n    \x7d\n    ".toList

/-- The constant `reactionAddedJSON` of the tests. -/
def reactionAddedJSON : List Char :=
  "\x7b\n  \"type\": \"reaction_added\",\n  \"user\": \"U061F1EUR\",\n  \"item\": \x7b\n          \"type\": \"message\",\n          \"channel\": \"C061EG9SL\",\n          \"ts\": \"1464196127.000002\"\n  \x7d,\n  \"reaction\": \"slightly_smiling_face\"\n\x7d".toList

/-- The constant `urlVerification` of the tests. -/
def urlVerification : List Char :=
  "\n\x7b\n  \"token\": \"Jhj5dZrVaK7ZwHHjRyZWjbDl\",\n  \"challenge\": \"3eZbrw1aBm2rZgRNFdxV2595E9CY3gmdALWMmHkvFXO7tYXAYM8P\",\n  \"type\": \"url_verification\"\n\x7d\n".toList

/-- The constant `messageChannelJSON` of the tests. -/
def messageChannelJSON : List Char :=
  "\x7b\n    \"type\": \"message.channels\",\n    \"channel\": \"C2147483705\",\n    \"user\": \"U2147483697\",\n    \"text\": \"Hello world\",\n    \"ts\": \"1355517523.000005\"\n\x7d".toList

/-- An `ext` that decodes no payload: enough wherever only the types of
`events.go` and the two modelled structs occur. -/
def noExt : Shape → List Char → Option Unit := fun _ _ => none

/-! ## Reading a payload

What "the payload's `token`" and the like mean in the statements below. -/

/-- The members of an object whose key selects the field tagged `name`. -/
def matching (name : List Char) (ms : List Member) : List Member :=
  ms.filter (fun m => keyMatches name m.1)

/-- The payload's string under `name`: the string of the one member with
that key; the empty string when no member has the key or the one member is
`null`; undefined (`none`) when the key occurs twice or holds anything
else. -/
def strOf (name : List Char) (ms : List Member) : Option (List Char) :=
  match matching name ms with
  | [] => some []
  | [m] =>
    match m.2.2 with
    | JValue.str s => some s
    | JValue.null => some []
    | _ => none
  | _ => none

/-- The strings of a JSON array, when all its elements are strings. -/
def strings : List JValue → Option (List (List Char))
  | [] => some []
  | JValue.str s :: xs =>
    match strings xs with
    | some ss => some (s :: ss)
    | none => none
  | _ :: _ => none

/-- The payload's list of strings under `name`: the array of strings of the
one member with that key; empty when no member has the key or the one
member is `null`. -/
def strsOf (name : List Char) (ms : List Member) : Option (List (List Char)) :=
  match matching name ms with
  | [] => some []
  | [m] =>
    match m.2.2 with
    | JValue.arr xs => strings xs
    | JValue.null => some []
    | _ => none
  | _ => none

/-- The payload's raw document under `name`: the text of the value of the
one member with that key. -/
def rawOf (name : List Char) (ms : List Member) : Option (List Char) :=
  match matching name ms with
  | [m] => some m.2.1
  | _ => none

/-- The event type that the header pass of `Unmarshal` leaves in
`eventHeader.Type`, whether or not that pass reports an error: empty unless
the payload is an object with a string under `type`. -/
def discriminant (b : List Char) : List Char :=
  match parseJSON b with
  | some (JValue.obj ms, _) => strField "type".toList ms []
  | _ => []

/-- The contents of `RawEvent` after the alias decode of `UnmarshalJSON` on a
fresh receiver, whether or not that decode reports an error: the envelope's
inner event payload (empty unless the payload is an object with an `event`
member). -/
def rawEventOf (b : List Char) : List Char :=
  match parseJSON b with
  | some (JValue.obj ms, _) => rawField "event".toList ms []
  | _ => []

/-- The five event names of messages. -/
def messageAliases : List (List Char) :=
  ["message".toList, "message.channels".toList, "message.groups".toList, "message.im".toList,
   "message.mpim".toList]

/-- A small envelope around a message. -/
def smallEnvelope : List Char :=
  "\x7b\"type\":\"event_callback\",\"event\":\x7b\"type\":\"message\",\"text\":\"hi\"\x7d\x7d".toList

/-- The `EventCallback` that `smallEnvelope` decodes to. -/
def smallCallback : EventCallback (Decoded Unit) :=
  { Token := [], TeamID := [], APIAppID := []
    RawEvent := "\x7b\"type\":\"message\",\"text\":\"hi\"\x7d".toList
    Event := some (Decoded.message ⟨"message".toList, [], [], "hi".toList, []⟩)
    EventTS := [], Type_ := "event_callback".toList, AuthedUsers := [] }

/-- An envelope whose inner event is itself an envelope, around a message. -/
def nestedEnvelope : List Char :=
  "\x7b\"type\":\"event_callback\",\"event\":\x7b\"type\":\"event_callback\",\"event\":\x7b\"type\":\"message\"\x7d\x7d\x7d".toList

/-- An envelope with an ill-typed `token` around an event of the
unregistered type `bogus`. -/
def badEnvelope : List Char :=
  "\x7b\"type\":\"event_callback\",\"token\":5,\"event\":\x7b\"type\":\"bogus\"\x7d\x7d".toList

/-- An envelope with well-typed fields around an event of the unregistered
type `bogus`. -/
def bogusEnvelope : List Char :=
  "\x7b\"type\":\"event_callback\",\"token\":\"t\",\"event\":\x7b\"type\":\"bogus\"\x7d\x7d".toList

/-! ## Payloads written out -/

/-- A string that stands for itself between the quotes of a JSON string
literal: no quote, no backslash, no control character. -/
def plain (s : List Char) : Bool :=
  s.all (fun c => !decide (c = '"') && !decide (c = '\\') && !decide (c.toNat < 32))

/-- The lower-case hexadecimal digit for a number below 16. -/
def hexChar (d : Nat) : Char := "0123456789abcdef".toList.getD d '0'

/-- One character as a JSON encoder writes it between the quotes of a
string literal: a quote and a backslash behind a backslash, a control
character as `\u00XX`, any other character as it is. -/
def quoteChar (c : Char) : List Char :=
  if c = '"' then ['\\', '"']
  else if c = '\\' then ['\\', '\\']
  else if c.toNat < 32 then ['\\', 'u', '0', '0', hexChar (c.toNat / 16), hexChar (c.toNat % 16)]
  else [c]

/-- A string as a JSON encoder writes it between the quotes of a string
literal. -/
def quoteBody : List Char → List Char
  | [] => []
  | c :: s => quoteChar c ++ quoteBody s

/-- The text `{"token":"t","challenge":"c","type":"url_verification"}`, with
`t` and `c` put between the quotes as they are. -/
def urlVerificationText (t c : List Char) : List Char :=
  "\x7b\"token\":\"".toList ++ t ++ "\",\"challenge\":\"".toList ++ c
    ++ "\",\"type\":\"url_verification\"\x7d".toList

/-- The text `{"type":"d","channel":"ch","user":"us","text":"tx","ts":"ts"}`
of a message payload, with the five arguments put between the quotes as they
are. -/
def messageText (d ch us tx ts : List Char) : List Char :=
  "\x7b\"type\":\"".toList ++ d ++ "\",\"channel\":\"".toList ++ ch ++ "\",\"user\":\"".toList
    ++ us ++ "\",\"text\":\"".toList ++ tx ++ "\",\"ts\":\"".toList ++ ts ++ "\"\x7d".toList

/-- An envelope with a number under `token` around a message. -/
def illTypedEnvelope : List Char :=
  "\x7b\"type\":\"event_callback\",\"token\":5,\"event\":\x7b\"type\":\"message\"\x7d\x7d".toList

/-! ## Notions used in the proofs about the parser -/

/-- Characters that can continue a number literal after its digits. -/
def isNumTail (c : Char) : Bool := isDigit c || c = '.' || c = 'e' || c = 'E'

/-- A tail that ends a number literal: empty, or headed by a character that
cannot continue one. -/
def numSafe (u : List Char) : Prop := ∀ c ∈ u.head?, isNumTail c = false

/-- Two tails the scanners cannot tell apart by their one character of
lookahead. -/
def agree (rest t : List Char) : Prop := rest.head? = t.head? ∨ (numSafe rest ∧ numSafe t)

/-- The head of a tail, if any, satisfies `q`. -/
def headAll (q : Char → Bool) (t : List Char) : Prop := ∀ c ∈ t.head?, q c = true

/-- A parser result depends only on the prefix it consumed: the input is that
prefix followed by the rest, and with any other tail that looks the same to
the one character of lookahead, enough fuel and no more arrays and objects
open around it, the parser gives the same result. -/
def Ext {β : Type} (f : Nat → Nat → List Char → Option (β × List Char)) (dep : Nat)
    (s : List Char) (x : β) (rest : List Char) : Prop :=
  ∃ p, p ≠ [] ∧ s = p ++ rest ∧
    ∀ t, agree rest t → ∀ m, p.length ≤ m → ∀ d, d ≤ dep → f m d (p ++ t) = some (x, t)

/-- What every member of an object parsed from the text `s` satisfies: its
raw text is a contiguous part of `s`, shorter than `s`, and is a JSON text
for the member's value. -/
def MemberOK (s : List Char) (m : Member) : Prop :=
  m.2.1.length < s.length ∧ parseJSON m.2.1 = some (m.2.2, m.2.1) ∧ m.2.1 <:+: s

/-! ## JSON texts

The grammar of JSON, written down on its own: which texts stand for which
document. The statements about payloads are made for the texts of this
grammar. -/

/-- All characters are JSON white space. -/
def allWS (w : List Char) : Bool := w.all isWS

/-- The hexadecimal digit `c`, in either case, stands for `d`. -/
def hexDigitOf (d : Nat) (c : Char) : Bool :=
  "0123456789abcdef".toList[d]? == some c || "0123456789ABCDEF".toList[d]? == some c

/-- The four hexadecimal digits of a number below `0x10000`. -/
def hexQuad (n : Nat) (h1 h2 h3 h4 : Char) : Prop :=
  hexDigitOf (n / 4096) h1 = true ∧ hexDigitOf (n / 256 % 16) h2 = true ∧
    hexDigitOf (n / 16 % 16) h3 = true ∧ hexDigitOf (n % 16) h4 = true

/-- The ways to write one character inside a JSON string literal: itself
(unless it is a quote, a backslash or a control character), a two-character
escape, a `\u` escape of its code, or a `\u` surrogate pair for a code
above `0xFFFF`. -/
inductive EncChar : Char → List Char → Prop where
  | self (c : Char) : c ≠ '"' → c ≠ '\\' → 32 ≤ c.toNat → EncChar c [c]
  | quote : EncChar '"' ['\\', '"']
  | backslash : EncChar '\\' ['\\', '\\']
  | slash : EncChar '/' ['\\', '/']
  | backspace : EncChar (Char.ofNat 8) ['\\', 'b']
  | formfeed : EncChar (Char.ofNat 12) ['\\', 'f']
  | newline : EncChar '\n' ['\\', 'n']
  | ret : EncChar '\r' ['\\', 'r']
  | tab : EncChar '\t' ['\\', 't']
  | unicode (c h1 h2 h3 h4 : Char) : c.toNat < 0x10000 → hexQuad c.toNat h1 h2 h3 h4 →
      EncChar c ['\\', 'u', h1, h2, h3, h4]
  | pair (c h1 h2 h3 h4 g1 g2 g3 g4 : Char) : 0x10000 ≤ c.toNat →
      hexQuad (0xD800 + (c.toNat - 0x10000) / 1024) h1 h2 h3 h4 →
      hexQuad (0xDC00 + (c.toNat - 0x10000) % 1024) g1 g2 g3 g4 →
      EncChar c ['\\', 'u', h1, h2, h3, h4, '\\', 'u', g1, g2, g3, g4]

/-- `EncStr s body`: the text `body`, put between quotes, is a JSON string
literal for the string `s`. -/
inductive EncStr : List Char → List Char → Prop where
  | nil : EncStr [] []
  | cons (c : Char) (e s body : List Char) : EncChar c e → EncStr s body →
      EncStr (c :: s) (e ++ body)

/-- One or more decimal digits. -/
def digits (p : List Char) : Bool := !p.isEmpty && p.all isDigit

/-- The texts of JSON numbers: an optional minus sign, `0` or a digit other
than `0` followed by digits, an optional fraction, an optional exponent. -/
inductive NumText : List Char → Prop where
  | mk (sign int frac exp : List Char) :
      (sign = [] ∨ sign = ['-']) →
      (int = ['0'] ∨ ∃ c r, int = c :: r ∧ isDigit c = true ∧ c ≠ '0' ∧ r.all isDigit = true) →
      (frac = [] ∨ ∃ ds, frac = '.' :: ds ∧ digits ds = true) →
      (exp = [] ∨ ∃ e sg ds, exp = e :: (sg ++ ds) ∧ (e = 'e' ∨ e = 'E') ∧
        (sg = [] ∨ sg = ['+'] ∨ sg = ['-']) ∧ digits ds = true) →
      NumText (sign ++ (int ++ (frac ++ exp)))

/-- What a text of the grammar stands for: a value, the members of an object
up to its closing brace, or the elements of an array up to its closing
bracket. -/
inductive Sym where
  | value (v : JValue) : Sym
  | members (ms : List Member) : Sym
  | elems (xs : List JValue) : Sym

/-- `Gram dep y text`: `text` is a JSON text for `y`, placed inside `dep` open
arrays and objects (at most `maxNestingDepth` may be open at once). A member
of an object carries the text of its value. White space may stand after an
opening bracket, around a colon, around a comma and before a closing
bracket. -/
inductive Gram : Nat → Sym → List Char → Prop where
  | null (dep : Nat) : Gram dep (Sym.value JValue.null) ['n', 'u', 'l', 'l']
  | true (dep : Nat) : Gram dep (Sym.value (JValue.bool true)) ['t', 'r', 'u', 'e']
  | false (dep : Nat) : Gram dep (Sym.value (JValue.bool false)) ['f', 'a', 'l', 's', 'e']
  | num (dep : Nat) (p : List Char) : NumText p → Gram dep (Sym.value JValue.num) p
  | str (dep : Nat) (s body : List Char) : EncStr s body →
      Gram dep (Sym.value (JValue.str s)) ('"' :: (body ++ ['"']))
  | arrNil (dep : Nat) (w : List Char) : dep < maxNestingDepth → allWS w = true →
      Gram dep (Sym.value (JValue.arr [])) ('[' :: (w ++ [']']))
  | arr (dep : Nat) (w : List Char) (xs : List JValue) (t : List Char) :
      dep < maxNestingDepth → allWS w = true → Gram (dep + 1) (Sym.elems xs) t →
      Gram dep (Sym.value (JValue.arr xs)) ('[' :: (w ++ t))
  | elemsOne (dep : Nat) (v : JValue) (tv w : List Char) :
      Gram dep (Sym.value v) tv → allWS w = true →
      Gram dep (Sym.elems [v]) (tv ++ (w ++ [']']))
  | elemsCons (dep : Nat) (v : JValue) (tv w1 w2 : List Char) (xs : List JValue)
      (t : List Char) :
      Gram dep (Sym.value v) tv → allWS w1 = true → allWS w2 = true →
      Gram dep (Sym.elems xs) t →
      Gram dep (Sym.elems (v :: xs)) (tv ++ (w1 ++ ',' :: (w2 ++ t)))
  | objNil (dep : Nat) (w : List Char) : dep < maxNestingDepth → allWS w = true →
      Gram dep (Sym.value (JValue.obj [])) ('\x7b' :: (w ++ ['\x7d']))
  | obj (dep : Nat) (w : List Char) (ms : List Member) (t : List Char) :
      dep < maxNestingDepth → allWS w = true → Gram (dep + 1) (Sym.members ms) t →
      Gram dep (Sym.value (JValue.obj ms)) ('\x7b' :: (w ++ t))
  | membersOne (dep : Nat) (key kb w1 w2 : List Char) (v : JValue) (tv w3 : List Char) :
      EncStr key kb → allWS w1 = true → allWS w2 = true → Gram dep (Sym.value v) tv →
      allWS w3 = true →
      Gram dep (Sym.members [(key, tv, v)])
        ('"' :: (kb ++ '"' :: (w1 ++ ':' :: (w2 ++ (tv ++ (w3 ++ ['\x7d']))))))
  | membersCons (dep : Nat) (key kb w1 w2 : List Char) (v : JValue) (tv w3 w4 : List Char)
      (ms : List Member) (t : List Char) :
      EncStr key kb → allWS w1 = true → allWS w2 = true → Gram dep (Sym.value v) tv →
      allWS w3 = true → allWS w4 = true → Gram dep (Sym.members ms) t →
      Gram dep (Sym.members ((key, tv, v) :: ms))
        ('"' :: (kb ++ '"' :: (w1 ++ ':' :: (w2 ++ (tv ++ (w3 ++ ',' :: (w4 ++ t)))))))

/-- `IsText v b`: the payload `b` is a JSON text for the document `v`, with
white space allowed around it. -/
def IsText (v : JValue) (b : List Char) : Prop :=
  ∃ w1 body w2, allWS w1 = true ∧ allWS w2 = true ∧ Gram 0 (Sym.value v) body ∧
    b = w1 ++ (body ++ w2)

/-- The characters a JSON value can start with. -/
def isValueStart (c : Char) : Bool :=
  c = '\x7b' || c = '[' || c = '"' || c = 't' || c = 'f' || c = 'n' || c = '-' || isDigit c

/-- What the parser does on a text of the grammar followed by any tail `t`
(one that ends a number, after a value). -/
def Parses (dep : Nat) : Sym → List Char → Prop
  | Sym.value v, text =>
    (∃ c r, text = c :: r ∧ isValueStart c = true) ∧
      ∀ t, numSafe t → ∀ n, text.length ≤ n → parseValue n dep (text ++ t) = some (v, t)
  | Sym.members ms, text =>
    (∃ r, text = '"' :: r) ∧
      ∀ t n, text.length ≤ n → parseMembers n dep (text ++ t) = some (ms, t)
  | Sym.elems xs, text =>
    (∃ c r, text = c :: r ∧ isValueStart c = true) ∧
      ∀ t n, text.length ≤ n → parseElems n dep (text ++ t) = some (xs, t)

/-! ## The parser reads a prefix of its input -/

theorem agree_append (q : List Char) {rest t : List Char} (h : agree rest t) :
    agree (q ++ rest) (q ++ t) := by
  cases q with
  | nil => simpa using h
  | cons c q => exact Or.inl (by simp)

theorem agree_cons (c : Char) (rest t : List Char) : agree (c :: rest) (c :: t) :=
  Or.inl (by simp)

theorem consumed_append (p t : List Char) : consumed (p ++ t) t = p := by
  simp [consumed]

theorem skipWS_length (s : List Char) : (skipWS s).length ≤ s.length := by
  induction s with
  | nil => simp [skipWS]
  | cons c r ih =>
    simp only [skipWS]
    split
    · simp only [List.length_cons]; omega
    · simp

/-- What `skipWS` drops is a prefix, and dropping it does not depend on
what follows the first character kept. -/
theorem skipWS_ext {s : List Char} {c : Char} {u : List Char} (h : skipWS s = c :: u) :
    ∃ w, s = w ++ c :: u ∧ ∀ u', skipWS (w ++ c :: u') = c :: u' := by
  induction s with
  | nil => simp [skipWS] at h
  | cons d r ih =>
    simp only [skipWS] at h
    split at h
    · obtain ⟨w, hw, hext⟩ := ih h
      refine ⟨d :: w, by simp [hw], fun u' => ?_⟩
      simp only [List.cons_append, skipWS]
      rw [if_pos (by assumption)]
      exact hext u'
    · rename_i hd
      injection h with h1 h2
      subst h1; subst h2
      refine ⟨[], rfl, fun u' => ?_⟩
      simp only [List.nil_append, skipWS]
      rw [if_neg hd]

theorem skipWS_nil_numSafe {rest : List Char} (h : skipWS rest = []) : numSafe rest := by
  cases rest with
  | nil => intro c hc; simp at hc
  | cons d r =>
    intro c hc
    simp only [List.head?_cons, Option.mem_def, Option.some.injEq] at hc
    subst hc
    simp only [skipWS] at h
    split at h
    · rename_i hd
      revert hd
      simp only [isWS, isNumTail, isDigit, Bool.or_eq_true, decide_eq_true_eq]
      rintro (((h1 | h1) | h1) | h1) <;> subst h1 <;> decide
    · simp at h

theorem scanStr_cons (c : Char) (r : List Char) :
    scanStr (c :: r) =
      if c = '"' then some ([], r)
      else if c = '\\' then
        match r with
        | [] => none
        | e :: r2 =>
          if e = 'u' then
            match r2 with
            | h1 :: h2 :: h3 :: h4 :: r3 =>
              if isHex h1 && isHex h2 && isHex h3 && isHex h4 then
                match scanStr r3 with
                | some (b, rest) => some (c :: e :: h1 :: h2 :: h3 :: h4 :: b, rest)
                | none => none
              else none
            | _ => none
          else if isSimpleEscape e then
            match scanStr r2 with
            | some (b, rest) => some (c :: e :: b, rest)
            | none => none
          else none
      else if c.toNat < 32 then none
      else
        match scanStr r with
        | some (b, rest) => some (c :: b, rest)
        | none => none := by
  conv_lhs => rw [scanStr.eq_def]

theorem scanStr_ext_aux (n : Nat) : ∀ (s b rest : List Char), s.length ≤ n →
    scanStr s = some (b, rest) →
    ∃ p, p ≠ [] ∧ s = p ++ rest ∧ ∀ t, scanStr (p ++ t) = some (b, t) := by
  induction n with
  | zero =>
    intro s b rest hl h
    cases s with
    | nil => simp [scanStr] at h
    | cons c r => simp at hl
  | succ n ih =>
    intro s b rest hl h
    cases s with
    | nil => simp [scanStr] at h
    | cons c r =>
      rw [scanStr_cons] at h
      simp only [List.length_cons] at hl
      split at h
      · rename_i hq
        injection h with h; injection h with e1 e2
        subst e1; subst e2
        exact ⟨[c], by simp, rfl, fun t => by rw [List.singleton_append, scanStr_cons, if_pos hq]⟩
      · rename_i hq
        split at h
        · rename_i hb
          split at h
          · simp at h
          · rename_i e r2
            split at h
            · rename_i he
              split at h
              · rename_i h1 h2 h3 h4 r3
                split at h
                · rename_i hx
                  cases hs : scanStr r3 with
                  | none => rw [hs] at h; simp at h
                  | some br =>
                    obtain ⟨b', rest'⟩ := br
                    rw [hs] at h
                    injection h with h; injection h with e1 e2
                    subst e1; subst e2
                    obtain ⟨p, _, hp, hext⟩ := ih r3 b' rest' (by simp at hl; omega) hs
                    refine ⟨c :: e :: h1 :: h2 :: h3 :: h4 :: p, by simp, by simp [hp], fun t => ?_⟩
                    rw [List.cons_append, scanStr_cons, if_neg hq, if_pos hb]
                    simp only [List.cons_append, if_pos he, if_pos hx]
                    rw [hext t]
                · simp at h
              · simp at h
            · rename_i he
              split at h
              · rename_i hse
                cases hs : scanStr r2 with
                | none => rw [hs] at h; simp at h
                | some br =>
                  obtain ⟨b', rest'⟩ := br
                  rw [hs] at h
                  injection h with h; injection h with e1 e2
                  subst e1; subst e2
                  obtain ⟨p, _, hp, hext⟩ := ih r2 b' rest' (by simp at hl; omega) hs
                  refine ⟨c :: e :: p, by simp, by simp [hp], fun t => ?_⟩
                  rw [List.cons_append, scanStr_cons, if_neg hq, if_pos hb]
                  simp only [List.cons_append, if_neg he, if_pos hse]
                  rw [hext t]
              · simp at h
        · rename_i hb
          split at h
          · simp at h
          · rename_i hlt
            cases hs : scanStr r with
            | none => rw [hs] at h; simp at h
            | some br =>
              obtain ⟨b', rest'⟩ := br
              rw [hs] at h
              injection h with h; injection h with e1 e2
              subst e1; subst e2
              obtain ⟨p, _, hp, hext⟩ := ih r b' rest' (by omega) hs
              refine ⟨c :: p, by simp, by simp [hp], fun t => ?_⟩
              rw [List.cons_append, scanStr_cons, if_neg hq, if_neg hb, if_neg hlt, hext t]

theorem scanStr_ext {s b rest : List Char} (h : scanStr s = some (b, rest)) :
    ∃ p, p ≠ [] ∧ s = p ++ rest ∧ ∀ t, scanStr (p ++ t) = some (b, t) :=
  scanStr_ext_aux s.length s b rest (Nat.le_refl _) h

theorem dropWord_ext {w s rest : List Char} (h : dropWord w s = some rest) :
    s = w ++ rest ∧ ∀ t, dropWord w (w ++ t) = some t := by
  induction w generalizing s with
  | nil =>
    simp only [dropWord] at h
    injection h with h
    subst h
    exact ⟨rfl, fun t => rfl⟩
  | cons a w ih =>
    cases s with
    | nil => simp [dropWord] at h
    | cons c r =>
      simp only [dropWord] at h
      split at h
      · rename_i hc
        subst hc
        obtain ⟨h1, h2⟩ := ih h
        exact ⟨by simp [h1], fun t => by simp only [List.cons_append, dropWord, if_true]; exact h2 t⟩
      · simp at h

theorem agree_headAll {q : Char → Bool} {rest t : List Char} (h : agree rest t)
    (hr : headAll q rest) (hq : ∀ c, isNumTail c = false → q c = true) : headAll q t := by
  rcases h with h | ⟨_, h⟩
  · intro c hc; exact hr c (by rw [h]; exact hc)
  · intro c hc; exact hq c (h c hc)

theorem dropWhile_headAll {t : List Char} (h : headAll (fun c => !isDigit c) t) :
    t.dropWhile isDigit = t := by
  cases t with
  | nil => rfl
  | cons c r =>
    have := h c (by simp)
    simp only [Bool.not_eq_true', ] at this
    simp [List.dropWhile, this]

theorem headAll_dropWhile (r : List Char) : headAll (fun c => !isDigit c) (r.dropWhile isDigit) := by
  induction r with
  | nil => intro c hc; simp at hc
  | cons d r ih =>
    simp only [List.dropWhile]
    split
    · exact ih
    · rename_i hd
      intro c hc
      simp only [List.head?_cons, Option.mem_def, Option.some.injEq] at hc
      subst hc
      simpa using hd

theorem dropWhile_takeWhile_append (r t : List Char) (h : headAll (fun c => !isDigit c) t) :
    (r.takeWhile isDigit ++ t).dropWhile isDigit = t := by
  induction r with
  | nil => simpa using dropWhile_headAll h
  | cons d r ih =>
    simp only [List.takeWhile]
    split
    · rename_i hd
      simp only [List.cons_append, List.dropWhile, hd]
      exact ih
    · simpa using dropWhile_headAll h

theorem numTail_notDigit (c : Char) (h : isNumTail c = false) : (!isDigit c) = true := by
  simp only [isNumTail, Bool.or_eq_false_iff] at h
  simp [h.1.1.1]

theorem scanDigits_ext {s rest : List Char} (h : scanDigits s = some rest) :
    ∃ p, p ≠ [] ∧ s = p ++ rest ∧ ∀ t, agree rest t → scanDigits (p ++ t) = some t := by
  cases s with
  | nil => simp [scanDigits] at h
  | cons c r =>
    simp only [scanDigits] at h
    split at h
    · rename_i hc
      injection h with h
      subst h
      refine ⟨c :: r.takeWhile isDigit, by simp, by simp, fun t ht => ?_⟩
      simp only [List.cons_append, scanDigits, hc, if_true]
      rw [dropWhile_takeWhile_append r t
        (agree_headAll ht (headAll_dropWhile r) numTail_notDigit)]
    · simp at h

theorem scanFrac_self {t : List Char} (h : headAll (fun c => !decide (c = '.')) t) :
    scanFrac t = some t := by
  cases t with
  | nil => rfl
  | cons c r =>
    have := h c (by simp)
    simp only [Bool.not_eq_true', decide_eq_false_iff_not] at this
    simp [scanFrac, this]

theorem scanFrac_ext {s rest : List Char} (h : scanFrac s = some rest) :
    ∃ p, s = p ++ rest ∧ ∀ t, agree rest t → scanFrac (p ++ t) = some t := by
  have key : ∀ c, isNumTail c = false → (!decide (c = '.')) = true := by
    intro c hc
    simp only [isNumTail, Bool.or_eq_false_iff, decide_eq_false_iff_not] at hc
    simp [hc.1.1.2]
  cases s with
  | nil =>
    simp only [scanFrac] at h
    injection h with h
    subst h
    exact ⟨[], rfl, fun t ht => scanFrac_self (agree_headAll ht (by intro c hc; simp at hc) key)⟩
  | cons c r =>
    simp only [scanFrac] at h
    split at h
    · rename_i hc
      obtain ⟨p, _, hp, hext⟩ := scanDigits_ext h
      refine ⟨c :: p, by simp [hp], fun t ht => ?_⟩
      simp only [List.cons_append, scanFrac, hc, if_true]
      exact hext t ht
    · rename_i hc
      injection h with h
      subst h
      refine ⟨[], rfl, fun t ht => scanFrac_self (agree_headAll ht ?_ key)⟩
      intro d hd
      simp only [List.head?_cons, Option.mem_def, Option.some.injEq] at hd
      subst hd
      simpa using hc

theorem scanExp_self {t : List Char}
    (h : headAll (fun c => !(decide (c = 'e') || decide (c = 'E'))) t) :
    scanExp t = some t := by
  cases t with
  | nil => rfl
  | cons c r =>
    have := h c (by simp)
    simp only [Bool.not_eq_true'] at this
    simp [scanExp, this]

theorem scanExp_ext {s rest : List Char} (h : scanExp s = some rest) :
    ∃ p, s = p ++ rest ∧ ∀ t, agree rest t → scanExp (p ++ t) = some t := by
  have key : ∀ c, isNumTail c = false → (!(decide (c = 'e') || decide (c = 'E'))) = true := by
    intro c hc
    simp only [isNumTail, Bool.or_eq_false_iff, decide_eq_false_iff_not] at hc
    simp [hc.1.2, hc.2]
  cases s with
  | nil =>
    simp only [scanExp] at h
    injection h with h
    subst h
    exact ⟨[], rfl, fun t ht => scanExp_self (agree_headAll ht (by intro c hc; simp at hc) key)⟩
  | cons c r =>
    simp only [scanExp] at h
    split at h
    · rename_i hc
      split at h
      · rename_i d r2
        split at h
        · rename_i hd
          obtain ⟨p, _, hp, hext⟩ := scanDigits_ext h
          refine ⟨c :: d :: p, by simp [hp], fun t ht => ?_⟩
          simp only [List.cons_append, scanExp, hc, hd, if_true]
          exact hext t ht
        · rename_i hd
          obtain ⟨p, hne, hp, hext⟩ := scanDigits_ext h
          refine ⟨c :: p, by simp [hp], fun t ht => ?_⟩
          cases p with
          | nil => exact absurd rfl hne
          | cons d' p' =>
            simp only [List.cons_append, List.cons.injEq] at hp
            obtain ⟨hd', _⟩ := hp
            subst hd'
            simp only [List.cons_append, scanExp, hc, hd, if_true, if_false]
            exact hext t ht
      · simp at h
    · rename_i hc
      injection h with h
      subst h
      refine ⟨[], rfl, fun t ht => scanExp_self (agree_headAll ht ?_ key)⟩
      intro d hd
      simp only [List.head?_cons, Option.mem_def, Option.some.injEq] at hd
      subst hd
      simpa using hc

theorem scanInt_ext {s rest : List Char} (h : scanInt s = some rest) :
    ∃ p, p ≠ [] ∧ s = p ++ rest ∧ ∀ t, agree rest t → scanInt (p ++ t) = some t := by
  cases s with
  | nil => simp [scanInt] at h
  | cons c r =>
    simp only [scanInt] at h
    split at h
    · rename_i hc
      injection h with h
      subst h
      exact ⟨[c], by simp, rfl, fun t _ => by simp [scanInt, hc]⟩
    · rename_i hc
      obtain ⟨p, hne, hp, hext⟩ := scanDigits_ext h
      refine ⟨p, hne, hp, fun t ht => ?_⟩
      cases p with
      | nil => exact absurd rfl hne
      | cons d' p' =>
        simp only [List.cons_append, List.cons.injEq] at hp
        obtain ⟨hd', _⟩ := hp
        subst hd'
        simp only [List.cons_append, scanInt, hc, if_false]
        exact hext t ht

theorem scanNumber_ext {s rest : List Char} (h : scanNumber s = some rest) :
    ∃ p, p ≠ [] ∧ s = p ++ rest ∧ ∀ t, agree rest t → scanNumber (p ++ t) = some t := by
  cases s with
  | nil => simp [scanNumber] at h
  | cons c r =>
    simp only [scanNumber] at h
    split at h
    · rename_i r1 hI
      split at h
      · rename_i r2 hF
        obtain ⟨pE, hpE, hextE⟩ := scanExp_ext h
        obtain ⟨pF, hpF, hextF⟩ := scanFrac_ext hF
        have tailE : ∀ t, agree rest t → scanFrac (pF ++ (pE ++ t)) = some (pE ++ t) := by
          intro t ht
          exact hextF _ (by rw [hpE]; exact agree_append pE ht)
        have tailF : ∀ t, agree rest t → agree r1 (pF ++ (pE ++ t)) := by
          intro t ht
          rw [hpF, hpE]
          exact agree_append pF (agree_append pE ht)
        by_cases hc : c = '-'
        · rw [if_pos hc] at hI
          obtain ⟨pI, _, hpI, hextI⟩ := scanInt_ext hI
          refine ⟨c :: (pI ++ (pF ++ pE)), by simp, ?_, fun t ht => ?_⟩
          · simp [hpI, hpF, hpE]
          · have e1 : (c :: (pI ++ (pF ++ pE))) ++ t = c :: (pI ++ (pF ++ (pE ++ t))) := by simp
            rw [e1]
            simp only [scanNumber, if_pos hc]
            rw [hextI _ (tailF t ht)]
            simp only []
            rw [tailE t ht]
            simp only []
            exact hextE t ht
        · rw [if_neg hc] at hI
          obtain ⟨pI, hne, hpI, hextI⟩ := scanInt_ext hI
          cases pI with
          | nil => exact absurd rfl hne
          | cons d pI' =>
            have hd : d = c := by
              have := congrArg List.head? hpI
              simpa using this.symm
            subst hd
            refine ⟨(d :: pI') ++ (pF ++ pE), by simp, ?_, fun t ht => ?_⟩
            · rw [hpI, hpF, hpE]; simp
            · have e1 : ((d :: pI') ++ (pF ++ pE)) ++ t = d :: (pI' ++ (pF ++ (pE ++ t))) := by
                simp
              rw [e1]
              simp only [scanNumber, if_neg hc]
              have := hextI _ (tailF t ht)
              rw [List.cons_append] at this
              rw [this]
              simp only []
              rw [tailE t ht]
              simp only []
              exact hextE t ht
      · simp at h
    · simp at h

theorem parseValue_zero (dep : Nat) (s : List Char) : parseValue 0 dep s = none := by
  rw [parseValue]

theorem parseMembers_zero (dep : Nat) (s : List Char) : parseMembers 0 dep s = none := by
  rw [parseMembers]

theorem parseElems_zero (dep : Nat) (s : List Char) : parseElems 0 dep s = none := by
  rw [parseElems]

theorem parseValue_succ (n dep : Nat) (c : Char) (r : List Char) :
    parseValue (n + 1) dep (c :: r) =
      if c = '{' then
        if maxNestingDepth ≤ dep then none
        else
          match skipWS r with
          | d :: r2 =>
            if d = '}' then some (JValue.obj [], r2)
            else
              match parseMembers n (dep + 1) (d :: r2) with
              | some (ms, rest) => some (JValue.obj ms, rest)
              | none => none
          | [] => none
      else if c = '[' then
        if maxNestingDepth ≤ dep then none
        else
          match skipWS r with
          | d :: r2 =>
            if d = ']' then some (JValue.arr [], r2)
            else
              match parseElems n (dep + 1) (d :: r2) with
              | some (xs, rest) => some (JValue.arr xs, rest)
              | none => none
          | [] => none
      else if c = '"' then
        match scanStr r with
        | some (b, rest) => some (JValue.str (unquote (b.length + 1) b), rest)
        | none => none
      else if c = 't' then (dropWord ['r', 'u', 'e'] r).map (fun rest => (JValue.bool true, rest))
      else if c = 'f' then
        (dropWord ['a', 'l', 's', 'e'] r).map (fun rest => (JValue.bool false, rest))
      else if c = 'n' then (dropWord ['u', 'l', 'l'] r).map (fun rest => (JValue.null, rest))
      else (scanNumber (c :: r)).map (fun rest => (JValue.num, rest)) := by
  rw [parseValue]

theorem parseValue_succ_nil (n dep : Nat) : parseValue (n + 1) dep [] = none := by
  rw [parseValue]

theorem parseMembers_succ_nil (n dep : Nat) : parseMembers (n + 1) dep [] = none := by
  rw [parseMembers]

theorem parseMembers_succ (n dep : Nat) (q : Char) (r : List Char) :
    parseMembers (n + 1) dep (q :: r) =
      if q = '"' then
        match scanStr r with
        | none => none
        | some (kb, r1) =>
          match skipWS r1 with
          | [] => none
          | col :: r2 =>
            if col = ':' then
              match parseValue n dep (skipWS r2) with
              | none => none
              | some (v, r3) =>
                match skipWS r3 with
                | [] => none
                | sep :: r4 =>
                  if sep = '}' then
                    some ([(unquote (kb.length + 1) kb, consumed (skipWS r2) r3, v)], r4)
                  else if sep = ',' then
                    match parseMembers n dep (skipWS r4) with
                    | some (ms, rest) =>
                      some ((unquote (kb.length + 1) kb, consumed (skipWS r2) r3, v) :: ms, rest)
                    | none => none
                  else none
            else none
      else none := by
  rw [parseMembers]

theorem parseElems_succ (n dep : Nat) (s : List Char) :
    parseElems (n + 1) dep s =
      match parseValue n dep s with
      | none => none
      | some (v, r1) =>
        match skipWS r1 with
        | [] => none
        | sep :: r2 =>
          if sep = ']' then some ([v], r2)
          else if sep = ',' then
            match parseElems n dep (skipWS r2) with
            | some (xs, rest) => some (v :: xs, rest)
            | none => none
          else none := by
  rw [parseElems]

/-- Whitespace skipped in front of a non-empty parsed prefix. -/
theorem skipWS_front {s p rest : List Char} (h : skipWS s = p ++ rest) (hp : p ≠ []) :
    ∃ w, s = w ++ (p ++ rest) ∧ ∀ t, skipWS (w ++ (p ++ t)) = p ++ t := by
  cases p with
  | nil => exact absurd rfl hp
  | cons c p' =>
    rw [List.cons_append] at h
    obtain ⟨w, hw, hext⟩ := skipWS_ext h
    exact ⟨w, by simpa using hw, fun t => by simpa using hext (p' ++ t)⟩

/-- An array or object opened with `maxNestingDepth` of them open already is
refused. -/
theorem parseValue_too_deep (n dep : Nat) (c : Char) (r : List Char)
    (hd : maxNestingDepth ≤ dep) (hc : c = '\x7b' ∨ c = '[') : parseValue n dep (c :: r) = none := by
  cases n with
  | zero => exact parseValue_zero dep _
  | succ n =>
    rcases hc with rfl | rfl
    · rw [parseValue_succ, if_pos rfl, if_pos hd]
    · rw [parseValue_succ, if_neg (by decide), if_pos rfl, if_pos hd]

theorem cons_of_append_eq {d : Char} {r2 pm rest : List Char} (h : d :: r2 = pm ++ rest)
    (hne : pm ≠ []) : ∃ pm', pm = d :: pm' ∧ r2 = pm' ++ rest := by
  cases pm with
  | nil => exact absurd rfl hne
  | cons e pm' =>
    simp only [List.cons_append, List.cons.injEq] at h
    exact ⟨pm', by rw [h.1], h.2⟩

theorem parseValue_ext_step (n : Nat)
    (ihM : ∀ dep s ms rest, parseMembers n dep s = some (ms, rest) →
      Ext parseMembers dep s ms rest)
    (ihE : ∀ dep s xs rest, parseElems n dep s = some (xs, rest) →
      Ext parseElems dep s xs rest) :
    ∀ dep s v rest, parseValue (n + 1) dep s = some (v, rest) → Ext parseValue dep s v rest := by
  intro dep s v rest h
  cases s with
  | nil => rw [parseValue_succ_nil] at h; exact absurd h (by simp)
  | cons c r =>
    rw [parseValue_succ] at h
    split at h
    · rename_i hc
      by_cases hdep : maxNestingDepth ≤ dep
      · rw [if_pos hdep] at h; exact absurd h (by simp)
      rw [if_neg hdep] at h
      split at h
      · rename_i d r2 heq
        split at h
        · rename_i hd
          injection h with h; injection h with e1 e2
          subst e1; subst e2
          obtain ⟨w, hw, hext⟩ := skipWS_ext heq
          refine ⟨c :: (w ++ [d]), by simp, by simp [hw], fun t _ m hm d' hd' => ?_⟩
          obtain ⟨m', rfl⟩ : ∃ m', m = m' + 1 := ⟨m - 1, by simp at hm; omega⟩
          have e : (c :: (w ++ [d])) ++ t = c :: (w ++ d :: t) := by simp
          rw [e, parseValue_succ, if_pos hc, if_neg (by omega), hext t]
          simp only [if_pos hd]
        · rename_i hd
          cases hm : parseMembers n (dep + 1) (d :: r2) with
          | none => rw [hm] at h; exact absurd h (by simp)
          | some res =>
            obtain ⟨ms, rest'⟩ := res
            rw [hm] at h
            injection h with h; injection h with e1 e2
            subst e1; subst e2
            obtain ⟨pm, hne, hpm, hextm⟩ := ihM _ _ _ _ hm
            obtain ⟨pm', hpm1, hpm2⟩ := cons_of_append_eq hpm hne
            subst hpm1
            obtain ⟨w, hw, hext⟩ := skipWS_ext heq
            refine ⟨c :: (w ++ (d :: pm')), by simp, by simp [hw, hpm2], fun t ht m hm d' hd' => ?_⟩
            obtain ⟨m', rfl⟩ : ∃ m', m = m' + 1 := ⟨m - 1, by simp at hm; omega⟩
            have e : (c :: (w ++ (d :: pm'))) ++ t = c :: (w ++ d :: (pm' ++ t)) := by simp
            rw [e, parseValue_succ, if_pos hc, if_neg (by omega), hext (pm' ++ t)]
            have hm' := hextm t ht m' (by simp at hm ⊢; omega) (d' + 1) (by omega)
            rw [List.cons_append] at hm'
            simp only [if_neg hd, hm']
      · exact absurd h (by simp)
    · rename_i hc
      split at h
      · rename_i hb
        by_cases hdep : maxNestingDepth ≤ dep
        · rw [if_pos hdep] at h; exact absurd h (by simp)
        rw [if_neg hdep] at h
        split at h
        · rename_i d r2 heq
          split at h
          · rename_i hd
            injection h with h; injection h with e1 e2
            subst e1; subst e2
            obtain ⟨w, hw, hext⟩ := skipWS_ext heq
            refine ⟨c :: (w ++ [d]), by simp, by simp [hw], fun t _ m hm d' hd' => ?_⟩
            obtain ⟨m', rfl⟩ : ∃ m', m = m' + 1 := ⟨m - 1, by simp at hm; omega⟩
            have e : (c :: (w ++ [d])) ++ t = c :: (w ++ d :: t) := by simp
            rw [e, parseValue_succ, if_neg hc, if_pos hb, if_neg (by omega), hext t]
            simp only [if_pos hd]
          · rename_i hd
            cases hm : parseElems n (dep + 1) (d :: r2) with
            | none => rw [hm] at h; exact absurd h (by simp)
            | some res =>
              obtain ⟨xs, rest'⟩ := res
              rw [hm] at h
              injection h with h; injection h with e1 e2
              subst e1; subst e2
              obtain ⟨pm, hne, hpm, hextm⟩ := ihE _ _ _ _ hm
              obtain ⟨pm', hpm1, hpm2⟩ := cons_of_append_eq hpm hne
              subst hpm1
              obtain ⟨w, hw, hext⟩ := skipWS_ext heq
              refine ⟨c :: (w ++ (d :: pm')), by simp, by simp [hw, hpm2], fun t ht m hm d' hd' => ?_⟩
              obtain ⟨m', rfl⟩ : ∃ m', m = m' + 1 := ⟨m - 1, by simp at hm; omega⟩
              have e : (c :: (w ++ (d :: pm'))) ++ t = c :: (w ++ d :: (pm' ++ t)) := by simp
              rw [e, parseValue_succ, if_neg hc, if_pos hb, if_neg (by omega), hext (pm' ++ t)]
              have hm' := hextm t ht m' (by simp at hm ⊢; omega) (d' + 1) (by omega)
              rw [List.cons_append] at hm'
              simp only [if_neg hd, hm']
        · exact absurd h (by simp)
      · rename_i hb
        split at h
        · rename_i hq
          cases hs : scanStr r with
          | none => rw [hs] at h; exact absurd h (by simp)
          | some res =>
            obtain ⟨b, rest'⟩ := res
            rw [hs] at h
            injection h with h; injection h with e1 e2
            subst e1; subst e2
            obtain ⟨p, _, hp, hext⟩ := scanStr_ext hs
            refine ⟨c :: p, by simp, by simp [hp], fun t _ m hm d' hd' => ?_⟩
            obtain ⟨m', rfl⟩ : ∃ m', m = m' + 1 := ⟨m - 1, by simp at hm; omega⟩
            rw [List.cons_append, parseValue_succ, if_neg hc, if_neg hb, if_pos hq, hext t]
        · rename_i hq
          split at h
          · rename_i ht
            cases hs : dropWord ['r', 'u', 'e'] r with
            | none => rw [hs] at h; exact absurd h (by simp)
            | some rest' =>
              rw [hs] at h
              simp only [Option.map_some', Option.some.injEq, Prod.mk.injEq] at h
              obtain ⟨e1, e2⟩ := h
              subst e1; subst e2
              obtain ⟨hp, hext⟩ := dropWord_ext hs
              refine ⟨c :: ['r', 'u', 'e'], by simp, by simp [hp], fun t _ m hm d' hd' => ?_⟩
              obtain ⟨m', rfl⟩ : ∃ m', m = m' + 1 := ⟨m - 1, by simp at hm; omega⟩
              rw [List.cons_append, parseValue_succ, if_neg hc, if_neg hb, if_neg hq, if_pos ht,
                hext t]
              rfl
          · rename_i ht
            split at h
            · rename_i hf
              cases hs : dropWord ['a', 'l', 's', 'e'] r with
              | none => rw [hs] at h; exact absurd h (by simp)
              | some rest' =>
                rw [hs] at h
                simp only [Option.map_some', Option.some.injEq, Prod.mk.injEq] at h
                obtain ⟨e1, e2⟩ := h
                subst e1; subst e2
                obtain ⟨hp, hext⟩ := dropWord_ext hs
                refine ⟨c :: ['a', 'l', 's', 'e'], by simp, by simp [hp], fun t _ m hm d' hd' => ?_⟩
                obtain ⟨m', rfl⟩ : ∃ m', m = m' + 1 := ⟨m - 1, by simp at hm; omega⟩
                rw [List.cons_append, parseValue_succ, if_neg hc, if_neg hb, if_neg hq, if_neg ht,
                  if_pos hf, hext t]
                rfl
            · rename_i hf
              split at h
              · rename_i hn
                cases hs : dropWord ['u', 'l', 'l'] r with
                | none => rw [hs] at h; exact absurd h (by simp)
                | some rest' =>
                  rw [hs] at h
                  simp only [Option.map_some', Option.some.injEq, Prod.mk.injEq] at h
                  obtain ⟨e1, e2⟩ := h
                  subst e1; subst e2
                  obtain ⟨hp, hext⟩ := dropWord_ext hs
                  refine ⟨c :: ['u', 'l', 'l'], by simp, by simp [hp], fun t _ m hm d' hd' => ?_⟩
                  obtain ⟨m', rfl⟩ : ∃ m', m = m' + 1 := ⟨m - 1, by simp at hm; omega⟩
                  rw [List.cons_append, parseValue_succ, if_neg hc, if_neg hb, if_neg hq,
                    if_neg ht, if_neg hf, if_pos hn, hext t]
                  rfl
              · rename_i hn
                cases hs : scanNumber (c :: r) with
                | none => rw [hs] at h; exact absurd h (by simp)
                | some rest' =>
                  rw [hs] at h
                  simp only [Option.map_some', Option.some.injEq, Prod.mk.injEq] at h
                  obtain ⟨e1, e2⟩ := h
                  subst e1; subst e2
                  obtain ⟨p, hne, hp, hext⟩ := scanNumber_ext hs
                  obtain ⟨p', hp1, hp2⟩ := cons_of_append_eq hp hne
                  subst hp1
                  refine ⟨c :: p', by simp, hp, fun t ht' m hm d' hd' => ?_⟩
                  obtain ⟨m', rfl⟩ : ∃ m', m = m' + 1 := ⟨m - 1, by simp at hm; omega⟩
                  have hs' := hext t ht'
                  rw [List.cons_append] at hs'
                  rw [List.cons_append, parseValue_succ, if_neg hc, if_neg hb, if_neg hq,
                    if_neg ht, if_neg hf, if_neg hn, hs']
                  rfl

theorem parseElems_ext_step (n : Nat)
    (ihV : ∀ dep s v rest, parseValue n dep s = some (v, rest) → Ext parseValue dep s v rest)
    (ihE : ∀ dep s xs rest, parseElems n dep s = some (xs, rest) →
      Ext parseElems dep s xs rest) :
    ∀ dep s xs rest, parseElems (n + 1) dep s = some (xs, rest) →
      Ext parseElems dep s xs rest := by
  intro dep s xs rest h
  rw [parseElems_succ] at h
  cases hv : parseValue n dep s with
  | none => rw [hv] at h; exact absurd h (by simp)
  | some res =>
    obtain ⟨v, r1⟩ := res
    rw [hv] at h
    obtain ⟨pv, hpvne, hpv, hextv⟩ := ihV _ _ _ _ hv
    simp only [] at h
    split at h
    · exact absurd h (by simp)
    · rename_i sep r2 heq
      obtain ⟨w, hw, hext⟩ := skipWS_ext heq
      split at h
      · rename_i hsep
        injection h with h; injection h with e1 e2
        subst e1; subst e2
        refine ⟨pv ++ (w ++ [sep]), by simp [hpvne], by simp [hpv, hw], fun t _ m hm d' hd' => ?_⟩
        obtain ⟨m', rfl⟩ : ∃ m', m = m' + 1 := ⟨m - 1, by simp at hm; omega⟩
        have e : (pv ++ (w ++ [sep])) ++ t = pv ++ (w ++ sep :: t) := by simp
        rw [e, parseElems_succ,
          hextv (w ++ sep :: t) (by rw [hw]; exact agree_append w (agree_cons sep _ _))
                      m' (by simp at hm ⊢; omega) d' hd']
        simp only [hext t, if_pos hsep]
      · rename_i hsep
        split at h
        · rename_i hcomma
          cases he : parseElems n dep (skipWS r2) with
          | none => rw [he] at h; exact absurd h (by simp)
          | some res =>
            obtain ⟨xs', rest'⟩ := res
            rw [he] at h
            injection h with h; injection h with e1 e2
            subst e1; subst e2
            obtain ⟨pe, hpene, hpe, hexte⟩ := ihE _ _ _ _ he
            obtain ⟨w2, hw2, hext2⟩ := skipWS_front hpe hpene
            refine ⟨pv ++ (w ++ sep :: (w2 ++ pe)), by simp [hpvne], by simp [hpv, hw, hw2],
              fun t ht m hm d' hd' => ?_⟩
            obtain ⟨m', rfl⟩ : ∃ m', m = m' + 1 := ⟨m - 1, by simp at hm; omega⟩
            have e : (pv ++ (w ++ sep :: (w2 ++ pe))) ++ t
                = pv ++ (w ++ sep :: (w2 ++ (pe ++ t))) := by simp
            rw [e, parseElems_succ,
              hextv (w ++ sep :: (w2 ++ (pe ++ t)))
                (by rw [hw]; exact agree_append w (agree_cons sep _ _))
                m' (by simp at hm ⊢; omega) d' hd']
            simp only [hext (w2 ++ (pe ++ t)), if_neg hsep, if_pos hcomma, hext2 t, hexte t ht m' (by simp at hm ⊢; omega) d' hd']
        · exact absurd h (by simp)

theorem parseMembers_ext_step (n : Nat)
    (ihV : ∀ dep s v rest, parseValue n dep s = some (v, rest) → Ext parseValue dep s v rest)
    (ihM : ∀ dep s ms rest, parseMembers n dep s = some (ms, rest) →
      Ext parseMembers dep s ms rest) :
    ∀ dep s ms rest, parseMembers (n + 1) dep s = some (ms, rest) →
      Ext parseMembers dep s ms rest := by
  intro dep s ms rest h
  cases s with
  | nil => rw [parseMembers_succ_nil] at h; exact absurd h (by simp)
  | cons q r =>
    rw [parseMembers_succ] at h
    split at h
    · rename_i hq
      cases hk : scanStr r with
      | none => rw [hk] at h; exact absurd h (by simp)
      | some res =>
        obtain ⟨kb, r1⟩ := res
        rw [hk] at h
        obtain ⟨pk, _, hpk, hextk⟩ := scanStr_ext hk
        simp only [] at h
        split at h
        · exact absurd h (by simp)
        · rename_i col r2 heq1
          obtain ⟨w1, hw1, hext1⟩ := skipWS_ext heq1
          split at h
          · rename_i hcol
            cases hv : parseValue n dep (skipWS r2) with
            | none => rw [hv] at h; exact absurd h (by simp)
            | some res =>
              obtain ⟨v, r3⟩ := res
              rw [hv] at h
              obtain ⟨pv, hpvne, hpv, hextv⟩ := ihV _ _ _ _ hv
              obtain ⟨w2, hw2, hext2⟩ := skipWS_front hpv hpvne
              have hcons : consumed (skipWS r2) r3 = pv := by
                rw [hpv]; exact consumed_append pv r3
              simp only [] at h
              split at h
              · exact absurd h (by simp)
              · rename_i sep r4 heq3
                obtain ⟨w3, hw3, hext3⟩ := skipWS_ext heq3
                split at h
                · rename_i hsep
                  injection h with h; injection h with e1 e2
                  subst e1; subst e2
                  refine ⟨q :: (pk ++ (w1 ++ col :: (w2 ++ (pv ++ (w3 ++ [sep]))))), by simp,
                    by simp [hpk, hw1, hw2, hw3], fun t _ m hm d' hd' => ?_⟩
                  obtain ⟨m', rfl⟩ : ∃ m', m = m' + 1 := ⟨m - 1, by simp at hm; omega⟩
                  have e : (q :: (pk ++ (w1 ++ col :: (w2 ++ (pv ++ (w3 ++ [sep])))))) ++ t
                      = q :: (pk ++ (w1 ++ col :: (w2 ++ (pv ++ (w3 ++ sep :: t))))) := by simp
                  rw [e, parseMembers_succ, if_pos hq, hextk]
                  simp only [hext1, if_pos hcol, hext2,
                    hextv (w3 ++ sep :: t) (by rw [hw3]; exact agree_append w3 (agree_cons sep _ _))
                      m' (by simp at hm ⊢; omega) d' hd',
                    hext3, if_pos hsep, consumed_append, hcons]
                · rename_i hsep
                  split at h
                  · rename_i hcomma
                    cases hm : parseMembers n dep (skipWS r4) with
                    | none => rw [hm] at h; exact absurd h (by simp)
                    | some res =>
                      obtain ⟨ms', rest'⟩ := res
                      rw [hm] at h
                      injection h with h; injection h with e1 e2
                      subst e1; subst e2
                      obtain ⟨pm, hpmne, hpm, hextm⟩ := ihM _ _ _ _ hm
                      obtain ⟨w4, hw4, hext4⟩ := skipWS_front hpm hpmne
                      refine ⟨q :: (pk ++ (w1 ++ col :: (w2 ++ (pv ++ (w3 ++ sep :: (w4 ++ pm)))))),
                        by simp, by simp [hpk, hw1, hw2, hw3, hw4], fun t ht m hm d' hd' => ?_⟩
                      obtain ⟨m', rfl⟩ : ∃ m', m = m' + 1 := ⟨m - 1, by simp at hm; omega⟩
                      have e : (q :: (pk ++ (w1 ++ col :: (w2 ++ (pv ++ (w3 ++ sep :: (w4 ++ pm))))))) ++ t
                          = q :: (pk ++ (w1 ++ col :: (w2 ++ (pv ++ (w3 ++ sep :: (w4 ++ (pm ++ t)))))))
                          := by simp
                      rw [e, parseMembers_succ, if_pos hq, hextk]
                      simp only [hext1, if_pos hcol, hext2,
                        hextv (w3 ++ sep :: (w4 ++ (pm ++ t)))
                          (by rw [hw3]; exact agree_append w3 (agree_cons sep _ _))
                          m' (by simp at hm ⊢; omega) d' hd',
                        hext3, if_neg hsep, if_pos hcomma, consumed_append, hcons, hext4,
                        hextm t ht m' (by simp at hm ⊢; omega) d' hd']
                  · exact absurd h (by simp)
          · exact absurd h (by simp)
    · exact absurd h (by simp)

/-- Every successful parse is determined by the prefix it consumed. -/
theorem parse_ext (n : Nat) :
    (∀ dep s v rest, parseValue n dep s = some (v, rest) → Ext parseValue dep s v rest) ∧
    (∀ dep s ms rest, parseMembers n dep s = some (ms, rest) →
      Ext parseMembers dep s ms rest) ∧
    (∀ dep s xs rest, parseElems n dep s = some (xs, rest) →
      Ext parseElems dep s xs rest) := by
  induction n with
  | zero =>
    refine ⟨fun dep s v rest h => ?_, fun dep s ms rest h => ?_, fun dep s xs rest h => ?_⟩
    · rw [parseValue_zero] at h; exact absurd h (by simp)
    · rw [parseMembers_zero] at h; exact absurd h (by simp)
    · rw [parseElems_zero] at h; exact absurd h (by simp)
  | succ n ih =>
    obtain ⟨ihV, ihM, ihE⟩ := ih
    exact ⟨parseValue_ext_step n ihM ihE, parseMembers_ext_step n ihV ihM,
      parseElems_ext_step n ihV ihE⟩

theorem skipWS_idem (s : List Char) : skipWS (skipWS s) = skipWS s := by
  induction s with
  | nil => rfl
  | cons c r ih =>
    by_cases hc : isWS c = true
    · simp only [skipWS, if_pos hc]; exact ih
    · simp only [skipWS, if_neg hc]

theorem skipWS_cons_fix {c : Char} {x : List Char} (h : skipWS (c :: x) = c :: x) :
    isWS c = false := by
  by_cases hc : isWS c = true
  · simp only [skipWS, if_pos hc] at h
    have := skipWS_length x
    rw [h] at this
    simp at this
  · simpa using hc

theorem skipWS_of_not_ws {c : Char} (hc : isWS c = false) (x : List Char) :
    skipWS (c :: x) = c :: x := by
  simp [skipWS, hc]

theorem consumed_nil (p : List Char) : consumed p [] = p := by
  simp [consumed]

theorem numSafe_nil : numSafe [] := by
  intro c hc; simp at hc

theorem consumed_length_le (s rest : List Char) : (consumed s rest).length ≤ s.length := by
  simp [consumed]

/-- The text consumed by a value parse is itself a JSON text for the same
value. -/
theorem value_reparse {n dep : Nat} {s rest : List Char} {v : JValue}
    (h : parseValue n dep s = some (v, rest)) (hws : skipWS s = s) (hs : numSafe rest) :
    parseJSON (consumed s rest) = some (v, consumed s rest) := by
  obtain ⟨p, hne, hp, hext⟩ := (parse_ext n).1 dep s v rest h
  have hc : consumed s rest = p := by rw [hp]; exact consumed_append p rest
  rw [hc]
  obtain ⟨c, p', rfl⟩ : ∃ c p', p = c :: p' := by
    cases p with
    | nil => exact absurd rfl hne
    | cons c p' => exact ⟨c, p', rfl⟩
  have hcws : isWS c = false := by
    rw [hp] at hws
    exact skipWS_cons_fix hws
  have hv := hext [] (Or.inr ⟨hs, numSafe_nil⟩) ((c :: p').length + 1) (by omega) 0
    (Nat.zero_le dep)
  rw [List.append_nil] at hv
  unfold parseJSON
  rw [skipWS_of_not_ws hcws, hv]
  simp only [skipWS, consumed_nil]

theorem parseJSON_some {b : List Char} {v : JValue} {raw : List Char}
    (h : parseJSON b = some (v, raw)) :
    ∃ rest, parseValue (b.length + 1) 0 (skipWS b) = some (v, rest) ∧ skipWS rest = [] ∧
      raw = consumed (skipWS b) rest := by
  unfold parseJSON at h
  cases hv : parseValue (b.length + 1) 0 (skipWS b) with
  | none => rw [hv] at h; exact absurd h (by simp)
  | some res =>
    obtain ⟨v', rest⟩ := res
    rw [hv] at h
    simp only [] at h
    split at h
    · rename_i hr
      injection h with h; injection h with e1 e2
      subst e1
      exact ⟨rest, rfl, hr, e2.symm⟩
    · exact absurd h (by simp)

/-- The trimmed text of a JSON text parses to the same value and is its own
trimmed text: what an `UnmarshalJSON` method receives decodes like the
input. -/
theorem parseJSON_raw {b : List Char} {v : JValue} {raw : List Char}
    (h : parseJSON b = some (v, raw)) : parseJSON raw = some (v, raw) := by
  obtain ⟨rest, hv, hr, hraw⟩ := parseJSON_some h
  rw [hraw]
  exact value_reparse hv (skipWS_idem b) (skipWS_nil_numSafe hr)

theorem parseJSON_raw_length {b : List Char} {v : JValue} {raw : List Char}
    (h : parseJSON b = some (v, raw)) : raw.length ≤ b.length ∧ 0 < raw.length := by
  obtain ⟨rest, hv, hr, hraw⟩ := parseJSON_some h
  obtain ⟨p, hne, hp, _⟩ := (parse_ext _).1 _ _ _ _ hv
  have hc : raw = p := by rw [hraw, hp]; exact consumed_append p rest
  have h1 := skipWS_length b
  rw [hp] at h1
  simp only [List.length_append] at h1
  subst hc
  refine ⟨by omega, ?_⟩
  cases raw with
  | nil => exact absurd rfl hne
  | cons c p' => simp

theorem numSafe_of_skipWS {r3 r4 : List Char} {sep : Char} (h : skipWS r3 = sep :: r4)
    (hsep : isNumTail sep = false) : numSafe r3 := by
  cases r3 with
  | nil => simp [skipWS] at h
  | cons c x =>
    intro d hd
    simp only [List.head?_cons, Option.mem_def, Option.some.injEq] at hd
    subst hd
    by_cases hc : isWS c = true
    · revert hc
      simp only [isWS, isNumTail, isDigit, Bool.or_eq_true, decide_eq_true_eq]
      rintro (((h1 | h1) | h1) | h1) <;> subst h1 <;> decide
    · simp only [skipWS, if_neg hc, List.cons.injEq] at h
      rw [h.1]; exact hsep

theorem MemberOK_mono {s s' : List Char} {m : Member} (h : MemberOK s m) (hs : s <:+ s') :
    MemberOK s' m :=
  ⟨Nat.lt_of_lt_of_le h.1 hs.length_le, h.2.1, h.2.2.trans hs.isInfix⟩

theorem skipWS_suffix (s : List Char) : skipWS s <:+ s := by
  induction s with
  | nil => exact List.suffix_refl _
  | cons c r ih =>
    simp only [skipWS]
    split
    · exact ih.trans (List.suffix_cons c r)
    · exact List.suffix_refl _

theorem parseMembers_ok (n : Nat) : ∀ dep s ms rest, parseMembers n dep s = some (ms, rest) →
    ∀ m ∈ ms, MemberOK s m := by
  induction n with
  | zero => intro dep s ms rest h; rw [parseMembers_zero] at h; exact absurd h (by simp)
  | succ n ih =>
    intro dep s ms rest h
    cases s with
    | nil => rw [parseMembers_succ_nil] at h; exact absurd h (by simp)
    | cons q r =>
      rw [parseMembers_succ] at h
      split at h
      · cases hk : scanStr r with
        | none => rw [hk] at h; exact absurd h (by simp)
        | some res =>
          obtain ⟨kb, r1⟩ := res
          rw [hk] at h
          obtain ⟨pk, _, hpk, _⟩ := scanStr_ext hk
          simp only [] at h
          split at h
          · exact absurd h (by simp)
          · rename_i col r2 heq1
            obtain ⟨w1, hw1, _⟩ := skipWS_ext heq1
            split at h
            · cases hv : parseValue n dep (skipWS r2) with
              | none => rw [hv] at h; exact absurd h (by simp)
              | some res =>
                obtain ⟨v, r3⟩ := res
                rw [hv] at h
                obtain ⟨pv, hpvne, hpv, _⟩ := (parse_ext n).1 _ _ _ _ hv
                obtain ⟨w2, hw2, _⟩ := skipWS_front hpv hpvne
                have hcons : consumed (skipWS r2) r3 = pv := by
                  rw [hpv]; exact consumed_append pv r3
                have hinf : consumed (skipWS r2) r3 <:+: q :: r := by
                  rw [hcons]
                  exact ⟨q :: (pk ++ (w1 ++ col :: w2)), r3, by simp [hpk, hw1, hw2]⟩
                have hl2 := skipWS_length r2
                have hlen : (consumed (skipWS r2) r3).length < (q :: r).length := by
                  have := consumed_length_le (skipWS r2) r3
                  rw [hpk, hw1]
                  simp only [List.length_cons, List.length_append]
                  omega
                have hl3 : r3.length ≤ r2.length := by
                  rw [hpv] at hl2
                  simp only [List.length_append] at hl2
                  omega
                simp only [] at h
                split at h
                · exact absurd h (by simp)
                · rename_i sep r4 heq3
                  obtain ⟨w3, hw3, _⟩ := skipWS_ext heq3
                  split at h
                  · rename_i hsep
                    injection h with h; injection h with e1 e2
                    subst e1
                    intro m hm
                    simp only [List.mem_singleton] at hm
                    subst hm
                    exact ⟨hlen, value_reparse hv (skipWS_idem r2)
                      (numSafe_of_skipWS heq3 (by rw [hsep]; decide)), hinf⟩
                  · split at h
                    · rename_i hcomma
                      cases hm : parseMembers n dep (skipWS r4) with
                      | none => rw [hm] at h; exact absurd h (by simp)
                      | some res =>
                        obtain ⟨ms', rest'⟩ := res
                        rw [hm] at h
                        injection h with h; injection h with e1 e2
                        subst e1
                        intro m hmem
                        rcases List.mem_cons.1 hmem with hm1 | hm2
                        · subst hm1
                          exact ⟨hlen, value_reparse hv (skipWS_idem r2)
                            (numSafe_of_skipWS heq3 (by rw [hcomma]; decide)), hinf⟩
                        · refine MemberOK_mono (ih _ _ _ _ hm m hm2) ?_
                          have s4 : r4 <:+ r3 := ⟨w3 ++ [sep], by simp [hw3]⟩
                          have s3 : r3 <:+ r2 := ⟨w2 ++ pv, by simp [hw2]⟩
                          have s2 : r2 <:+ r1 := ⟨w1 ++ [col], by simp [hw1]⟩
                          have s1 : r1 <:+ r := ⟨pk, by simp [hpk]⟩
                          exact (skipWS_suffix r4).trans (s4.trans (s3.trans (s2.trans
                            (s1.trans (List.suffix_cons q r)))))
                    · exact absurd h (by simp)
            · exact absurd h (by simp)
      · exact absurd h (by simp)

/-- The members of a JSON text that is an object: each raw text is shorter
than the whole text and parses to the member's value. -/
theorem parseJSON_members {b : List Char} {ms : List Member} {raw : List Char}
    (h : parseJSON b = some (JValue.obj ms, raw)) : ∀ m ∈ ms, MemberOK b m := by
  obtain ⟨rest, hv, _, _⟩ := parseJSON_some h
  have hl := skipWS_length b
  cases hs : skipWS b with
  | nil => rw [hs, parseValue_succ_nil] at hv; exact absurd hv (by simp)
  | cons c r =>
    rw [hs] at hv hl
    rw [parseValue_succ] at hv
    split at hv
    · by_cases hdep : maxNestingDepth ≤ 0
      · rw [if_pos hdep] at hv; exact absurd hv (by simp)
      rw [if_neg hdep] at hv
      split at hv
      · rename_i d r2 heq
        split at hv
        · injection hv with hv; injection hv with e1 e2
          injection e1 with e1
          subst e1
          intro m hm; exact absurd hm (by simp)
        · cases hm : parseMembers b.length (0 + 1) (d :: r2) with
          | none => rw [hm] at hv; exact absurd hv (by simp)
          | some res =>
            obtain ⟨ms', rest'⟩ := res
            rw [hm] at hv
            injection hv with hv; injection hv with e1 e2
            injection e1 with e1
            subst e1
            intro m hmem
            refine MemberOK_mono (parseMembers_ok _ _ _ _ _ hm m hmem) ?_
            have s1 := skipWS_suffix r
            rw [heq] at s1
            have s2 := skipWS_suffix b
            rw [hs] at s2
            exact s1.trans ((List.suffix_cons c r).trans s2)
      · exact absurd hv (by simp)
    · split at hv
      · by_cases hdep : maxNestingDepth ≤ 0
        · rw [if_pos hdep] at hv; exact absurd hv (by simp)
        rw [if_neg hdep] at hv
        split at hv
        · split at hv
          · injection hv with hv; injection hv with e1 e2
            exact absurd e1 (by simp)
          · split at hv
            · injection hv with hv; injection hv with e1 e2
              exact absurd e1 (by simp)
            · exact absurd hv (by simp)
        · exact absurd hv (by simp)
      · split at hv
        · split at hv
          · injection hv with hv; injection hv with e1 e2
            exact absurd e1 (by simp)
          · exact absurd hv (by simp)
        · split at hv
          · cases hd : dropWord ['r', 'u', 'e'] r with
            | none => rw [hd] at hv; exact absurd hv (by simp)
            | some x => rw [hd] at hv; simp at hv
          · split at hv
            · cases hd : dropWord ['a', 'l', 's', 'e'] r with
              | none => rw [hd] at hv; exact absurd hv (by simp)
              | some x => rw [hd] at hv; simp at hv
            · split at hv
              · cases hd : dropWord ['u', 'l', 'l'] r with
                | none => rw [hd] at hv; exact absurd hv (by simp)
                | some x => rw [hd] at hv; simp at hv
              · cases hd : scanNumber (c :: r) with
                | none => rw [hd] at hv; exact absurd hv (by simp)
                | some x => rw [hd] at hv; simp at hv

/-! ## The decoder without its recursion bound -/

theorem rawField_mem (name : List Char) (ms : List Member) (init : List Char) :
    rawField name ms init = init ∨ ∃ m ∈ ms, rawField name ms init = m.2.1 := by
  induction ms generalizing init with
  | nil => exact Or.inl rfl
  | cons m ms ih =>
    simp only [rawField]
    rcases ih (if keyMatches name m.1 = true then m.2.1 else init) with h | ⟨m', hm', h⟩
    · rw [h]
      split
      · exact Or.inr ⟨m, by simp, rfl⟩
      · exact Or.inl rfl
    · exact Or.inr ⟨m', by simp [hm'], h⟩

theorem unmarshalStruct_ok {σ : Type} {fields : List Member → σ → Option σ} {init x : σ}
    {b : List Char} (h : unmarshalStruct fields init b = Except.ok x) :
    ∃ v raw, parseJSON b = some (v, raw) ∧
      ((∃ ms, v = JValue.obj ms ∧ fields ms init = some x) ∨ (v = JValue.null ∧ x = init)) := by
  unfold unmarshalStruct at h
  cases hp : parseJSON b with
  | none => rw [hp] at h; exact absurd h (by simp)
  | some res =>
    obtain ⟨v, raw⟩ := res
    rw [hp] at h
    refine ⟨v, raw, rfl, ?_⟩
    cases v with
    | obj ms =>
      simp only [] at h
      cases hf : fields ms init with
      | none => rw [hf] at h; exact absurd h (by simp)
      | some y =>
        rw [hf] at h
        injection h with h
        subst h
        exact Or.inl ⟨ms, rfl, hf⟩
    | null =>
      injection h with h
      exact Or.inr ⟨rfl, h.symm⟩
    | bool _ => exact absurd h (by simp)
    | num => exact absurd h (by simp)
    | str _ => exact absurd h (by simp)
    | arr _ => exact absurd h (by simp)

theorem callbackFields_raw {ε : Type} {ms : List Member} {init cb : EventCallback ε}
    (h : callbackFields ms init = some cb) :
    cb.RawEvent = rawField "event".toList ms init.RawEvent ∧ cb.Event = init.Event := by
  unfold callbackFields at h
  split at h
  · injection h with h
    subst h
    exact ⟨rfl, rfl⟩
  · exact absurd h (by simp)

/-- After the alias decode inside `UnmarshalJSON`, `RawEvent` is shorter than
the input (for a receiver whose `RawEvent` is). -/
theorem rawEvent_length {ε : Type} {e cb : EventCallback ε} {b : List Char}
    (h : unmarshalStruct callbackFields e b = Except.ok cb)
    (he : e.RawEvent.length < b.length) : cb.RawEvent.length < b.length := by
  obtain ⟨v, raw, hp, hv⟩ := unmarshalStruct_ok h
  rcases hv with ⟨ms, hms, hf⟩ | ⟨_, hx⟩
  · subst hms
    rw [(callbackFields_raw hf).1]
    rcases rawField_mem "event".toList ms e.RawEvent with h1 | ⟨m, hm, h1⟩
    · rw [h1]; exact he
    · rw [h1]; exact (parseJSON_members hp m hm).1
  · rw [hx]; exact he

theorem UnmarshalJSON_congr {ε : Type} {f g : List Char → Except DecodeError ε}
    {e : EventCallback ε} {b : List Char} (hfg : ∀ x, x.length < b.length → f x = g x)
    (he : e.RawEvent.length < b.length) :
    EventCallback.UnmarshalJSON f e b = EventCallback.UnmarshalJSON g e b := by
  unfold EventCallback.UnmarshalJSON
  cases hs : unmarshalStruct callbackFields e b with
  | error err => rfl
  | ok cb =>
    simp only []
    rw [hfg _ (rawEvent_length hs he)]

theorem unmarshalNew_congr {α : Type} (ext : Shape → List Char → Option α)
    {f g : List Char → Except DecodeError (Decoded α)} (t : Shape) {b : List Char}
    (hfg : ∀ x, x.length < b.length → f x = g x) :
    unmarshalNew ext f t b = unmarshalNew ext g t b := by
  by_cases ht : t = Shape.EventCallback
  · subst ht
    unfold unmarshalNew
    simp only []
    cases hp : parseJSON b with
    | none => rfl
    | some res =>
      obtain ⟨v, raw⟩ := res
      simp only []
      have hl := parseJSON_raw_length hp
      rw [UnmarshalJSON_congr (fun x hx => hfg x (by omega)) (by simpa [EventCallback.zero] using hl.2)]
  · cases t <;> first | exact absurd rfl ht | rfl

theorem unmarshalFuel_succ {α : Type} (ext : Shape → List Char → Option α) (n : Nat)
    (e : Option EventUnmarshaller) (jsonEvent : List Char) :
    unmarshalFuel ext (n + 1) e jsonEvent =
      match unmarshalStruct eventFields ⟨[]⟩ jsonEvent with
      | Except.error err => Except.error err
      | Except.ok eventHeader =>
        match eventMapping.lookup eventHeader.Type_ with
        | none => Except.error (DecodeError.unmapped eventHeader.Type_ jsonEvent)
        | some t => unmarshalNew ext (unmarshalFuel ext n (some eventMapping)) t jsonEvent := by
  rw [unmarshalFuel]

/-- Any recursion bound above the length of the input gives the same
result. -/
theorem unmarshalFuel_stable {α : Type} (ext : Shape → List Char → Option α) (n : Nat) :
    ∀ (m : Nat) (e e' : Option EventUnmarshaller) (b : List Char), b.length < n → b.length < m →
      unmarshalFuel ext n e b = unmarshalFuel ext m e' b := by
  induction n with
  | zero => intro m e e' b h; exact absurd h (by omega)
  | succ n ih =>
    intro m e e' b hn hm
    obtain ⟨m', rfl⟩ : ∃ m', m = m' + 1 := ⟨m - 1, by omega⟩
    rw [unmarshalFuel_succ, unmarshalFuel_succ]
    cases unmarshalStruct eventFields ⟨[]⟩ b with
    | error err => rfl
    | ok hdr =>
      simp only []
      cases eventMapping.lookup hdr.Type_ with
      | none => rfl
      | some t =>
        simp only []
        exact unmarshalNew_congr ext t (fun x hx => ih m' _ _ x (by omega) (by omega))

/-- The defining equation of `Unmarshal`, as the source has it: header pass,
lookup in `eventMapping`, decode into a fresh value, the nested decode being
`eventMapping.Unmarshal` itself. -/
theorem Unmarshal_eq {α : Type} (ext : Shape → List Char → Option α)
    (e : Option EventUnmarshaller) (jsonEvent : List Char) :
    EventUnmarshaller.Unmarshal ext e jsonEvent =
      match unmarshalStruct eventFields ⟨[]⟩ jsonEvent with
      | Except.error err => Except.error err
      | Except.ok eventHeader =>
        match eventMapping.lookup eventHeader.Type_ with
        | none => Except.error (DecodeError.unmapped eventHeader.Type_ jsonEvent)
        | some t =>
          unmarshalNew ext (EventUnmarshaller.Unmarshal ext (some eventMapping)) t jsonEvent := by
  unfold EventUnmarshaller.Unmarshal
  rw [unmarshalFuel_succ]
  cases unmarshalStruct eventFields ⟨[]⟩ jsonEvent with
  | error err => rfl
  | ok hdr =>
    simp only []
    cases eventMapping.lookup hdr.Type_ with
    | none => rfl
    | some t =>
      simp only []
      exact unmarshalNew_congr ext t
        (fun x hx => unmarshalFuel_stable ext _ _ _ _ x hx (by omega))

/-! ## Field decoding on payloads with one member per key -/

theorem strField_matching (name : List Char) (ms : List Member) (init : List Char) :
    strField name ms init = strField name (matching name ms) init := by
  induction ms generalizing init with
  | nil => rfl
  | cons m ms ih =>
    by_cases hk : keyMatches name m.1 = true
    · simp only [matching, List.filter_cons, hk, if_true, strField]
      exact ih _
    · simp only [matching, List.filter_cons, hk, strField]
      exact ih _

theorem strFieldOK_matching (name : List Char) (ms : List Member) :
    strFieldOK name ms = (matching name ms).all (fun m => okString m.2.2) := by
  induction ms with
  | nil => rfl
  | cons m ms ih =>
    unfold strFieldOK at ih ⊢
    by_cases hk : keyMatches name m.1 = true
    · simp only [matching, List.filter_cons, hk, if_true, List.all_cons, Bool.not_true,
        Bool.false_or]
      rw [ih]; rfl
    · simp only [matching, List.filter_cons, hk, List.all_cons]
      rw [ih]
      simp only [Bool.not_eq_true] at hk
      simp [hk, matching]

theorem matching_key {name : List Char} {ms : List Member} {m : Member}
    (h : matching name ms = [m]) : keyMatches name m.1 = true := by
  have hm : m ∈ matching name ms := by rw [h]; simp
  have := List.of_mem_filter hm
  simpa using this

theorem strOf_spec {name : List Char} {ms : List Member} {s : List Char}
    (h : strOf name ms = some s) : strFieldOK name ms = true ∧ strField name ms [] = s := by
  rw [strFieldOK_matching, strField_matching]
  unfold strOf at h
  split at h
  · rename_i hm
    rw [hm]
    injection h with h
    exact ⟨rfl, h⟩
  · rename_i m hm
    have hk := matching_key hm
    rw [hm]
    split at h
    · rename_i s' hv
      injection h with h
      simp [strField, okString, hv, h, hk]
    · rename_i hv
      injection h with h
      simp [strField, okString, hv, h, hk]
    · exact absurd h (by simp)
  · exact absurd h (by simp)

theorem rawField_matching (name : List Char) (ms : List Member) (init : List Char) :
    rawField name ms init = rawField name (matching name ms) init := by
  induction ms generalizing init with
  | nil => rfl
  | cons m ms ih =>
    by_cases hk : keyMatches name m.1 = true
    · simp only [matching, List.filter_cons, hk, if_true, rawField]
      exact ih _
    · simp only [matching, List.filter_cons, hk, rawField]
      exact ih _

theorem rawOf_spec {name : List Char} {ms : List Member} {r : List Char}
    (h : rawOf name ms = some r) (init : List Char) : rawField name ms init = r := by
  rw [rawField_matching]
  unfold rawOf at h
  split at h
  · rename_i m hm
    have hk := matching_key hm
    rw [hm]
    injection h with h
    simp [rawField, hk, h]
  · exact absurd h (by simp)

theorem rawOf_mem {name : List Char} {ms : List Member} {r : List Char}
    (h : rawOf name ms = some r) : ∃ m ∈ ms, m.2.1 = r := by
  unfold rawOf at h
  split at h
  · rename_i m hm
    injection h with h
    have hmem : m ∈ matching name ms := by rw [hm]; simp
    exact ⟨m, List.mem_of_mem_filter hmem, h⟩
  · exact absurd h (by simp)

theorem strsField_matching (name : List Char) (ms : List Member)
    (acc : List (List Char) × List (List Char)) :
    strsField name ms acc = strsField name (matching name ms) acc := by
  induction ms generalizing acc with
  | nil => rfl
  | cons m ms ih =>
    by_cases hk : keyMatches name m.1 = true
    · simp only [matching, List.filter_cons, hk, if_true, strsField]
      exact ih _
    · simp only [matching, List.filter_cons, hk, strsField]
      exact ih _

theorem strsFieldOK_matching (name : List Char) (ms : List Member) :
    strsFieldOK name ms = (matching name ms).all (fun m => okStrings m.2.2) := by
  induction ms with
  | nil => rfl
  | cons m ms ih =>
    unfold strsFieldOK at ih ⊢
    by_cases hk : keyMatches name m.1 = true
    · simp only [matching, List.filter_cons, hk, if_true, List.all_cons, Bool.not_true,
        Bool.false_or]
      rw [ih]; rfl
    · simp only [matching, List.filter_cons, hk, List.all_cons]
      rw [ih]
      simp only [Bool.not_eq_true] at hk
      simp [hk, matching]

theorem strings_spec {xs : List JValue} {ss : List (List Char)} (h : strings xs = some ss) :
    xs.all okString = true ∧ ∀ backing, strElems xs backing = ss := by
  induction xs generalizing ss with
  | nil =>
    simp only [strings] at h
    injection h with h
    subst h
    exact ⟨rfl, fun _ => rfl⟩
  | cons x xs ih =>
    cases x with
    | str s =>
      simp only [strings] at h
      cases hx : strings xs with
      | none => rw [hx] at h; exact absurd h (by simp)
      | some ss' =>
        rw [hx] at h
        injection h with h
        subst h
        obtain ⟨h1, h2⟩ := ih hx
        exact ⟨by simp [okString, h1], fun backing => by simp [strElems, h2]⟩
    | null => simp [strings] at h
    | bool _ => simp [strings] at h
    | num => simp [strings] at h
    | arr _ => simp [strings] at h
    | obj _ => simp [strings] at h

theorem strsOf_spec {name : List Char} {ms : List Member} {ss : List (List Char)}
    (h : strsOf name ms = some ss) :
    strsFieldOK name ms = true ∧ (strsField name ms ([], [])).1 = ss := by
  rw [strsFieldOK_matching, strsField_matching]
  unfold strsOf at h
  split at h
  · rename_i hm
    rw [hm]
    injection h with h
    exact ⟨rfl, h⟩
  · rename_i m hm
    have hk := matching_key hm
    rw [hm]
    split at h
    · rename_i xs hv
      obtain ⟨h1, h2⟩ := strings_spec h
      cases xs with
      | nil =>
        simp only [strings] at h
        injection h with h
        subst h
        simp [strsField, strsStore, okStrings, hv, hk]
      | cons x xs' =>
        simp [strsField, strsStore, okStrings, hv, hk, h1, h2]
    · rename_i hv
      injection h with h
      simp [strsField, strsStore, okStrings, hv, h, hk]
    · exact absurd h (by simp)
  · exact absurd h (by simp)

/-! ## General facts about `Unmarshal` -/

theorem unmarshalStruct_raw {σ : Type} (fields : List Member → σ → Option σ) (init : σ)
    {b : List Char} {v : JValue} {raw : List Char} (hp : parseJSON b = some (v, raw)) :
    unmarshalStruct fields init raw = unmarshalStruct fields init b := by
  unfold unmarshalStruct
  rw [hp, parseJSON_raw hp]

theorem rawEventOf_raw {b : List Char} {v : JValue} {raw : List Char}
    (hp : parseJSON b = some (v, raw)) : rawEventOf raw = rawEventOf b := by
  unfold rawEventOf
  rw [hp, parseJSON_raw hp]

theorem unmarshalStruct_error {σ : Type} {fields : List Member → σ → Option σ} {init : σ}
    {b : List Char} {err : DecodeError} (h : unmarshalStruct fields init b = Except.error err) :
    err = DecodeError.malformed ∨ err = DecodeError.mismatch := by
  unfold unmarshalStruct at h
  cases hp : parseJSON b with
  | none =>
    rw [hp] at h
    injection h with h
    exact Or.inl h.symm
  | some res =>
    obtain ⟨v, raw⟩ := res
    rw [hp] at h
    cases v with
    | obj ms =>
      simp only [] at h
      cases hf : fields ms init with
      | none =>
        rw [hf] at h
        injection h with h
        exact Or.inr h.symm
      | some y => rw [hf] at h; exact absurd h (by simp)
    | null => exact absurd h (by simp)
    | bool _ => injection h with h; exact Or.inr h.symm
    | num => injection h with h; exact Or.inr h.symm
    | str _ => injection h with h; exact Or.inr h.symm
    | arr _ => injection h with h; exact Or.inr h.symm

/-- The result of `UnmarshalJSON`, read off the alias decode and the nested
decode. -/
theorem UnmarshalJSON_ok {ε : Type} {f : List Char → Except DecodeError ε}
    {e cb : EventCallback ε} {b : List Char}
    (h : EventCallback.UnmarshalJSON f e b = Except.ok cb) :
    ∃ cb0 x, unmarshalStruct callbackFields e b = Except.ok cb0 ∧ f cb0.RawEvent = Except.ok x ∧
      cb = { cb0 with Event := some x } := by
  unfold EventCallback.UnmarshalJSON at h
  cases hs : unmarshalStruct callbackFields e b with
  | error err => rw [hs] at h; exact absurd h (by simp)
  | ok cb0 =>
    rw [hs] at h
    simp only [] at h
    cases hf : f cb0.RawEvent with
    | error err => rw [hf] at h; exact absurd h (by simp)
    | ok x =>
      rw [hf] at h
      injection h with h
      exact ⟨cb0, x, rfl, hf, h.symm⟩

/-- A value decoded into a fresh instance of type `t` has dynamic type `t`. -/
theorem unmarshalNew_shape {α : Type} {ext : Shape → List Char → Option α}
    {f : List Char → Except DecodeError (Decoded α)} {t : Shape} {b : List Char}
    {x : Decoded α} (h : unmarshalNew ext f t b = Except.ok x) : x.shape = t := by
  unfold unmarshalNew at h
  split at h
  · split at h
    · exact absurd h (by simp)
    · split at h
      · exact absurd h (by simp)
      · injection h with h; subst h; rfl
  · split at h
    · exact absurd h (by simp)
    · injection h with h; subst h; rfl
  · split at h
    · exact absurd h (by simp)
    · injection h with h; subst h; rfl
  · split at h
    · exact absurd h (by simp)
    · injection h with h; subst h; rfl
  · split at h
    · injection h with h; subst h; rfl
    · exact absurd h (by simp)

/-- A successful `Unmarshal` went through the header pass and the lookup,
and its value has the type found there. -/
theorem Unmarshal_ok {α : Type} {ext : Shape → List Char → Option α}
    {e : Option EventUnmarshaller} {b : List Char} {x : Decoded α}
    (h : EventUnmarshaller.Unmarshal ext e b = Except.ok x) :
    ∃ hdr, unmarshalStruct eventFields ⟨[]⟩ b = Except.ok hdr ∧
      eventMapping.lookup hdr.Type_ = some x.shape ∧
      unmarshalNew ext (EventUnmarshaller.Unmarshal ext (some eventMapping)) x.shape b
        = Except.ok x := by
  rw [Unmarshal_eq] at h
  cases hs : unmarshalStruct eventFields ⟨[]⟩ b with
  | error err => rw [hs] at h; exact absurd h (by simp)
  | ok hdr =>
    rw [hs] at h
    simp only [] at h
    cases hl : eventMapping.lookup hdr.Type_ with
    | none => rw [hl] at h; exact absurd h (by simp)
    | some t =>
      rw [hl] at h
      simp only [] at h
      have := unmarshalNew_shape h
      subst this
      exact ⟨hdr, rfl, hl, h⟩

theorem lookup_mem {l : EventUnmarshaller} {d : List Char} {t : Shape}
    (h : l.lookup d = some t) : (d, t) ∈ l := by
  induction l with
  | nil => simp [List.lookup] at h
  | cons p l ih =>
    obtain ⟨k, v⟩ := p
    simp only [List.lookup] at h
    split at h
    · rename_i hk
      injection h with h
      subst h
      have : d = k := by simpa using hk
      subst this
      exact List.mem_cons_self _ _
    · exact List.mem_cons_of_mem _ (ih h)

/-- Only the event name `event_callback` is mapped to `EventCallback`. -/
theorem lookup_eventCallback {d : List Char}
    (h : eventMapping.lookup d = some Shape.EventCallback) : d = "event_callback".toList := by
  have hm := lookup_mem h
  simp only [eventMapping, List.mem_cons, Prod.mk.injEq, List.mem_singleton, reduceCtorEq,
    and_false, and_true, false_or, or_false, List.not_mem_nil] at hm
  exact hm

theorem UnmarshalJSON_error {ε : Type} {f : List Char → Except DecodeError ε}
    {e : EventCallback ε} {b : List Char} {err : DecodeError}
    (h : EventCallback.UnmarshalJSON f e b = Except.error err) :
    (err = DecodeError.malformed ∨ err = DecodeError.mismatch) ∨
      ∃ cb0, unmarshalStruct callbackFields e b = Except.ok cb0 ∧
        f cb0.RawEvent = Except.error err := by
  unfold EventCallback.UnmarshalJSON at h
  cases hs : unmarshalStruct callbackFields e b with
  | error err' =>
    rw [hs] at h
    injection h with h
    subst h
    exact Or.inl (unmarshalStruct_error hs)
  | ok cb0 =>
    rw [hs] at h
    simp only [] at h
    cases hf : f cb0.RawEvent with
    | error err' =>
      rw [hf] at h
      injection h with h
      subst h
      exact Or.inr ⟨cb0, rfl, hf⟩
    | ok x => rw [hf] at h; exact absurd h (by simp)

theorem unmarshalNew_error {α : Type} {ext : Shape → List Char → Option α}
    {f : List Char → Except DecodeError (Decoded α)} {t : Shape} {b : List Char}
    {err : DecodeError} (h : unmarshalNew ext f t b = Except.error err) :
    (err = DecodeError.malformed ∨ err = DecodeError.mismatch) ∨
      ∃ x, x.length < b.length ∧ f x = Except.error err := by
  unfold unmarshalNew at h
  split at h
  · cases hp : parseJSON b with
    | none =>
      rw [hp] at h
      injection h with h
      exact Or.inl (Or.inl h.symm)
    | some res =>
      obtain ⟨v, raw⟩ := res
      rw [hp] at h
      simp only [] at h
      cases hu : EventCallback.UnmarshalJSON f EventCallback.zero raw with
      | ok cb => rw [hu] at h; exact absurd h (by simp)
      | error err' =>
        rw [hu] at h
        injection h with h
        subst h
        rcases UnmarshalJSON_error hu with h1 | ⟨cb0, h0, hf⟩
        · exact Or.inl h1
        · have hl := parseJSON_raw_length hp
          have := rawEvent_length h0 (by simpa [EventCallback.zero] using hl.2)
          exact Or.inr ⟨cb0.RawEvent, by omega, hf⟩
  · split at h
    · rename_i hs
      injection h with h
      subst h
      exact Or.inl (unmarshalStruct_error hs)
    · exact absurd h (by simp)
  · split at h
    · rename_i hs
      injection h with h
      subst h
      exact Or.inl (unmarshalStruct_error hs)
    · exact absurd h (by simp)
  · split at h
    · rename_i hs
      injection h with h
      subst h
      exact Or.inl (unmarshalStruct_error hs)
    · exact absurd h (by simp)
  · split at h
    · exact absurd h (by simp)
    · injection h with h
      exact Or.inl (Or.inr h.symm)

theorem Unmarshal_not_exhausted_aux {α : Type} (ext : Shape → List Char → Option α) (n : Nat) :
    ∀ (e : Option EventUnmarshaller) (b : List Char), b.length ≤ n →
      EventUnmarshaller.Unmarshal ext e b ≠ Except.error DecodeError.exhausted := by
  induction n with
  | zero =>
    intro e b hb h
    have hb0 : b = [] := List.length_eq_zero.1 (Nat.le_zero.1 hb)
    subst hb0
    have h2 : EventUnmarshaller.Unmarshal ext e [] = Except.error DecodeError.malformed := rfl
    rw [h2] at h
    exact absurd h (by simp)
  | succ n ih =>
    intro e b hb h
    rw [Unmarshal_eq] at h
    cases hs : unmarshalStruct eventFields ⟨[]⟩ b with
    | error err =>
      rw [hs] at h
      injection h with h
      subst h
      rcases unmarshalStruct_error hs with h1 | h1 <;> exact absurd h1 (by simp)
    | ok hdr =>
      rw [hs] at h
      simp only [] at h
      cases hl : eventMapping.lookup hdr.Type_ with
      | none => rw [hl] at h; exact absurd h (by simp)
      | some t =>
        rw [hl] at h
        simp only [] at h
        rcases unmarshalNew_error h with (h1 | h1) | ⟨x, hx, hf⟩
        · exact absurd h1 (by simp)
        · exact absurd h1 (by simp)
        · exact ih _ x (by omega) hf

/-- The recursion bound is never hit: `Unmarshal` ends with a value or with
one of the errors of the source on every input. -/
theorem Unmarshal_not_exhausted {α : Type} (ext : Shape → List Char → Option α)
    (e : Option EventUnmarshaller) (b : List Char) :
    EventUnmarshaller.Unmarshal ext e b ≠ Except.error DecodeError.exhausted :=
  Unmarshal_not_exhausted_aux ext b.length e b (Nat.le_refl _)

/-! ## String literals of the grammar are read back -/

theorem lowerHex_eq : "0123456789abcdef".toList =
    ['0', '1', '2', '3', '4', '5', '6', '7', '8', '9', 'a', 'b', 'c', 'd', 'e', 'f'] := rfl

theorem upperHex_eq : "0123456789ABCDEF".toList =
    ['0', '1', '2', '3', '4', '5', '6', '7', '8', '9', 'A', 'B', 'C', 'D', 'E', 'F'] := rfl

theorem hexDigitOf_spec {d : Nat} {c : Char} (h : hexDigitOf d c = true) :
    d < 16 ∧ isHex c = true ∧ hexVal c = d := by
  unfold hexDigitOf at h
  rw [lowerHex_eq, upperHex_eq] at h
  by_cases hd : d < 16
  · refine ⟨hd, ?_⟩
    interval_cases d <;> simp at h <;>
      first
      | (subst h; decide)
      | (rcases h with h | h <;> subst h <;> decide)
  · exfalso
    rw [List.getElem?_eq_none (by simp; omega), List.getElem?_eq_none (by simp; omega)] at h
    simp at h

theorem hexQuad_spec {n : Nat} {h1 h2 h3 h4 : Char} (h : hexQuad n h1 h2 h3 h4) :
    n < 65536 ∧ (isHex h1 && isHex h2 && isHex h3 && isHex h4) = true ∧ hex4 h1 h2 h3 h4 = n := by
  obtain ⟨a, b, c, d⟩ := h
  obtain ⟨a1, a2, a3⟩ := hexDigitOf_spec a
  obtain ⟨b1, b2, b3⟩ := hexDigitOf_spec b
  obtain ⟨c1, c2, c3⟩ := hexDigitOf_spec c
  obtain ⟨d1, d2, d3⟩ := hexDigitOf_spec d
  refine ⟨by omega, by simp [a2, b2, c2, d2], ?_⟩
  unfold hex4
  rw [a3, b3, c3, d3]
  omega

theorem scanStr_unicode (h1 h2 h3 h4 : Char) (x : List Char)
    (hh : (isHex h1 && isHex h2 && isHex h3 && isHex h4) = true) :
    scanStr ('\\' :: 'u' :: h1 :: h2 :: h3 :: h4 :: x) =
      match scanStr x with
      | some (b, rest) => some ('\\' :: 'u' :: h1 :: h2 :: h3 :: h4 :: b, rest)
      | none => none := by
  rw [scanStr_cons, if_neg (by decide), if_pos rfl]
  simp only [if_pos rfl, hh]
  rfl

theorem scanStr_simple (e : Char) (x : List Char) (he : isSimpleEscape e = true) :
    scanStr ('\\' :: e :: x) =
      match scanStr x with
      | some (b, rest) => some ('\\' :: e :: b, rest)
      | none => none := by
  have hu : e ≠ 'u' := by
    intro h
    subst h
    exact absurd he (by decide)
  rw [scanStr_cons, if_neg (by decide), if_pos rfl]
  simp only [if_neg hu, he]
  rfl

/-- The scanner steps over the text of one character. -/
theorem scanStr_encChar {c : Char} {e : List Char} (h : EncChar c e) (x : List Char) :
    scanStr (e ++ x) =
      match scanStr x with
      | some (b, rest) => some (e ++ b, rest)
      | none => none := by
  cases h with
  | self _ h1 h2 h3 =>
    rw [List.singleton_append, scanStr_cons, if_neg h1, if_neg h2, if_neg (by omega)]
    rfl
  | quote => exact scanStr_simple '"' x (by decide)
  | backslash => exact scanStr_simple '\\' x (by decide)
  | slash => exact scanStr_simple '/' x (by decide)
  | backspace => exact scanStr_simple 'b' x (by decide)
  | formfeed => exact scanStr_simple 'f' x (by decide)
  | newline => exact scanStr_simple 'n' x (by decide)
  | ret => exact scanStr_simple 'r' x (by decide)
  | tab => exact scanStr_simple 't' x (by decide)
  | unicode _ h1 h2 h3 h4 hc hq =>
    exact scanStr_unicode h1 h2 h3 h4 x (hexQuad_spec hq).2.1
  | pair _ h1 h2 h3 h4 g1 g2 g3 g4 hc hq hq2 =>
    have e1 := scanStr_unicode h1 h2 h3 h4 ('\\' :: 'u' :: g1 :: g2 :: g3 :: g4 :: x)
      (hexQuad_spec hq).2.1
    have e2 := scanStr_unicode g1 g2 g3 g4 x (hexQuad_spec hq2).2.1
    show scanStr ('\\' :: 'u' :: h1 :: h2 :: h3 :: h4 :: '\\' :: 'u' :: g1 :: g2 :: g3 :: g4 :: x) = _
    rw [e1, e2]
    cases scanStr x with
    | none => rfl
    | some p => rfl

/-- The scanner reads the body of a string literal of the grammar up to the
closing quote. -/
theorem scanStr_enc {s body : List Char} (h : EncStr s body) (rest : List Char) :
    scanStr (body ++ '"' :: rest) = some (body, rest) := by
  induction h with
  | nil => rw [List.nil_append, scanStr_cons, if_pos rfl]
  | cons c e s body hc _ ih =>
    rw [List.append_assoc, scanStr_encChar hc, ih]

theorem unquote_plain_cons (n : Nat) (c : Char) (r : List Char) (hc : c ≠ '\\') :
    unquote (n + 1) (c :: r) = c :: unquote n r := by
  conv_lhs => rw [unquote.eq_def]
  simp only [if_neg hc]

theorem unquote_simple (n : Nat) (e : Char) (r : List Char) (he : e ≠ 'u') :
    unquote (n + 1) ('\\' :: e :: r) = unescape e :: unquote n r := by
  conv_lhs => rw [unquote.eq_def]
  simp only [if_neg he, ↓reduceIte]

theorem unquote_unicode (n : Nat) (h1 h2 h3 h4 : Char) (r : List Char)
    (hu : ¬ (0xD800 ≤ hex4 h1 h2 h3 h4 ∧ hex4 h1 h2 h3 h4 < 0xE000)) :
    unquote (n + 1) ('\\' :: 'u' :: h1 :: h2 :: h3 :: h4 :: r) =
      Char.ofNat (hex4 h1 h2 h3 h4) :: unquote n r := by
  conv_lhs => rw [unquote.eq_def]
  simp only [↓reduceIte]
  rw [if_neg]
  simpa using hu

theorem unquote_pair (n : Nat) (h1 h2 h3 h4 g1 g2 g3 g4 : Char) (r : List Char)
    (hg : (isHex g1 && isHex g2 && isHex g3 && isHex g4) = true)
    (hu : 0xD800 ≤ hex4 h1 h2 h3 h4 ∧ hex4 h1 h2 h3 h4 < 0xDC00)
    (hw : 0xDC00 ≤ hex4 g1 g2 g3 g4 ∧ hex4 g1 g2 g3 g4 < 0xE000) :
    unquote (n + 1)
        ('\\' :: 'u' :: h1 :: h2 :: h3 :: h4 :: '\\' :: 'u' :: g1 :: g2 :: g3 :: g4 :: r) =
      Char.ofNat ((hex4 h1 h2 h3 h4 - 0xD800) * 1024 + (hex4 g1 g2 g3 g4 - 0xDC00) + 0x10000)
        :: unquote n r := by
  conv_lhs => rw [unquote.eq_def]
  simp only [↓reduceIte]
  rw [if_pos (by simp; omega), if_pos]
  simp only [Bool.and_eq_true, decide_eq_true_eq] at hg
  obtain ⟨⟨⟨a, b⟩, c⟩, d⟩ := hg
  simp [a, b, c, d, hu.2, hw.1, hw.2]

theorem char_ofNat_toNat (c : Char) : Char.ofNat c.toNat = c := Char.ofNat_toNat c

theorem char_not_surrogate (c : Char) : ¬ (0xD800 ≤ c.toNat ∧ c.toNat < 0xE000) := by
  have hv : c.toNat.isValidChar := c.valid
  unfold Nat.isValidChar at hv
  omega

theorem char_lt (c : Char) : c.toNat < 0x110000 := by
  have hv : c.toNat.isValidChar := c.valid
  unfold Nat.isValidChar at hv
  omega

/-- Interpreting the escapes gives back the character written. -/
theorem unquote_encChar {c : Char} {e : List Char} (h : EncChar c e) (n : Nat) (x : List Char) :
    unquote (n + 1) (e ++ x) = c :: unquote n x := by
  cases h with
  | self _ h1 h2 h3 => exact unquote_plain_cons n c x h2
  | quote => exact unquote_simple n '"' x (by decide)
  | backslash => exact unquote_simple n '\\' x (by decide)
  | slash => exact unquote_simple n '/' x (by decide)
  | backspace => exact unquote_simple n 'b' x (by decide)
  | formfeed => exact unquote_simple n 'f' x (by decide)
  | newline => exact unquote_simple n 'n' x (by decide)
  | ret => exact unquote_simple n 'r' x (by decide)
  | tab => exact unquote_simple n 't' x (by decide)
  | unicode _ h1 h2 h3 h4 hc hq =>
    have e := (hexQuad_spec hq).2.2
    show unquote (n + 1) ('\\' :: 'u' :: h1 :: h2 :: h3 :: h4 :: x) = _
    rw [unquote_unicode n h1 h2 h3 h4 x (by rw [e]; exact char_not_surrogate c), e,
      char_ofNat_toNat]
  | pair _ h1 h2 h3 h4 g1 g2 g3 g4 hc hq hq2 =>
    have e1 := (hexQuad_spec hq).2.2
    have e2 := (hexQuad_spec hq2).2.2
    have hl := char_lt c
    show unquote (n + 1)
      ('\\' :: 'u' :: h1 :: h2 :: h3 :: h4 :: '\\' :: 'u' :: g1 :: g2 :: g3 :: g4 :: x) = _
    rw [unquote_pair n h1 h2 h3 h4 g1 g2 g3 g4 x (hexQuad_spec hq2).2.1
      (by rw [e1]; omega) (by rw [e2]; omega), e1, e2]
    have : (0xD800 + (c.toNat - 0x10000) / 1024 - 0xD800) * 1024
        + (0xDC00 + (c.toNat - 0x10000) % 1024 - 0xDC00) + 0x10000 = c.toNat := by omega
    rw [this, char_ofNat_toNat]

/-- Interpreting the escapes of a string literal of the grammar gives the
string it stands for. -/
theorem unquote_enc {s body : List Char} (h : EncStr s body) :
    ∀ n, body.length < n → unquote n body = s := by
  induction h with
  | nil =>
    intro n hn
    obtain ⟨m, rfl⟩ : ∃ m, n = m + 1 := ⟨n - 1, by simp at hn; omega⟩
    rfl
  | cons c e s body hc _ ih =>
    intro n hn
    obtain ⟨m, rfl⟩ : ∃ m, n = m + 1 := ⟨n - 1, by simp at hn; omega⟩
    have hl : 1 ≤ e.length := by
      cases hc <;> simp
    rw [unquote_encChar hc, ih m (by simp at hn; omega)]

/-! ## Words, white space and numbers of the grammar are read back -/

theorem dropWord_append (w t : List Char) : dropWord w (w ++ t) = some t := by
  induction w with
  | nil => cases t <;> rfl
  | cons c r ih => rw [List.cons_append, dropWord, if_pos rfl, ih]

theorem allWS_cons {a : Char} {w : List Char} (h : allWS (a :: w) = true) :
    isWS a = true ∧ allWS w = true := by
  simpa [allWS] using h

theorem skipWS_allWS (w : List Char) (hw : allWS w = true) {c : Char} (hc : isWS c = false)
    (x : List Char) : skipWS (w ++ c :: x) = c :: x := by
  induction w with
  | nil => exact skipWS_of_not_ws hc x
  | cons a w ih =>
    obtain ⟨h1, h2⟩ := allWS_cons hw
    rw [List.cons_append]
    simp only [skipWS, if_pos h1]
    exact ih h2

theorem isWS_numTail {a : Char} (h : isWS a = true) : isNumTail a = false := by
  simp only [isWS, Bool.or_eq_true, decide_eq_true_eq] at h
  rcases h with ((h | h) | h) | h <;> subst h <;> decide

theorem numSafe_cons {c : Char} (h : isNumTail c = false) (x : List Char) : numSafe (c :: x) := by
  intro d hd
  simp only [List.head?_cons, Option.mem_def, Option.some.injEq] at hd
  subst hd
  exact h

/-- White space and then a separator end a number. -/
theorem numSafe_ws_sep (w : List Char) (hw : allWS w = true) {c : Char}
    (hc : isNumTail c = false) (x : List Char) : numSafe (w ++ c :: x) := by
  cases w with
  | nil => exact numSafe_cons hc x
  | cons a w => exact numSafe_cons (isWS_numTail (allWS_cons hw).1) _

theorem ne_of_isDigit {c d : Char} (h : isDigit c = true) (hd : isDigit d = false) : c ≠ d := by
  intro e
  subst e
  rw [h] at hd
  cases hd

theorem isValueStart_spec {c : Char} (h : isValueStart c = true) :
    isWS c = false ∧ c ≠ ']' ∧ c ≠ '\x7d' := by
  simp only [isValueStart, Bool.or_eq_true, decide_eq_true_eq] at h
  rcases h with ((((((h | h) | h) | h) | h) | h) | h) | h
  any_goals (subst h; decide)
  refine ⟨?_, ne_of_isDigit h (by decide), ne_of_isDigit h (by decide)⟩
  have h1 := ne_of_isDigit h (show isDigit ' ' = false by decide)
  have h2 := ne_of_isDigit h (show isDigit '\t' = false by decide)
  have h3 := ne_of_isDigit h (show isDigit '\r' = false by decide)
  have h4 := ne_of_isDigit h (show isDigit '\n' = false by decide)
  simp [isWS, h1, h2, h3, h4]

/-- White space in front of a value is skipped. -/
theorem skipWS_value (w : List Char) (hw : allWS w = true) {tv : List Char}
    (hv : ∃ c r, tv = c :: r ∧ isValueStart c = true) (x : List Char) :
    skipWS (w ++ (tv ++ x)) = tv ++ x := by
  obtain ⟨c, r, rfl, hc⟩ := hv
  exact skipWS_allWS w hw (isValueStart_spec hc).1 (r ++ x)

theorem headAll_cons {q : Char → Bool} {c : Char} (h : q c = true) (x : List Char) :
    headAll q (c :: x) := by
  intro d hd
  simp only [List.head?_cons, Option.mem_def, Option.some.injEq] at hd
  subst hd
  exact h

theorem dropWhile_all (r u : List Char) (hr : r.all isDigit = true)
    (hu : headAll (fun c => !isDigit c) u) : (r ++ u).dropWhile isDigit = u := by
  induction r with
  | nil => exact dropWhile_headAll hu
  | cons d r ih =>
    simp only [List.all_cons, Bool.and_eq_true] at hr
    simp only [List.cons_append, List.dropWhile, hr.1]
    exact ih hr.2

theorem digits_cons {ds : List Char} (h : digits ds = true) :
    ∃ d r, ds = d :: r ∧ isDigit d = true ∧ r.all isDigit = true := by
  cases ds with
  | nil => simp [digits] at h
  | cons d r =>
    simp only [digits, List.isEmpty_cons, Bool.not_false, List.all_cons, Bool.true_and,
      Bool.and_eq_true] at h
    exact ⟨d, r, rfl, h.1, h.2⟩

theorem scanDigits_text {ds : List Char} (hd : digits ds = true) {u : List Char}
    (hu : headAll (fun c => !isDigit c) u) : scanDigits (ds ++ u) = some u := by
  obtain ⟨d, r, rfl, h1, h2⟩ := digits_cons hd
  simp only [List.cons_append, scanDigits, h1, if_true]
  rw [dropWhile_all r u h2 hu]

theorem numSafe_notDigit {t : List Char} (ht : numSafe t) : headAll (fun c => !isDigit c) t :=
  fun c hc => numTail_notDigit c (ht c hc)

theorem numSafe_notDot {t : List Char} (ht : numSafe t) :
    headAll (fun c => !decide (c = '.')) t := by
  intro c hc
  have := ht c hc
  simp only [isNumTail, Bool.or_eq_false_iff, decide_eq_false_iff_not] at this
  simp [this.1.1.2]

theorem numSafe_notExp {t : List Char} (ht : numSafe t) :
    headAll (fun c => !(decide (c = 'e') || decide (c = 'E'))) t := by
  intro c hc
  have := ht c hc
  simp only [isNumTail, Bool.or_eq_false_iff, decide_eq_false_iff_not] at this
  simp [this.1.2, this.2]

theorem scanExp_text {exp t : List Char}
    (he : exp = [] ∨ ∃ e sg ds, exp = e :: (sg ++ ds) ∧ (e = 'e' ∨ e = 'E') ∧
      (sg = [] ∨ sg = ['+'] ∨ sg = ['-']) ∧ digits ds = true)
    (ht : numSafe t) :
    scanExp (exp ++ t) = some t ∧ headAll (fun c => !isDigit c) (exp ++ t) ∧
      headAll (fun c => !decide (c = '.')) (exp ++ t) := by
  rcases he with rfl | ⟨e, sg, ds, rfl, he, hsg, hds⟩
  · exact ⟨scanExp_self (numSafe_notExp ht), numSafe_notDigit ht, numSafe_notDot ht⟩
  · have hsd := scanDigits_text hds (numSafe_notDigit ht)
    obtain ⟨d, r, rfl, h1, h2⟩ := digits_cons hds
    have hdp := ne_of_isDigit h1 (show isDigit '+' = false by decide)
    have hdm := ne_of_isDigit h1 (show isDigit '-' = false by decide)
    have hee : (decide (e = 'e') || decide (e = 'E')) = true := by
      rcases he with rfl | rfl <;> decide
    refine ⟨?_, ?_, ?_⟩
    · rcases hsg with rfl | rfl | rfl
      · simp only [List.nil_append, List.cons_append, scanExp, hee, if_true]
        simp only [List.cons_append] at hsd
        simp [hdp, hdm, hsd]
      · simp only [List.nil_append, List.cons_append, scanExp, hee, if_true]
        simp only [List.cons_append] at hsd
        simp [hsd]
      · simp only [List.nil_append, List.cons_append, scanExp, hee, if_true]
        simp only [List.cons_append] at hsd
        simp [hsd]
    · rcases he with rfl | rfl <;> exact headAll_cons (by decide) _
    · rcases he with rfl | rfl <;> exact headAll_cons (by decide) _

theorem scanFrac_text {frac u : List Char}
    (hf : frac = [] ∨ ∃ ds, frac = '.' :: ds ∧ digits ds = true)
    (h1 : headAll (fun c => !isDigit c) u) (h2 : headAll (fun c => !decide (c = '.')) u) :
    scanFrac (frac ++ u) = some u ∧ headAll (fun c => !isDigit c) (frac ++ u) := by
  rcases hf with rfl | ⟨ds, rfl, hds⟩
  · exact ⟨scanFrac_self h2, h1⟩
  · refine ⟨?_, headAll_cons (by decide) _⟩
    simp only [List.cons_append, scanFrac, if_true]
    exact scanDigits_text hds h1

theorem scanInt_text {int u : List Char}
    (hi : int = ['0'] ∨ ∃ c r, int = c :: r ∧ isDigit c = true ∧ c ≠ '0' ∧ r.all isDigit = true)
    (hu : headAll (fun c => !isDigit c) u) :
    scanInt (int ++ u) = some u ∧ ∃ c r, int = c :: r ∧ isDigit c = true := by
  rcases hi with rfl | ⟨c, r, rfl, hc, h0, hr⟩
  · exact ⟨rfl, '0', [], rfl, by decide⟩
  · refine ⟨?_, c, r, rfl, hc⟩
    simp only [List.cons_append, scanInt, if_neg h0, scanDigits, hc, if_true]
    rw [dropWhile_all r u hr hu]

/-- The scanner reads a number of the grammar and stops after it. -/
theorem scanNumber_text {p : List Char} (h : NumText p) :
    (∃ c r, p = c :: r ∧ (c = '-' ∨ isDigit c = true)) ∧
      ∀ t, numSafe t → scanNumber (p ++ t) = some t := by
  obtain ⟨sign, int, frac, exp, hs, hi, hf, he⟩ := h
  have key : ∀ t, numSafe t → scanInt (int ++ (frac ++ (exp ++ t))) = some (frac ++ (exp ++ t)) ∧
      scanFrac (frac ++ (exp ++ t)) = some (exp ++ t) ∧ scanExp (exp ++ t) = some t := by
    intro t ht
    obtain ⟨e1, e2, e3⟩ := scanExp_text he ht
    obtain ⟨f1, f2⟩ := scanFrac_text hf e2 e3
    exact ⟨(scanInt_text hi f2).1, f1, e1⟩
  obtain ⟨c, r, rfl, hc⟩ := (scanInt_text hi (u := []) (fun _ h => by simp at h)).2
  have hcm := ne_of_isDigit hc (show isDigit '-' = false by decide)
  rcases hs with rfl | rfl
  · refine ⟨⟨c, _, rfl, Or.inr hc⟩, fun t ht => ?_⟩
    obtain ⟨k1, k2, k3⟩ := key t ht
    simp only [List.nil_append, List.append_assoc, List.cons_append] at k1 ⊢
    simp only [scanNumber, if_neg hcm, k1, k2, k3]
  · refine ⟨⟨'-', _, rfl, Or.inl rfl⟩, fun t ht => ?_⟩
    obtain ⟨k1, k2, k3⟩ := key t ht
    simp only [List.nil_append, List.append_assoc, List.cons_append] at k1 ⊢
    simp only [scanNumber, if_true, k1, k2, k3]

/-! ## The parser reads every text of the grammar -/

theorem fuel_succ {k n : Nat} (h : k + 1 ≤ n) : ∃ m, n = m + 1 ∧ k ≤ m :=
  ⟨n - 1, by omega, by omega⟩

theorem value_start_append {tv : List Char} (hv : ∃ c r, tv = c :: r ∧ isValueStart c = true)
    (x : List Char) : ∃ c r, tv ++ x = c :: r ∧ isValueStart c = true := by
  obtain ⟨c, r, rfl, hc⟩ := hv
  exact ⟨c, r ++ x, rfl, hc⟩

theorem gram_parses {dep : Nat} {y : Sym} {text : List Char} (h : Gram dep y text) :
    Parses dep y text := by
  induction h with
  | null dep =>
    refine ⟨⟨'n', _, rfl, by decide⟩, fun t _ n hn => ?_⟩
    obtain ⟨m, rfl, _⟩ := fuel_succ (k := 3) (by simpa using hn)
    rw [List.cons_append, parseValue_succ, if_neg (by decide), if_neg (by decide),
      if_neg (by decide), if_neg (by decide), if_neg (by decide), if_pos rfl,
      dropWord_append ['u', 'l', 'l'] t]
    rfl
  | true dep =>
    refine ⟨⟨'t', _, rfl, by decide⟩, fun t _ n hn => ?_⟩
    obtain ⟨m, rfl, _⟩ := fuel_succ (k := 3) (by simpa using hn)
    rw [List.cons_append, parseValue_succ, if_neg (by decide), if_neg (by decide),
      if_neg (by decide), if_pos rfl, dropWord_append ['r', 'u', 'e'] t]
    rfl
  | false dep =>
    refine ⟨⟨'f', _, rfl, by decide⟩, fun t _ n hn => ?_⟩
    obtain ⟨m, rfl, _⟩ := fuel_succ (k := 4) (by simpa using hn)
    rw [List.cons_append, parseValue_succ, if_neg (by decide), if_neg (by decide),
      if_neg (by decide), if_neg (by decide), if_pos rfl,
      dropWord_append ['a', 'l', 's', 'e'] t]
    rfl
  | num dep p hp =>
    obtain ⟨⟨c, r, rfl, hc⟩, hscan⟩ := scanNumber_text hp
    have hs : isValueStart c = true := by
      rcases hc with rfl | hc
      · decide
      · simp [isValueStart, hc]
    have hne : c ≠ '\x7b' ∧ c ≠ '[' ∧ c ≠ '"' ∧ c ≠ 't' ∧ c ≠ 'f' ∧ c ≠ 'n' := by
      rcases hc with rfl | hc
      · decide
      · exact ⟨ne_of_isDigit hc (by decide), ne_of_isDigit hc (by decide),
          ne_of_isDigit hc (by decide), ne_of_isDigit hc (by decide),
          ne_of_isDigit hc (by decide), ne_of_isDigit hc (by decide)⟩
    refine ⟨⟨c, r, rfl, hs⟩, fun t ht n hn => ?_⟩
    obtain ⟨m, rfl, _⟩ := fuel_succ (k := r.length) (by simpa using hn)
    have := hscan t ht
    rw [List.cons_append] at this ⊢
    rw [parseValue_succ, if_neg hne.1, if_neg hne.2.1, if_neg hne.2.2.1, if_neg hne.2.2.2.1,
      if_neg hne.2.2.2.2.1, if_neg hne.2.2.2.2.2, this]
    rfl
  | str dep s body hs =>
    refine ⟨⟨'"', _, rfl, by decide⟩, fun t _ n hn => ?_⟩
    obtain ⟨m, rfl, _⟩ := fuel_succ (k := body.length + 1) (by simpa using hn)
    rw [List.cons_append, List.append_assoc, List.singleton_append, parseValue_succ,
      if_neg (by decide), if_neg (by decide), if_pos rfl, scanStr_enc hs t]
    simp only [unquote_enc hs (body.length + 1) (by omega)]
  | arrNil dep w hd hw =>
    refine ⟨⟨'[', _, rfl, by decide⟩, fun t _ n hn => ?_⟩
    obtain ⟨m, rfl, _⟩ := fuel_succ (k := w.length + 1) (by simpa using hn)
    rw [List.cons_append, List.append_assoc, List.singleton_append, parseValue_succ,
      if_neg (by decide), if_pos rfl, if_neg (by omega),
      skipWS_allWS w hw (show isWS ']' = false by decide) t]
    simp only [↓reduceIte]
  | arr dep w xs t' hd hw _ ih =>
    obtain ⟨⟨c, r, rfl, hc⟩, ih⟩ := ih
    obtain ⟨c1, c2, _⟩ := isValueStart_spec hc
    refine ⟨⟨'[', _, rfl, by decide⟩, fun t _ n hn => ?_⟩
    obtain ⟨m, rfl, hm⟩ := fuel_succ (k := w.length + (r.length + 1)) (by simpa using hn)
    have := ih t m (by simp only [List.length_cons]; omega)
    rw [List.cons_append] at this
    rw [List.cons_append, List.append_assoc, List.cons_append, parseValue_succ,
      if_neg (by decide), if_pos rfl, if_neg (by omega), skipWS_allWS w hw c1 (r ++ t)]
    simp only [if_neg c2, this]
  | elemsOne dep v tv w _ hw ih =>
    obtain ⟨hv, ih⟩ := ih
    refine ⟨value_start_append hv _, fun t n hn => ?_⟩
    obtain ⟨m, rfl, hm⟩ := fuel_succ (k := tv.length + w.length) (n := n)
      (by simp only [List.length_append, List.length_cons, List.length_nil] at hn; omega)
    have := ih (w ++ ']' :: t) (numSafe_ws_sep w hw (by decide) t) m (by omega)
    rw [List.append_assoc, List.append_assoc, List.singleton_append, parseElems_succ, this]
    simp only [skipWS_allWS w hw (show isWS ']' = false by decide) t, ↓reduceIte]
  | elemsCons dep v tv w1 w2 xs t' _ hw1 hw2 _ ih1 ih2 =>
    obtain ⟨hv, ih1⟩ := ih1
    obtain ⟨hx, ih2⟩ := ih2
    refine ⟨value_start_append hv _, fun t n hn => ?_⟩
    obtain ⟨m, rfl, hm⟩ := fuel_succ (k := tv.length + (w1.length + (w2.length + t'.length))) (n := n)
      (by simp only [List.length_append, List.length_cons, List.length_nil] at hn; omega)
    have e1 := ih1 (w1 ++ ',' :: (w2 ++ (t' ++ t))) (numSafe_ws_sep w1 hw1 (by decide) _) m
      (by omega)
    have e2 := ih2 t m (by omega)
    have e3 : (tv ++ (w1 ++ ',' :: (w2 ++ t'))) ++ t = tv ++ (w1 ++ ',' :: (w2 ++ (t' ++ t))) := by
      simp
    rw [e3, parseElems_succ, e1]
    simp only [skipWS_allWS w1 hw1 (show isWS ',' = false by decide) _, ↓reduceIte,
      if_neg (show ¬ (',' : Char) = ']' by decide), skipWS_value w2 hw2 hx t, e2]
  | objNil dep w hd hw =>
    refine ⟨⟨'\x7b', _, rfl, by decide⟩, fun t _ n hn => ?_⟩
    obtain ⟨m, rfl, _⟩ := fuel_succ (k := w.length + 1) (by simpa using hn)
    rw [List.cons_append, List.append_assoc, List.singleton_append, parseValue_succ,
      if_pos rfl, if_neg (by omega),
      skipWS_allWS w hw (show isWS '\x7d' = false by decide) t]
    simp only [↓reduceIte]
  | obj dep w ms t' hd hw _ ih =>
    obtain ⟨⟨r, rfl⟩, ih⟩ := ih
    refine ⟨⟨'\x7b', _, rfl, by decide⟩, fun t _ n hn => ?_⟩
    obtain ⟨m, rfl, hm⟩ := fuel_succ (k := w.length + (r.length + 1)) (by simpa using hn)
    have := ih t m (by simp only [List.length_cons]; omega)
    rw [List.cons_append] at this
    rw [List.cons_append, List.append_assoc, List.cons_append, parseValue_succ,
      if_pos rfl, if_neg (by omega),
      skipWS_allWS w hw (show isWS '"' = false by decide) (r ++ t)]
    simp only [if_neg (show ¬ ('"' : Char) = '\x7d' by decide), this]
  | membersOne dep key kb w1 w2 v tv w3 hk hw1 hw2 _ hw3 ih =>
    obtain ⟨hv, ih⟩ := ih
    refine ⟨⟨_, rfl⟩, fun t n hn => ?_⟩
    obtain ⟨m, rfl, hm⟩ := fuel_succ (n := n)
      (k := kb.length + (w1.length + (w2.length + (tv.length + w3.length))) + 3)
      (by simp only [List.length_append, List.length_cons, List.length_nil] at hn; omega)
    have e1 := ih (w3 ++ '\x7d' :: t) (numSafe_ws_sep w3 hw3 (by decide) t) m (by omega)
    have e3 : ('"' :: (kb ++ '"' :: (w1 ++ ':' :: (w2 ++ (tv ++ (w3 ++ ['\x7d'])))))) ++ t
        = '"' :: (kb ++ '"' :: (w1 ++ ':' :: (w2 ++ (tv ++ (w3 ++ '\x7d' :: t))))) := by
      simp
    rw [e3, parseMembers_succ, if_pos rfl, scanStr_enc hk]
    simp only [skipWS_allWS w1 hw1 (show isWS ':' = false by decide) _, ↓reduceIte,
      skipWS_value w2 hw2 hv _, e1, consumed_append,
      skipWS_allWS w3 hw3 (show isWS '\x7d' = false by decide) t,
      unquote_enc hk (kb.length + 1) (by omega)]
  | membersCons dep key kb w1 w2 v tv w3 w4 ms t' hk hw1 hw2 _ hw3 hw4 _ ih1 ih2 =>
    obtain ⟨hv, ih1⟩ := ih1
    obtain ⟨⟨r, rfl⟩, ih2⟩ := ih2
    refine ⟨⟨_, rfl⟩, fun t n hn => ?_⟩
    obtain ⟨m, rfl, hm⟩ := fuel_succ (n := n)
      (k := kb.length + (w1.length + (w2.length + (tv.length + (w3.length +
        (w4.length + (r.length + 1)))))) + 3)
      (by simp only [List.length_append, List.length_cons, List.length_nil] at hn; omega)
    have e1 := ih1 (w3 ++ ',' :: (w4 ++ '"' :: (r ++ t))) (numSafe_ws_sep w3 hw3 (by decide) _) m
      (by omega)
    have e2 := ih2 t m (by simp only [List.length_cons]; omega)
    rw [List.cons_append] at e2
    have e3 : ('"' :: (kb ++ '"' :: (w1 ++ ':' :: (w2 ++ (tv ++ (w3 ++ ',' :: (w4 ++ '"' :: r))))))) ++ t
        = '"' :: (kb ++ '"' :: (w1 ++ ':' :: (w2 ++ (tv ++ (w3 ++ ',' :: (w4 ++ '"' :: (r ++ t))))))) := by
      simp
    rw [e3, parseMembers_succ, if_pos rfl, scanStr_enc hk]
    simp only [skipWS_allWS w1 hw1 (show isWS ':' = false by decide) _, ↓reduceIte,
      skipWS_value w2 hw2 hv _, e1, consumed_append,
      skipWS_allWS w3 hw3 (show isWS ',' = false by decide) _,
      if_neg (show ¬ (',' : Char) = '\x7d' by decide),
      skipWS_allWS w4 hw4 (show isWS '"' = false by decide) _, e2,
      unquote_enc hk (kb.length + 1) (by omega)]

theorem skipWS_all (w : List Char) (hw : allWS w = true) : skipWS w = [] := by
  induction w with
  | nil => rfl
  | cons a w ih =>
    obtain ⟨h1, h2⟩ := allWS_cons hw
    simp only [skipWS, if_pos h1]
    exact ih h2

theorem numSafe_allWS (w : List Char) (hw : allWS w = true) : numSafe w := by
  cases w with
  | nil => exact numSafe_nil
  | cons a w => exact numSafe_cons (isWS_numTail (allWS_cons hw).1) _

/-- The parser reads every payload that is a JSON text of the grammar, as the
document the text stands for. -/
theorem parseJSON_text {v : JValue} {b : List Char} (h : IsText v b) :
    ∃ raw, parseJSON b = some (v, raw) := by
  obtain ⟨w1, body, w2, hw1, hw2, hg, rfl⟩ := h
  obtain ⟨hv, hp⟩ := gram_parses hg
  have e := hp w2 (numSafe_allWS w2 hw2) ((w1 ++ (body ++ w2)).length + 1)
    (by simp only [List.length_append]; omega)
  refine ⟨body, ?_⟩
  unfold parseJSON
  rw [skipWS_value w1 hw1 hv w2, e]
  simp only [skipWS_all w2 hw2]
  simp [consumed_append]

/-! ## Texts of the grammar written out -/

theorem encStr_plain (s : List Char) (h : plain s = true) : EncStr s s := by
  induction s with
  | nil => exact EncStr.nil
  | cons c r ih =>
    simp only [plain, List.all_cons, Bool.and_eq_true, Bool.not_eq_true',
      decide_eq_false_iff_not] at h
    obtain ⟨⟨⟨h1, h2⟩, h3⟩, h4⟩ := h
    exact EncStr.cons c [c] r r (EncChar.self c h1 h2 (by omega)) (ih h4)

theorem hexChar_spec (d : Nat) (h : d < 16) : hexDigitOf d (hexChar d) = true := by
  interval_cases d <;> decide

theorem encChar_quoteChar (c : Char) : EncChar c (quoteChar c) := by
  unfold quoteChar
  by_cases h1 : c = '"'
  · subst h1
    exact EncChar.quote
  · by_cases h2 : c = '\\'
    · subst h2
      exact EncChar.backslash
    · by_cases h3 : c.toNat < 32
      · rw [if_neg h1, if_neg h2, if_pos h3]
        refine EncChar.unicode c _ _ _ _ (by omega) ⟨?_, ?_, ?_, ?_⟩
        · have : c.toNat / 4096 = 0 := by omega
          rw [this]
          decide
        · have : c.toNat / 256 % 16 = 0 := by omega
          rw [this]
          decide
        · have : c.toNat / 16 % 16 = c.toNat / 16 := by omega
          rw [this]
          exact hexChar_spec _ (by omega)
        · exact hexChar_spec _ (by omega)
      · rw [if_neg h1, if_neg h2, if_neg h3]
        exact EncChar.self c h1 h2 (by omega)

/-- Every string has a string literal: the one a JSON encoder writes. -/
theorem encStr_quoteBody (s : List Char) : EncStr s (quoteBody s) := by
  induction s with
  | nil => exact EncStr.nil
  | cons c r ih => exact EncStr.cons c _ r _ (encChar_quoteChar c) ih

theorem allWS_nil : allWS [] = true := rfl

/-- A member whose value is a string, written without white space. -/
theorem gram_member_str (dep : Nat) (key s body : List Char) (hk : plain key = true)
    (hs : EncStr s body) (ms : List Member) (t : List Char)
    (h : Gram dep (Sym.members ms) t) :
    Gram dep (Sym.members ((key, '"' :: (body ++ ['"']), JValue.str s) :: ms))
      ('"' :: (key ++ '"' :: ':' :: '"' :: (body ++ '"' :: ',' :: t))) := by
  have := Gram.membersCons dep key key [] [] (JValue.str s) ('"' :: (body ++ ['"'])) [] [] ms t
    (encStr_plain key hk) rfl rfl (Gram.str dep s body hs) rfl rfl h
  simpa using this

/-- The last member of an object, whose value is a string, written without
white space. -/
theorem gram_member_str_last (dep : Nat) (key s body : List Char) (hk : plain key = true)
    (hs : EncStr s body) :
    Gram dep (Sym.members [(key, '"' :: (body ++ ['"']), JValue.str s)])
      ('"' :: (key ++ '"' :: ':' :: '"' :: (body ++ ['"', '\x7d']))) := by
  have := Gram.membersOne dep key key [] [] (JValue.str s) ('"' :: (body ++ ['"'])) []
    (encStr_plain key hk) rfl rfl (Gram.str dep s body hs) rfl
  simpa using this

/-- The handshake text, with any string literals for `T` and `C`, is a JSON
text for the object with the three members `token`, `challenge` and `type`. -/
theorem isText_urlVerificationText {T C tb cb : List Char} (hT : EncStr T tb)
    (hC : EncStr C cb) :
    IsText (JValue.obj
      [("token".toList, '"' :: (tb ++ ['"']), JValue.str T),
       ("challenge".toList, '"' :: (cb ++ ['"']), JValue.str C),
       ("type".toList, "\"url_verification\"".toList, JValue.str "url_verification".toList)])
      (urlVerificationText tb cb) := by
  have h3 := gram_member_str_last 1 "type".toList "url_verification".toList
    "url_verification".toList (by decide) (encStr_plain _ (by decide))
  have h2 := gram_member_str 1 "challenge".toList C cb (by decide) hC _ _ h3
  have h1 := gram_member_str 1 "token".toList T tb (by decide) hT _ _ h2
  have h0 := Gram.obj 0 [] _ _ (by decide) rfl h1
  refine ⟨[], _, [], rfl, rfl, h0, ?_⟩
  simp only [urlVerificationText, List.append_assoc, List.cons_append, List.nil_append,
    List.append_nil]
  rfl

/-- The message text, with any string literals for its five strings, is a
JSON text for the object with the members `type`, `channel`, `user`, `text`
and `ts`. -/
theorem isText_messageText {d ch us tx ts db cb ub xb tb : List Char} (hd : EncStr d db)
    (hc : EncStr ch cb) (hu : EncStr us ub) (hx : EncStr tx xb) (ht : EncStr ts tb) :
    IsText (JValue.obj
      [("type".toList, '"' :: (db ++ ['"']), JValue.str d),
       ("channel".toList, '"' :: (cb ++ ['"']), JValue.str ch),
       ("user".toList, '"' :: (ub ++ ['"']), JValue.str us),
       ("text".toList, '"' :: (xb ++ ['"']), JValue.str tx),
       ("ts".toList, '"' :: (tb ++ ['"']), JValue.str ts)])
      (messageText db cb ub xb tb) := by
  have h5 := gram_member_str_last 1 "ts".toList ts tb (by decide) ht
  have h4 := gram_member_str 1 "text".toList tx xb (by decide) hx _ _ h5
  have h3 := gram_member_str 1 "user".toList us ub (by decide) hu _ _ h4
  have h2 := gram_member_str 1 "channel".toList ch cb (by decide) hc _ _ h3
  have h1 := gram_member_str 1 "type".toList d db (by decide) hd _ _ h2
  have h0 := Gram.obj 0 [] _ _ (by decide) rfl h1
  refine ⟨[], _, [], rfl, rfl, h0, ?_⟩
  simp only [messageText, List.append_assoc, List.cons_append, List.nil_append,
    List.append_nil]
  rfl

theorem unmarshalStruct_obj {σ : Type} {fields : List Member → σ → Option σ} {init x : σ}
    {b : List Char} {ms : List Member} {raw : List Char}
    (hp : parseJSON b = some (JValue.obj ms, raw)) (hf : fields ms init = some x) :
    unmarshalStruct fields init b = Except.ok x := by
  unfold unmarshalStruct
  simp only [hp, hf]

theorem header_of_type {b : List Char} {ms : List Member} {raw d : List Char}
    (hp : parseJSON b = some (JValue.obj ms, raw)) (ht : strOf "type".toList ms = some d) :
    unmarshalStruct eventFields ⟨[]⟩ b = Except.ok ⟨d⟩ := by
  refine unmarshalStruct_obj hp ?_
  obtain ⟨h1, h2⟩ := strOf_spec ht
  unfold eventFields
  simp only [h1, h2, if_true]

theorem unmarshalNew_callback {α : Type} {ext : Shape → List Char → Option α}
    {f : List Char → Except DecodeError (Decoded α)} {b : List Char} {y : Decoded α}
    (h : unmarshalNew ext f Shape.EventCallback b = Except.ok y) :
    ∃ v raw cb, parseJSON b = some (v, raw) ∧
      EventCallback.UnmarshalJSON f EventCallback.zero raw = Except.ok cb ∧
      y = Decoded.eventCallback cb := by
  unfold unmarshalNew at h
  simp only [] at h
  cases hp : parseJSON b with
  | none => rw [hp] at h; exact absurd h (by simp)
  | some res =>
    obtain ⟨v, raw⟩ := res
    rw [hp] at h
    simp only [] at h
    cases hu : EventCallback.UnmarshalJSON f EventCallback.zero raw with
    | error err => rw [hu] at h; exact absurd h (by simp)
    | ok cb =>
      rw [hu] at h
      injection h with h
      exact ⟨v, raw, cb, rfl, hu, h.symm⟩


/-- After the alias decode on a fresh receiver, `RawEvent` holds the
envelope's inner event payload. -/
theorem alias_rawEvent {ε : Type} {b : List Char} {cb0 : EventCallback ε}
    (h : unmarshalStruct callbackFields EventCallback.zero b = Except.ok cb0) :
    cb0.RawEvent = rawEventOf b ∧ cb0.Event = none := by
  obtain ⟨v, raw, hp, hv⟩ := unmarshalStruct_ok h
  unfold rawEventOf
  rw [hp]
  rcases hv with ⟨ms, hms, hf⟩ | ⟨hnull, hx⟩
  · subst hms
    exact callbackFields_raw hf
  · subst hnull
    subst hx
    exact ⟨rfl, rfl⟩

/-! ## Decoding a payload that has been read -/

theorem unmarshal_urlVerification {α : Type} (ext : Shape → List Char → Option α)
    (e : Option EventUnmarshaller) {T C b raw r1 r2 r3 : List Char}
    (hp : parseJSON b = some (JValue.obj
        [("token".toList, r1, JValue.str T), ("challenge".toList, r2, JValue.str C),
         ("type".toList, r3, JValue.str "url_verification".toList)], raw)) :
    EventUnmarshaller.Unmarshal ext e b
        = Except.ok (Decoded.urlVerification ⟨T, C, "url_verification".toList⟩) ∧
      ∀ f, unmarshalNew ext f Shape.EventURLVerification b
        = Except.ok (Decoded.urlVerification ⟨T, C, "url_verification".toList⟩) := by
  have hnew : ∀ f, unmarshalNew ext f Shape.EventURLVerification b
      = Except.ok (Decoded.urlVerification ⟨T, C, "url_verification".toList⟩) := by
    intro f
    unfold unmarshalNew unmarshalStruct
    simp only [hp]
    rfl
  refine ⟨?_, hnew⟩
  rw [Unmarshal_eq]
  have hh : unmarshalStruct eventFields ⟨[]⟩ b = Except.ok ⟨"url_verification".toList⟩ := by
    unfold unmarshalStruct
    simp only [hp]
    rfl
  rw [hh]
  have hl : eventMapping.lookup "url_verification".toList
      = some Shape.EventURLVerification := by
    rfl
  simp only [hl]
  exact hnew _

theorem lookup_messageAliases : ∀ d ∈ messageAliases,
    eventMapping.lookup d = some Shape.MessageEvent := by
  intro d hd
  simp only [messageAliases, List.mem_cons, List.mem_singleton, List.not_mem_nil,
    or_false] at hd
  rcases hd with h | h | h | h | h <;> subst h <;> rfl

theorem plain_messageAliases : ∀ d ∈ messageAliases, plain d = true := by
  intro d hd
  simp only [messageAliases, List.mem_cons, List.mem_singleton, List.not_mem_nil,
    or_false] at hd
  rcases hd with h | h | h | h | h <;> subst h <;> rfl

theorem unmarshal_message {α : Type} (ext : Shape → List Char → Option α)
    (e : Option EventUnmarshaller) {d : List Char} (hd : d ∈ messageAliases)
    {b raw : List Char} {ms : List Member} {ch us tx ts : List Char}
    (hp : parseJSON b = some (JValue.obj ms, raw))
    (ht : strOf "type".toList ms = some d) (hc : strOf "channel".toList ms = some ch)
    (hu : strOf "user".toList ms = some us) (htx : strOf "text".toList ms = some tx)
    (hts : strOf "ts".toList ms = some ts) :
    EventUnmarshaller.Unmarshal ext e b = Except.ok (Decoded.message ⟨d, ch, us, tx, ts⟩) := by
  rw [Unmarshal_eq, header_of_type hp ht]
  simp only [lookup_messageAliases d hd]
  unfold unmarshalNew
  simp only []
  have hf : messageFields ms ⟨[], [], [], [], []⟩ = some ⟨d, ch, us, tx, ts⟩ := by
    unfold messageFields
    simp only [(strOf_spec ht).1, (strOf_spec hc).1, (strOf_spec hu).1, (strOf_spec htx).1,
      (strOf_spec hts).1, (strOf_spec ht).2, (strOf_spec hc).2, (strOf_spec hu).2,
      (strOf_spec htx).2, (strOf_spec hts).2, Bool.and_self, if_true]
  rw [unmarshalStruct_obj hp hf]

theorem unmarshal_envelope {α : Type} (ext : Shape → List Char → Option α)
    (e : Option EventUnmarshaller) {rawEv : List Char} {x : Decoded α}
    (hx : EventUnmarshaller.Unmarshal ext (some eventMapping) rawEv = Except.ok x)
    {b raw : List Char} {ms : List Member} {tok team app ts : List Char}
    {users : List (List Char)}
    (hp : parseJSON b = some (JValue.obj ms, raw))
    (hty : strOf "type".toList ms = some "event_callback".toList)
    (htok : strOf "token".toList ms = some tok)
    (hteam : strOf "team_id".toList ms = some team)
    (happ : strOf "api_app_id".toList ms = some app)
    (hts : strOf "event_ts".toList ms = some ts)
    (hus : strsOf "authed_users".toList ms = some users)
    (hraw : rawOf "event".toList ms = some rawEv) :
    EventUnmarshaller.Unmarshal ext e b
        = Except.ok (Decoded.eventCallback
            { Token := tok, TeamID := team, APIAppID := app, RawEvent := rawEv,
              Event := some x, EventTS := ts, Type_ := "event_callback".toList,
              AuthedUsers := users }) ∧
      rawEv <:+: b := by
  refine ⟨?_, ?_⟩
  · rw [Unmarshal_eq, header_of_type hp hty]
    have hl : eventMapping.lookup "event_callback".toList = some Shape.EventCallback := by
      rfl
    simp only [hl]
    unfold unmarshalNew
    simp only [hp]
    unfold EventCallback.UnmarshalJSON
    have hf : callbackFields ms (EventCallback.zero : EventCallback (Decoded α))
        = some { Token := tok, TeamID := team, APIAppID := app, RawEvent := rawEv,
                 Event := none, EventTS := ts, Type_ := "event_callback".toList,
                 AuthedUsers := users } := by
      unfold callbackFields
      simp only [(strOf_spec hty).1, (strOf_spec htok).1, (strOf_spec hteam).1,
        (strOf_spec happ).1, (strOf_spec hts).1, (strsOf_spec hus).1, Bool.and_self, if_true,
        EventCallback.zero, (strOf_spec hty).2, (strOf_spec htok).2, (strOf_spec hteam).2,
        (strOf_spec happ).2, (strOf_spec hts).2, (strsOf_spec hus).2, rawOf_spec hraw []]
    rw [unmarshalStruct_raw callbackFields EventCallback.zero hp, unmarshalStruct_obj hp hf]
    simp only [hx]
  · obtain ⟨m, hm, hr⟩ := rawOf_mem hraw
    rw [← hr]
    exact (parseJSON_members hp m hm).2.2

set_option maxRecDepth 100000 in
/-- The envelope that `newEventCallback` builds around a JSON text `rawEv`
is a JSON text for an object with the members of the tests and `rawEv`
under `event`. -/
theorem isText_newEventCallback {v : JValue} {rawEv : List Char}
    (hv : Gram 1 (Sym.value v) rawEv) :
    ∃ ms, IsText (JValue.obj ms) (newEventCallback rawEv) ∧
      strOf "type".toList ms = some "event_callback".toList ∧
      strOf "token".toList ms = some "z26uFbvR1xHJEdHE1OQiO6t8".toList ∧
      strOf "team_id".toList ms = some "T061EG9RZ".toList ∧
      strOf "api_app_id".toList ms = some "A0FFV41KK".toList ∧
      strOf "event_ts".toList ms = some "1465244570.336841".toList ∧
      strsOf "authed_users".toList ms = some ["U061F7AUR".toList] ∧
      rawOf "event".toList ms = some rawEv := by
  have h : IsText (JValue.obj _) (newEventCallback rawEv) :=
    ⟨"\n    ".toList, _, "\n    ".toList, by decide, by decide,
      (Gram.obj 0 "\n      ".toList _ _ (by decide) (by decide)
        (Gram.membersCons 1 "token".toList _ [] " ".toList _ _ [] "\n      ".toList _ _
          (encStr_plain _ (by decide)) (by decide) (by decide)
          (Gram.str 1 "z26uFbvR1xHJEdHE1OQiO6t8".toList _ (encStr_plain _ (by decide)))
          (by decide) (by decide)
        (Gram.membersCons 1 "team_id".toList _ [] " ".toList _ _ [] "\n      ".toList _ _
          (encStr_plain _ (by decide)) (by decide) (by decide)
          (Gram.str 1 "T061EG9RZ".toList _ (encStr_plain _ (by decide)))
          (by decide) (by decide)
        (Gram.membersCons 1 "api_app_id".toList _ [] " ".toList _ _ [] "\n      ".toList _ _
          (encStr_plain _ (by decide)) (by decide) (by decide)
          (Gram.str 1 "A0FFV41KK".toList _ (encStr_plain _ (by decide)))
          (by decide) (by decide)
        (Gram.membersCons 1 "event".toList _ [] " ".toList _ _ [] "\n      ".toList _ _
          (encStr_plain _ (by decide)) (by decide) (by decide)
          hv
          (by decide) (by decide)
        (Gram.membersCons 1 "event_ts".toList _ [] " ".toList _ _ [] "\n      ".toList _ _
          (encStr_plain _ (by decide)) (by decide) (by decide)
          (Gram.str 1 "1465244570.336841".toList _ (encStr_plain _ (by decide)))
          (by decide) (by decide)
        (Gram.membersCons 1 "type".toList _ [] " ".toList _ _ [] "\n      ".toList _ _
          (encStr_plain _ (by decide)) (by decide) (by decide)
          (Gram.str 1 "event_callback".toList _ (encStr_plain _ (by decide)))
          (by decide) (by decide)
        (Gram.membersOne 1 "authed_users".toList _ [] " ".toList _ _ "\n    ".toList
          (encStr_plain _ (by decide)) (by decide) (by decide)
          (Gram.arr 1 "\n              ".toList _ _ (by decide) (by decide)
            (Gram.elemsOne 2 _ _ "\n      ".toList
              (Gram.str 2 "U061F7AUR".toList _ (encStr_plain _ (by decide)))
              (by decide)))
          (by decide))))))))),
      by simp only [newEventCallback, List.append_assoc, List.cons_append, List.nil_append]; rfl⟩
  exact ⟨_, h, by rfl, by rfl, by rfl, by rfl, by rfl, by rfl, by rfl⟩

/-! ## The claims -/

/-- C1: for every event name `d` that is a key of `eventMapping`, with `t`
the type registered under it, and every payload whose header pass reads the
type `d`, `Unmarshal` returns what decoding the payload into a fresh value
of type `t` returns; so whenever the payload is well-formed for `t` (that
decode reports no error), `Unmarshal` returns no error and a value whose
dynamic type is exactly `t`, never another type. -/
theorem unmarshal_registered_shape {α : Type} (ext : Shape → List Char → Option α)
    (e : Option EventUnmarshaller) (d : List Char) (t : Shape) (b : List Char)
    (hd : eventMapping.lookup d = some t)
    (hhdr : unmarshalStruct eventFields ⟨[]⟩ b = Except.ok ⟨d⟩) :
    EventUnmarshaller.Unmarshal ext e b
        = unmarshalNew ext (EventUnmarshaller.Unmarshal ext (some eventMapping)) t b ∧
      (∀ x, unmarshalNew ext (EventUnmarshaller.Unmarshal ext (some eventMapping)) t b
          = Except.ok x →
        EventUnmarshaller.Unmarshal ext e b = Except.ok x ∧ x.shape = t ∧
          ∀ t', t' ≠ t → x.shape ≠ t') ∧
      ∀ x, EventUnmarshaller.Unmarshal ext e b = Except.ok x → x.shape = t := by
  have hU : EventUnmarshaller.Unmarshal ext e b
      = unmarshalNew ext (EventUnmarshaller.Unmarshal ext (some eventMapping)) t b := by
    rw [Unmarshal_eq, hhdr]
    simp only [hd]
  refine ⟨hU, fun x hx => ?_, fun x hx => ?_⟩
  · have hs := unmarshalNew_shape hx
    exact ⟨hU.trans hx, hs, fun t' ht' h' => ht' (h'.symm.trans hs)⟩
  · rw [hU] at hx
    exact unmarshalNew_shape hx

set_option maxRecDepth 100000 in
/-- C1 at the handshake payload of `TestEventURLVerification`: the value is
an `EventURLVerification`. -/
theorem unmarshal_registered_shape_witness :
    ∃ x, EventUnmarshaller.Unmarshal noExt none urlVerification = Except.ok x ∧
      x.shape = Shape.EventURLVerification ∧
      ∀ t', t' ≠ Shape.EventURLVerification → x.shape ≠ t' :=
  ⟨_, (unmarshal_registered_shape noExt none "url_verification".toList
    Shape.EventURLVerification urlVerification (by rfl) (by rfl)).2.1 _ (by rfl)⟩

/-- C6: for every input that is not syntactically valid JSON, `Unmarshal`
returns the `SyntaxError` of the header pass, hence no value and not the
unmapped-event error. -/
theorem unmarshal_invalid_json {α : Type} (ext : Shape → List Char → Option α)
    (e : Option EventUnmarshaller) (b : List Char) (h : parseJSON b = none) :
    EventUnmarshaller.Unmarshal ext e b = Except.error DecodeError.malformed ∧
      (∀ x, EventUnmarshaller.Unmarshal ext e b ≠ Except.ok x) ∧
      ∀ d r, EventUnmarshaller.Unmarshal ext e b ≠ Except.error (DecodeError.unmapped d r) := by
  have hu : EventUnmarshaller.Unmarshal ext e b = Except.error DecodeError.malformed := by
    rw [Unmarshal_eq]
    unfold unmarshalStruct
    rw [h]
  rw [hu]
  exact ⟨rfl, fun x h' => by simp at h', fun d r h' => by simp at h'⟩

set_option maxRecDepth 100000 in
/-- C6 at a payload cut off before its closing brace. -/
theorem unmarshal_invalid_json_witness :
    EventUnmarshaller.Unmarshal noExt none "\x7b\"type\": \"message\"".toList
        = Except.error DecodeError.malformed ∧
      (∀ x, EventUnmarshaller.Unmarshal noExt none "\x7b\"type\": \"message\"".toList
        ≠ Except.ok x) ∧
      ∀ d r, EventUnmarshaller.Unmarshal noExt none "\x7b\"type\": \"message\"".toList
        ≠ Except.error (DecodeError.unmapped d r) :=
  unmarshal_invalid_json noExt none "\x7b\"type\": \"message\"".toList (by rfl)

/-- C10: `Unmarshal` does not read its receiver. Any two receivers (nil, an
empty mapping, any entries) give the same result on every input, the one
determined by the package-level `eventMapping`; an event name that only the
receiver maps is reported as unmapped. -/
theorem unmarshal_ignores_receiver {α : Type} (ext : Shape → List Char → Option α)
    (e1 e2 : Option EventUnmarshaller) (b : List Char) :
    EventUnmarshaller.Unmarshal ext e1 b = EventUnmarshaller.Unmarshal ext e2 b ∧
      EventUnmarshaller.Unmarshal ext e1 b
        = EventUnmarshaller.Unmarshal ext (some eventMapping) b ∧
      ∀ hdr, unmarshalStruct eventFields ⟨[]⟩ b = Except.ok hdr →
        eventMapping.lookup hdr.Type_ = none →
        EventUnmarshaller.Unmarshal ext e1 b
          = Except.error (DecodeError.unmapped hdr.Type_ b) := by
  refine ⟨rfl, rfl, fun hdr hh hl => ?_⟩
  rw [Unmarshal_eq, hh]
  simp only [hl]

set_option maxRecDepth 100000 in
/-- C10 at a receiver that maps `custom`, an event name `eventMapping` does
not have. -/
theorem unmarshal_ignores_receiver_witness :
    (some [("custom".toList, Shape.MessageEvent)] : Option EventUnmarshaller).isSome = true ∧
      eventMapping.lookup "custom".toList = none ∧
      EventUnmarshaller.Unmarshal noExt (some [("custom".toList, Shape.MessageEvent)])
          "\x7b\"type\":\"custom\"\x7d".toList
        = Except.error (DecodeError.unmapped "custom".toList "\x7b\"type\":\"custom\"\x7d".toList) :=
  ⟨rfl, by rfl,
    (unmarshal_ignores_receiver noExt (some [("custom".toList, Shape.MessageEvent)]) none
      "\x7b\"type\":\"custom\"\x7d".toList).2.2 ⟨"custom".toList⟩ (by rfl) (by rfl)⟩

theorem header_discriminant {b : List Char} {hdr : Event}
    (h : unmarshalStruct eventFields ⟨[]⟩ b = Except.ok hdr) : hdr.Type_ = discriminant b := by
  obtain ⟨v, raw, hp, hv⟩ := unmarshalStruct_ok h
  unfold discriminant
  rw [hp]
  rcases hv with ⟨ms, hms, hf⟩ | ⟨hnull, hx⟩
  · subst hms
    unfold eventFields at hf
    split at hf
    · injection hf with hf
      subst hf
      rfl
    · exact absurd hf (by simp)
  · subst hnull
    subst hx
    rfl

set_option maxRecDepth 100000 in
/-- C2 as stated fails: the payload `{"type":5}` is syntactically valid JSON
and the type left in the header, the empty string, is not a key of
`eventMapping`, yet `Unmarshal` returns the type error of the header pass,
not the unmapped-event error; likewise for the payload `[]`, which has no
`type` member at all. -/
theorem unmapped_claim_counterexample :
    (parseJSON "\x7b\"type\":5\x7d".toList).isSome = true ∧
      eventMapping.lookup (discriminant "\x7b\"type\":5\x7d".toList) = none ∧
      EventUnmarshaller.Unmarshal noExt none "\x7b\"type\":5\x7d".toList
        = Except.error DecodeError.mismatch ∧
      EventUnmarshaller.Unmarshal noExt none "\x7b\"type\":5\x7d".toList
        ≠ Except.error (DecodeError.unmapped (discriminant "\x7b\"type\":5\x7d".toList)
            "\x7b\"type\":5\x7d".toList) ∧
      (parseJSON "[]".toList).isSome = true ∧
      eventMapping.lookup (discriminant "[]".toList) = none ∧
      EventUnmarshaller.Unmarshal noExt none "[]".toList
        = Except.error DecodeError.mismatch := by
  have h : EventUnmarshaller.Unmarshal noExt none "\x7b\"type\":5\x7d".toList
      = Except.error DecodeError.mismatch := by rfl
  refine ⟨by rfl, by rfl, h, ?_, by rfl, by rfl, by rfl⟩
  rw [h]
  simp

/-- C2, amended: for every payload on which the header pass reports no
error and whose event type is not a key of `eventMapping` (the empty type of
a payload without a `type` member included), `Unmarshal` returns no value
but the unmapped-event error, built from that event type and the payload;
the message of the error is the fixed text, the type as `%q` prints it, a
colon, the payload's bytes verbatim and a line feed. -/
theorem unmapped_event_error {α : Type} (ext : Shape → List Char → Option α)
    (e : Option EventUnmarshaller) (quote : List Char → List Char) (b : List Char)
    (hdr : Event) (hh : unmarshalStruct eventFields ⟨[]⟩ b = Except.ok hdr)
    (hl : eventMapping.lookup hdr.Type_ = none) :
    EventUnmarshaller.Unmarshal ext e b = Except.error (DecodeError.unmapped hdr.Type_ b) ∧
      hdr.Type_ = discriminant b ∧
      (∀ ms raw, parseJSON b = some (JValue.obj ms, raw) → matching "type".toList ms = [] →
        hdr.Type_ = []) ∧
      unmappedMessage quote hdr.Type_ b
        = "Event Error: Received unmapped event ".toList ++ quote hdr.Type_ ++ ": ".toList
          ++ b ++ "\n".toList ∧
      quote hdr.Type_ <:+: unmappedMessage quote hdr.Type_ b ∧
      b <:+: unmappedMessage quote hdr.Type_ b := by
  refine ⟨?_, header_discriminant hh, fun ms raw hp hm => ?_, rfl, ?_, ?_⟩
  · rw [Unmarshal_eq, hh]
    simp only [hl]
  · rw [header_discriminant hh]
    unfold discriminant
    rw [hp]
    simp only []
    rw [strField_matching, hm]
    rfl
  · exact ⟨"Event Error: Received unmapped event ".toList, ": ".toList ++ b ++ "\n".toList,
      by simp [unmappedMessage]⟩
  · exact ⟨"Event Error: Received unmapped event ".toList ++ quote hdr.Type_ ++ ": ".toList,
      "\n".toList, by simp [unmappedMessage]⟩

set_option maxRecDepth 100000 in
/-- C2, amended, at a payload of the unregistered type `bogus`, with the
identity standing for `%q`. -/
theorem unmapped_event_error_witness :
    EventUnmarshaller.Unmarshal noExt none "\x7b\"type\":\"bogus\",\"x\":1\x7d".toList
        = Except.error (DecodeError.unmapped "bogus".toList
            "\x7b\"type\":\"bogus\",\"x\":1\x7d".toList) ∧
      unmappedMessage id "bogus".toList "\x7b\"type\":\"bogus\",\"x\":1\x7d".toList
        = "Event Error: Received unmapped event bogus: \x7b\"type\":\"bogus\",\"x\":1\x7d\n".toList :=
  ⟨(unmapped_event_error noExt none id "\x7b\"type\":\"bogus\",\"x\":1\x7d".toList
      ⟨"bogus".toList⟩ (by rfl) (by rfl)).1,
    by rfl⟩

/-- C5: whenever `EventCallback.UnmarshalJSON` returns no error, the
envelope's `Event` is set, to the decode of its `RawEvent`; so `RawEvent` is
then none of the empty text, `null`, the empty string or the empty object,
a payload decoded into a receiver with empty `RawEvent` has an `event`
member, and an `EventCallback` returned by `Unmarshal` always has its
`Event`. -/
theorem envelope_event_populated {α : Type} (ext : Shape → List Char → Option α)
    (e0 : EventCallback (Decoded α)) (b : List Char) (cb : EventCallback (Decoded α))
    (h : EventCallback.UnmarshalJSON (EventUnmarshaller.Unmarshal ext (some eventMapping)) e0 b
      = Except.ok cb) :
    (∃ x, cb.Event = some x ∧
        EventUnmarshaller.Unmarshal ext (some eventMapping) cb.RawEvent = Except.ok x) ∧
      cb.RawEvent ≠ [] ∧ cb.RawEvent ≠ "null".toList ∧ cb.RawEvent ≠ "\"\"".toList ∧
      cb.RawEvent ≠ "\x7b\x7d".toList ∧
      (e0.RawEvent = [] → ∀ ms raw, parseJSON b = some (JValue.obj ms, raw) →
        matching "event".toList ms ≠ []) ∧
      ∀ e b' cb', EventUnmarshaller.Unmarshal ext e b' = Except.ok (Decoded.eventCallback cb') →
        ∃ x, cb'.Event = some x := by
  obtain ⟨cb0, x, halias, hx, hcb⟩ := UnmarshalJSON_ok h
  have hr : cb.RawEvent = cb0.RawEvent := by rw [hcb]
  rw [← hr] at hx
  have hne : cb.RawEvent ≠ [] := by
    intro h0
    rw [h0] at hx
    have h2 : EventUnmarshaller.Unmarshal ext (some eventMapping) []
        = Except.error DecodeError.malformed := rfl
    rw [h2] at hx
    exact absurd hx (by simp)
  refine ⟨⟨x, by rw [hcb], hx⟩, hne, ?_, ?_, ?_, ?_, ?_⟩
  · intro h0
    rw [h0] at hx
    have h2 : EventUnmarshaller.Unmarshal ext (some eventMapping) "null".toList
        = Except.error (DecodeError.unmapped [] "null".toList) := rfl
    rw [h2] at hx
    exact absurd hx (by simp)
  · intro h0
    rw [h0] at hx
    have h2 : EventUnmarshaller.Unmarshal ext (some eventMapping) "\"\"".toList
        = Except.error DecodeError.mismatch := rfl
    rw [h2] at hx
    exact absurd hx (by simp)
  · intro h0
    rw [h0] at hx
    have h2 : EventUnmarshaller.Unmarshal ext (some eventMapping) "\x7b\x7d".toList
        = Except.error (DecodeError.unmapped [] "\x7b\x7d".toList) := rfl
    rw [h2] at hx
    exact absurd hx (by simp)
  · intro he0 ms raw hp hm
    obtain ⟨v, raw', hp', hv⟩ := unmarshalStruct_ok halias
    rw [hp] at hp'
    injection hp' with hp'
    injection hp' with hv' _
    subst hv'
    rcases hv with ⟨ms', hms, hf⟩ | ⟨hnull, _⟩
    · injection hms with hms
      subst hms
      apply hne
      rw [hr, (callbackFields_raw hf).1, rawField_matching, hm, he0]
      rfl
    · exact absurd hnull (by simp)
  · intro e b' cb' h'
    obtain ⟨hdr, _, _, hn⟩ := Unmarshal_ok h'
    have hs : (Decoded.eventCallback cb').shape = Shape.EventCallback := rfl
    rw [hs] at hn
    obtain ⟨v, raw, cb1, _, hu, hy⟩ := unmarshalNew_callback hn
    injection hy with hy
    subst hy
    obtain ⟨cb2, x', _, _, hcb'⟩ := UnmarshalJSON_ok hu
    exact ⟨x', by rw [hcb']⟩

set_option maxRecDepth 100000 in
/-- C5 at a small envelope around a message, decoded into a fresh
receiver. -/
theorem envelope_event_populated_witness :
    EventCallback.UnmarshalJSON (EventUnmarshaller.Unmarshal noExt (some eventMapping))
        EventCallback.zero smallEnvelope = Except.ok smallCallback ∧
      ∃ x, smallCallback.Event = some x ∧
        EventUnmarshaller.Unmarshal noExt (some eventMapping) smallCallback.RawEvent
          = Except.ok x :=
  ⟨by rfl,
    (envelope_event_populated noExt EventCallback.zero smallEnvelope smallCallback (by rfl)).1⟩

set_option maxRecDepth 100000 in
/-- C7 as stated fails: an envelope whose `event` is again an envelope
decodes without error, and the `Event` of the outer `EventCallback` is
itself an `EventCallback`. -/
theorem nested_envelope_counterexample :
    ∃ cb inner, EventUnmarshaller.Unmarshal noExt none nestedEnvelope
        = Except.ok (Decoded.eventCallback cb) ∧
      cb.Event = some (Decoded.eventCallback inner) :=
  ⟨_, _, by rfl, by rfl⟩

/-- C7, amended: for every input on which decoding an envelope succeeds,
`Event` is the decode of the inner payload `RawEvent`, which is strictly
shorter than the input, and has the type registered for the inner payload's
own event type: it is an `EventCallback` exactly when that type is
`event_callback`, and of a non-enveloping type otherwise. -/
theorem envelope_inner_shape {α : Type} (ext : Shape → List Char → Option α)
    (e : Option EventUnmarshaller) (b : List Char) (cb : EventCallback (Decoded α))
    (h : EventUnmarshaller.Unmarshal ext e b = Except.ok (Decoded.eventCallback cb)) :
    ∃ x hdr, cb.Event = some x ∧
      EventUnmarshaller.Unmarshal ext (some eventMapping) cb.RawEvent = Except.ok x ∧
      unmarshalStruct eventFields ⟨[]⟩ cb.RawEvent = Except.ok hdr ∧
      eventMapping.lookup hdr.Type_ = some x.shape ∧
      (x.shape = Shape.EventCallback ↔ hdr.Type_ = "event_callback".toList) ∧
      cb.RawEvent.length < b.length := by
  obtain ⟨_, _, _, hn⟩ := Unmarshal_ok h
  have hs : (Decoded.eventCallback cb).shape = Shape.EventCallback := rfl
  rw [hs] at hn
  obtain ⟨v, raw, cb1, hp, hu, hy⟩ := unmarshalNew_callback hn
  injection hy with hy
  subst hy
  obtain ⟨cb0, x, h0, hx, hcb⟩ := UnmarshalJSON_ok hu
  have hr : cb.RawEvent = cb0.RawEvent := by rw [hcb]
  rw [← hr] at hx
  obtain ⟨hdr, h1, h2, _⟩ := Unmarshal_ok hx
  have hl := parseJSON_raw_length hp
  have hlen : cb0.RawEvent.length < raw.length :=
    rawEvent_length h0 (by simpa [EventCallback.zero] using hl.2)
  refine ⟨x, hdr, by rw [hcb], hx, h1, h2, ⟨fun hsx => ?_, fun hd => ?_⟩, by rw [hr]; omega⟩
  · rw [hsx] at h2
    exact lookup_eventCallback h2
  · rw [hd] at h2
    have hl' : eventMapping.lookup "event_callback".toList = some Shape.EventCallback := by rfl
    rw [hl'] at h2
    injection h2 with h2
    exact h2.symm

set_option maxRecDepth 100000 in
/-- C7, amended, at the small envelope around a message: the inner value is
a `MessageEvent`, not an envelope. -/
theorem envelope_inner_shape_witness :
    ∃ x hdr, smallCallback.Event = some x ∧
      EventUnmarshaller.Unmarshal noExt (some eventMapping) smallCallback.RawEvent
        = Except.ok x ∧
      unmarshalStruct eventFields ⟨[]⟩ smallCallback.RawEvent = Except.ok hdr ∧
      eventMapping.lookup hdr.Type_ = some x.shape ∧
      (x.shape = Shape.EventCallback ↔ hdr.Type_ = "event_callback".toList) ∧
      smallCallback.RawEvent.length < smallEnvelope.length :=
  envelope_inner_shape noExt none smallEnvelope smallCallback (by rfl)

set_option maxRecDepth 100000 in
/-- C3 as stated fails: in this envelope the inner payload has the
unregistered type `bogus`, so its decode gives the unmapped-event error, but
the ill-typed `token` makes `UnmarshalJSON` and `Unmarshal` return the type
error of the alias decode instead. -/
theorem inner_error_counterexample :
    discriminant badEnvelope = "event_callback".toList ∧
      rawEventOf badEnvelope = "\x7b\"type\":\"bogus\"\x7d".toList ∧
      EventUnmarshaller.Unmarshal noExt (some eventMapping) (rawEventOf badEnvelope)
        = Except.error (DecodeError.unmapped "bogus".toList (rawEventOf badEnvelope)) ∧
      EventCallback.UnmarshalJSON (EventUnmarshaller.Unmarshal noExt (some eventMapping))
        EventCallback.zero badEnvelope = Except.error DecodeError.mismatch ∧
      EventUnmarshaller.Unmarshal noExt none badEnvelope
        = Except.error DecodeError.mismatch :=
  ⟨by rfl, by rfl, by rfl, by rfl, by rfl⟩

/-- C3, amended: for every envelope payload whose inner event payload fails
the polymorphic decode, the whole decode through `Unmarshal` returns an
error and no value, so no partly filled `EventCallback`; when the alias
decode of the envelope's own fields reports no error, `UnmarshalJSON` and
`Unmarshal` return the very error of the inner decode (the unmapped-event
error for an unknown inner type). -/
theorem envelope_inner_failure {α : Type} (ext : Shape → List Char → Option α)
    (e : Option EventUnmarshaller) (b : List Char) (err : DecodeError)
    (hh : unmarshalStruct eventFields ⟨[]⟩ b = Except.ok ⟨"event_callback".toList⟩)
    (hin : EventUnmarshaller.Unmarshal ext (some eventMapping) (rawEventOf b)
      = Except.error err) :
    (∃ err', EventUnmarshaller.Unmarshal ext e b = Except.error err') ∧
      (∀ cb, EventUnmarshaller.Unmarshal ext e b ≠ Except.ok (Decoded.eventCallback cb)) ∧
      ∀ cb0 : EventCallback (Decoded α),
        unmarshalStruct callbackFields EventCallback.zero b = Except.ok cb0 →
        EventCallback.UnmarshalJSON (EventUnmarshaller.Unmarshal ext (some eventMapping))
            EventCallback.zero b = Except.error err ∧
          EventUnmarshaller.Unmarshal ext e b = Except.error err := by
  obtain ⟨v, raw, hp, _⟩ := unmarshalStruct_ok hh
  have hl : eventMapping.lookup "event_callback".toList = some Shape.EventCallback := by rfl
  have hU : EventUnmarshaller.Unmarshal ext e b
      = match EventCallback.UnmarshalJSON (EventUnmarshaller.Unmarshal ext (some eventMapping))
          EventCallback.zero raw with
        | Except.error err => Except.error err
        | Except.ok e => Except.ok (Decoded.eventCallback e) := by
    rw [Unmarshal_eq, hh]
    simp only [hl]
    unfold unmarshalNew
    simp only [hp]
  have hraw : EventCallback.UnmarshalJSON (EventUnmarshaller.Unmarshal ext (some eventMapping))
        EventCallback.zero raw
      = EventCallback.UnmarshalJSON (EventUnmarshaller.Unmarshal ext (some eventMapping))
        EventCallback.zero b := by
    unfold EventCallback.UnmarshalJSON
    rw [unmarshalStruct_raw callbackFields EventCallback.zero hp]
  have hhook : ∃ err', EventCallback.UnmarshalJSON
      (EventUnmarshaller.Unmarshal ext (some eventMapping)) EventCallback.zero b
        = Except.error err' ∧
      ∀ cb0 : EventCallback (Decoded α),
        unmarshalStruct callbackFields EventCallback.zero b = Except.ok cb0 → err' = err := by
    unfold EventCallback.UnmarshalJSON
    cases hs : unmarshalStruct callbackFields
        (EventCallback.zero : EventCallback (Decoded α)) b with
    | error err' => exact ⟨err', rfl, fun cb0 h0 => by simp at h0⟩
    | ok cb0 =>
      simp only []
      rw [(alias_rawEvent hs).1, hin]
      exact ⟨err, rfl, fun _ _ => rfl⟩
  obtain ⟨err', he, hsame⟩ := hhook
  rw [hraw, he] at hU
  simp only [] at hU
  refine ⟨⟨err', hU⟩, fun cb hcb => ?_, fun cb0 h0 => ?_⟩
  · rw [hU] at hcb
    exact absurd hcb (by simp)
  · have := hsame cb0 h0
    subst this
    exact ⟨he, hU⟩

set_option maxRecDepth 100000 in
/-- C3, amended, at an envelope with well-typed fields around an event of
the unregistered type `bogus`: the whole decode returns the unmapped-event
error of the inner decode. -/
theorem envelope_inner_failure_witness :
    EventUnmarshaller.Unmarshal noExt none bogusEnvelope
      = Except.error (DecodeError.unmapped "bogus".toList "\x7b\"type\":\"bogus\"\x7d".toList) :=
  ((envelope_inner_failure noExt none bogusEnvelope
      (DecodeError.unmapped "bogus".toList "\x7b\"type\":\"bogus\"\x7d".toList)
      (by rfl) (by rfl)).2.2
    { Token := "t".toList, TeamID := [], APIAppID := []
      RawEvent := "\x7b\"type\":\"bogus\"\x7d".toList, Event := none, EventTS := []
      Type_ := "event_callback".toList, AuthedUsers := [] } (by rfl)).2

set_option maxRecDepth 100000 in
/-- C9 as stated fails for strings that need escaping. With `T = a"b` put
between the quotes as it is, the payload is not a JSON text, `Unmarshal`
returns the error of the header pass and no value; with `T` the six
characters `\u0041` the payload decodes, but to the token `A`, not to
`T`. -/
theorem url_verification_counterexample :
    urlVerificationText "a\"b".toList "c".toList
        = "\x7b\"token\":\"a\"b\",\"challenge\":\"c\",\"type\":\"url_verification\"\x7d".toList ∧
      EventUnmarshaller.Unmarshal noExt none (urlVerificationText "a\"b".toList "c".toList)
        = Except.error DecodeError.malformed ∧
      EventUnmarshaller.Unmarshal noExt none (urlVerificationText "a\"b".toList "c".toList)
        ≠ Except.ok (Decoded.urlVerification
            ⟨"a\"b".toList, "c".toList, "url_verification".toList⟩) ∧
      EventUnmarshaller.Unmarshal noExt none (urlVerificationText "\\u0041".toList "c".toList)
        = Except.ok (Decoded.urlVerification
            ⟨"A".toList, "c".toList, "url_verification".toList⟩) ∧
      EventUnmarshaller.Unmarshal noExt none (urlVerificationText "\\u0041".toList "c".toList)
        ≠ Except.ok (Decoded.urlVerification
            ⟨"\\u0041".toList, "c".toList, "url_verification".toList⟩) := by
  have h1 : EventUnmarshaller.Unmarshal noExt none
      (urlVerificationText "a\"b".toList "c".toList) = Except.error DecodeError.malformed := by
    rfl
  have h2 : EventUnmarshaller.Unmarshal noExt none
      (urlVerificationText "\\u0041".toList "c".toList)
        = Except.ok (Decoded.urlVerification
            ⟨"A".toList, "c".toList, "url_verification".toList⟩) := by
    rfl
  refine ⟨by rfl, h1, ?_, h2, ?_⟩
  · rw [h1]
    simp
  · rw [h2]
    intro h
    injection h with h
    injection h with h
    injection h with h
    exact absurd h (by decide)

/-- C9, amended: for all strings `T` and `C`, every payload that is a JSON
text for the object with the members `token` = `T`, `challenge` = `C` and
`type` = `url_verification`, in this order, whatever its white space and
however its strings are escaped, decodes without error to an
`EventURLVerification` with `Token = T`, `Challenge = C` and
`Type = "url_verification"`: the flat handshake struct, which has no inner
event; the decode does not depend on the nested decoder, which is never
run. So does the text `{"token":"t","challenge":"c","type":"url_verification"}`
for any string literals `t` of `T` and `c` of `C`, in particular the
literals a JSON encoder writes; and with `T` and `C` put between the quotes
as they are when they hold no quote, backslash or control character. -/
theorem url_verification_decode {α : Type} (ext : Shape → List Char → Option α)
    (e : Option EventUnmarshaller) (T C : List Char) :
    (∀ b r1 r2 r3, IsText (JValue.obj
        [("token".toList, r1, JValue.str T), ("challenge".toList, r2, JValue.str C),
         ("type".toList, r3, JValue.str "url_verification".toList)]) b →
      EventUnmarshaller.Unmarshal ext e b
          = Except.ok (Decoded.urlVerification ⟨T, C, "url_verification".toList⟩) ∧
        ∀ f, unmarshalNew ext f Shape.EventURLVerification b
          = Except.ok (Decoded.urlVerification ⟨T, C, "url_verification".toList⟩)) ∧
      (∀ tb cb, EncStr T tb → EncStr C cb →
        EventUnmarshaller.Unmarshal ext e (urlVerificationText tb cb)
          = Except.ok (Decoded.urlVerification ⟨T, C, "url_verification".toList⟩)) ∧
      EventUnmarshaller.Unmarshal ext e (urlVerificationText (quoteBody T) (quoteBody C))
          = Except.ok (Decoded.urlVerification ⟨T, C, "url_verification".toList⟩) ∧
      (plain T = true → plain C = true →
        EventUnmarshaller.Unmarshal ext e (urlVerificationText T C)
          = Except.ok (Decoded.urlVerification ⟨T, C, "url_verification".toList⟩)) := by
  have main : ∀ b r1 r2 r3, IsText (JValue.obj
        [("token".toList, r1, JValue.str T), ("challenge".toList, r2, JValue.str C),
         ("type".toList, r3, JValue.str "url_verification".toList)]) b →
      EventUnmarshaller.Unmarshal ext e b
          = Except.ok (Decoded.urlVerification ⟨T, C, "url_verification".toList⟩) ∧
        ∀ f, unmarshalNew ext f Shape.EventURLVerification b
          = Except.ok (Decoded.urlVerification ⟨T, C, "url_verification".toList⟩) := by
    intro b r1 r2 r3 ht
    obtain ⟨raw, hp⟩ := parseJSON_text ht
    exact unmarshal_urlVerification ext e hp
  have lits : ∀ tb cb, EncStr T tb → EncStr C cb →
      EventUnmarshaller.Unmarshal ext e (urlVerificationText tb cb)
        = Except.ok (Decoded.urlVerification ⟨T, C, "url_verification".toList⟩) :=
    fun tb cb hT hC => (main _ _ _ _ (isText_urlVerificationText hT hC)).1
  exact ⟨main, lits, lits _ _ (encStr_quoteBody T) (encStr_quoteBody C),
    fun hT hC => lits _ _ (encStr_plain T hT) (encStr_plain C hC)⟩

set_option maxRecDepth 100000 in
/-- C9, amended, at the payload of `TestEventURLVerification`, which is a
JSON text with white space around its members, and at a token with a quote
and a challenge with a line feed, written as a JSON encoder writes them. -/
theorem url_verification_decode_witness :
    EventUnmarshaller.Unmarshal noExt none urlVerification
        = Except.ok (Decoded.urlVerification
            ⟨"Jhj5dZrVaK7ZwHHjRyZWjbDl".toList,
             "3eZbrw1aBm2rZgRNFdxV2595E9CY3gmdALWMmHkvFXO7tYXAYM8P".toList,
             "url_verification".toList⟩) ∧
      EventUnmarshaller.Unmarshal noExt none
          "\x7b\"token\":\"a\\\"b\",\"challenge\":\"c\\u000ad\",\"type\":\"url_verification\"\x7d".toList
        = Except.ok (Decoded.urlVerification
            ⟨"a\"b".toList, "c\nd".toList, "url_verification".toList⟩) :=
  ⟨((url_verification_decode noExt none "Jhj5dZrVaK7ZwHHjRyZWjbDl".toList
      "3eZbrw1aBm2rZgRNFdxV2595E9CY3gmdALWMmHkvFXO7tYXAYM8P".toList).1
      urlVerification _ _ _
⟨"\n".toList, _, "\n".toList, by decide, by decide,
  (Gram.obj 0 "\n  ".toList _ _ (by decide) (by decide)
    (Gram.membersCons 1 "token".toList _ [] " ".toList _ _ [] "\n  ".toList _ _
      (encStr_plain _ (by decide)) (by decide) (by decide)
      (Gram.str 1 "Jhj5dZrVaK7ZwHHjRyZWjbDl".toList _ (encStr_plain _ (by decide)))
      (by decide) (by decide)
    (Gram.membersCons 1 "challenge".toList _ [] " ".toList _ _ [] "\n  ".toList _ _
      (encStr_plain _ (by decide)) (by decide) (by decide)
      (Gram.str 1 "3eZbrw1aBm2rZgRNFdxV2595E9CY3gmdALWMmHkvFXO7tYXAYM8P".toList _ (encStr_plain _ (by decide)))
      (by decide) (by decide)
    (Gram.membersOne 1 "type".toList _ [] " ".toList _ _ "\n".toList
      (encStr_plain _ (by decide)) (by decide) (by decide)
      (Gram.str 1 "url_verification".toList _ (encStr_plain _ (by decide)))
      (by decide))))),
  by rfl⟩).1,
    (url_verification_decode noExt none "a\"b".toList "c\nd".toList).2.2.1⟩

/-- C8: `eventMapping` maps each of `message`, `message.channels`,
`message.groups`, `message.im` and `message.mpim` to `MessageEvent`. Let
`d` be one of them. Every payload that is a JSON text for an object with
the string `d` under `type` and strings under `channel`, `user`, `text`
and `ts`, whatever its white space, the order of its members, its other
members and the escapes in its string literals, decodes to a `MessageEvent`
whose `Type` is `d` and whose `Channel`, `User`, `Text` and `Timestamp`
are the strings those literals stand for. So does the text
`{"type":"d","channel":"c","user":"u","text":"x","ts":"t"}` for any string
literals `c`, `u`, `x`, `t` of four strings, in particular the literals a
JSON encoder writes for them. -/
theorem message_alias_decode {α : Type} (ext : Shape → List Char → Option α)
    (e : Option EventUnmarshaller) (d : List Char) (hd : d ∈ messageAliases) :
    (∀ d' ∈ messageAliases, eventMapping.lookup d' = some Shape.MessageEvent) ∧
      (∀ (b : List Char) (ms : List Member) (ch us tx ts : List Char),
        IsText (JValue.obj ms) b →
        strOf "type".toList ms = some d → strOf "channel".toList ms = some ch →
        strOf "user".toList ms = some us → strOf "text".toList ms = some tx →
        strOf "ts".toList ms = some ts →
        EventUnmarshaller.Unmarshal ext e b
          = Except.ok (Decoded.message ⟨d, ch, us, tx, ts⟩)) ∧
      (∀ ch us tx ts cb ub xb tb : List Char, EncStr ch cb → EncStr us ub → EncStr tx xb →
        EncStr ts tb →
        EventUnmarshaller.Unmarshal ext e (messageText d cb ub xb tb)
          = Except.ok (Decoded.message ⟨d, ch, us, tx, ts⟩)) ∧
      ∀ ch us tx ts : List Char,
        EventUnmarshaller.Unmarshal ext e
            (messageText d (quoteBody ch) (quoteBody us) (quoteBody tx) (quoteBody ts))
          = Except.ok (Decoded.message ⟨d, ch, us, tx, ts⟩) := by
  have main : ∀ (b : List Char) (ms : List Member) (ch us tx ts : List Char),
      IsText (JValue.obj ms) b →
      strOf "type".toList ms = some d → strOf "channel".toList ms = some ch →
      strOf "user".toList ms = some us → strOf "text".toList ms = some tx →
      strOf "ts".toList ms = some ts →
      EventUnmarshaller.Unmarshal ext e b
        = Except.ok (Decoded.message ⟨d, ch, us, tx, ts⟩) := by
    intro b ms ch us tx ts hb ht hc hu htx hts
    obtain ⟨raw, hp⟩ := parseJSON_text hb
    exact unmarshal_message ext e hd hp ht hc hu htx hts
  have lits : ∀ ch us tx ts cb ub xb tb : List Char, EncStr ch cb → EncStr us ub →
      EncStr tx xb → EncStr ts tb →
      EventUnmarshaller.Unmarshal ext e (messageText d cb ub xb tb)
        = Except.ok (Decoded.message ⟨d, ch, us, tx, ts⟩) := by
    intro ch us tx ts cb ub xb tb hc hu hx ht
    exact main _ _ ch us tx ts
      (isText_messageText (encStr_plain d (plain_messageAliases d hd)) hc hu hx ht)
      (by rfl) (by rfl) (by rfl) (by rfl) (by rfl)
  exact ⟨lookup_messageAliases, main, lits, fun ch us tx ts =>
    lits ch us tx ts _ _ _ _ (encStr_quoteBody ch) (encStr_quoteBody us) (encStr_quoteBody tx)
      (encStr_quoteBody ts)⟩

set_option maxRecDepth 100000 in
/-- C8 at the `message.channels` payload of `TestEventMessageChannels`, which
is a JSON text with white space around its members; at a `message.im` payload
whose text holds a quote, a backslash and a line feed, written as a JSON
encoder writes them; at a payload whose keys are written in another letter
case; and at the test's payload as the inner event of the test's
envelope. -/
theorem message_alias_decode_witness :
    EventUnmarshaller.Unmarshal noExt none messageChannelJSON
        = Except.ok (Decoded.message
            ⟨"message.channels".toList, "C2147483705".toList, "U2147483697".toList,
             "Hello world".toList, "1355517523.000005".toList⟩) ∧
      EventUnmarshaller.Unmarshal noExt none
          "\x7b\"type\":\"message.im\",\"channel\":\"D1\",\"user\":\"U1\",\"text\":\"say \\\"hi\\\" \\\\ \\u000abye\",\"ts\":\"1.5\"\x7d".toList
        = Except.ok (Decoded.message
            ⟨"message.im".toList, "D1".toList, "U1".toList, "say \"hi\" \\ \nbye".toList,
             "1.5".toList⟩) ∧
      EventUnmarshaller.Unmarshal noExt none
          "\x7b\"Type\":\"message\",\"CHANNEL\":\"C1\",\"User\":\"U1\",\"TEXT\":\"hi\",\"Ts\":\"1.5\"\x7d".toList
        = Except.ok (Decoded.message
            ⟨"message".toList, "C1".toList, "U1".toList, "hi".toList, "1.5".toList⟩) ∧
      EventUnmarshaller.Unmarshal noExt none (newEventCallback messageChannelJSON)
        = Except.ok (Decoded.eventCallback
            { Token := "z26uFbvR1xHJEdHE1OQiO6t8".toList
              TeamID := "T061EG9RZ".toList
              APIAppID := "A0FFV41KK".toList
              RawEvent := messageChannelJSON
              Event := some (Decoded.message
                ⟨"message.channels".toList, "C2147483705".toList, "U2147483697".toList,
                 "Hello world".toList, "1355517523.000005".toList⟩)
              EventTS := "1465244570.336841".toList
              Type_ := "event_callback".toList
              AuthedUsers := ["U061F7AUR".toList] }) :=
  ⟨(message_alias_decode noExt none "message.channels".toList (by decide)).2.1
      messageChannelJSON _
      "C2147483705".toList "U2147483697".toList "Hello world".toList "1355517523.000005".toList
  ⟨[], _, [], by decide, by decide,
    (Gram.obj 0 "\n    ".toList _ _ (by decide) (by decide)
      (Gram.membersCons 1 "type".toList _ [] " ".toList _ _ [] "\n    ".toList _ _
        (encStr_plain _ (by decide)) (by decide) (by decide)
        (Gram.str 1 "message.channels".toList _ (encStr_plain _ (by decide)))
        (by decide) (by decide)
      (Gram.membersCons 1 "channel".toList _ [] " ".toList _ _ [] "\n    ".toList _ _
        (encStr_plain _ (by decide)) (by decide) (by decide)
        (Gram.str 1 "C2147483705".toList _ (encStr_plain _ (by decide)))
        (by decide) (by decide)
      (Gram.membersCons 1 "user".toList _ [] " ".toList _ _ [] "\n    ".toList _ _
        (encStr_plain _ (by decide)) (by decide) (by decide)
        (Gram.str 1 "U2147483697".toList _ (encStr_plain _ (by decide)))
        (by decide) (by decide)
      (Gram.membersCons 1 "text".toList _ [] " ".toList _ _ [] "\n    ".toList _ _
        (encStr_plain _ (by decide)) (by decide) (by decide)
        (Gram.str 1 "Hello world".toList _ (encStr_plain _ (by decide)))
        (by decide) (by decide)
      (Gram.membersOne 1 "ts".toList _ [] " ".toList _ _ "\n".toList
        (encStr_plain _ (by decide)) (by decide) (by decide)
        (Gram.str 1 "1355517523.000005".toList _ (encStr_plain _ (by decide)))
        (by decide))))))),
    by rfl⟩
      (by rfl) (by rfl) (by rfl) (by rfl) (by rfl),
    (message_alias_decode noExt none "message.im".toList (by decide)).2.2.2
      "D1".toList "U1".toList "say \"hi\" \\ \nbye".toList "1.5".toList,
    (message_alias_decode noExt none "message".toList (by decide)).2.1
      "\x7b\"Type\":\"message\",\"CHANNEL\":\"C1\",\"User\":\"U1\",\"TEXT\":\"hi\",\"Ts\":\"1.5\"\x7d".toList
      _ "C1".toList "U1".toList "hi".toList "1.5".toList
      ⟨[], _, [], by decide, by decide,
        (Gram.obj 0 [] _ _ (by decide) (by decide)
          (Gram.membersCons 1 "Type".toList _ [] [] _ _ [] [] _ _
            (encStr_plain _ (by decide)) (by decide) (by decide)
            (Gram.str 1 "message".toList _ (encStr_plain _ (by decide)))
            (by decide) (by decide)
          (Gram.membersCons 1 "CHANNEL".toList _ [] [] _ _ [] [] _ _
            (encStr_plain _ (by decide)) (by decide) (by decide)
            (Gram.str 1 "C1".toList _ (encStr_plain _ (by decide)))
            (by decide) (by decide)
          (Gram.membersCons 1 "User".toList _ [] [] _ _ [] [] _ _
            (encStr_plain _ (by decide)) (by decide) (by decide)
            (Gram.str 1 "U1".toList _ (encStr_plain _ (by decide)))
            (by decide) (by decide)
          (Gram.membersCons 1 "TEXT".toList _ [] [] _ _ [] [] _ _
            (encStr_plain _ (by decide)) (by decide) (by decide)
            (Gram.str 1 "hi".toList _ (encStr_plain _ (by decide)))
            (by decide) (by decide)
          (Gram.membersOne 1 "Ts".toList _ [] [] _ _ []
            (encStr_plain _ (by decide)) (by decide) (by decide)
            (Gram.str 1 "1.5".toList _ (encStr_plain _ (by decide)))
            (by decide))))))),
        by rfl⟩
      (by rfl) (by rfl) (by rfl) (by rfl) (by rfl),
    by rfl⟩

set_option maxRecDepth 100000 in
/-- C4 as stated fails: `illTypedEnvelope` is an envelope payload (its type
is `event_callback`) whose inner event `{"type":"message"}` is a known
variant that decodes to a `MessageEvent`, yet its `token` is a number, the
alias decode of `UnmarshalJSON` reports the type error and `Unmarshal`
returns that error and no `EventCallback`. -/
theorem envelope_round_trip_counterexample :
    discriminant illTypedEnvelope = "event_callback".toList ∧
      rawEventOf illTypedEnvelope = "\x7b\"type\":\"message\"\x7d".toList ∧
      EventUnmarshaller.Unmarshal noExt (some eventMapping) (rawEventOf illTypedEnvelope)
        = Except.ok (Decoded.message ⟨"message".toList, [], [], [], []⟩) ∧
      EventUnmarshaller.Unmarshal noExt none illTypedEnvelope
        = Except.error DecodeError.mismatch ∧
      ∀ cb, EventUnmarshaller.Unmarshal noExt none illTypedEnvelope
        ≠ Except.ok (Decoded.eventCallback cb) := by
  have h : EventUnmarshaller.Unmarshal noExt none illTypedEnvelope
      = Except.error DecodeError.mismatch := by rfl
  refine ⟨by rfl, by rfl, by rfl, h, fun cb => ?_⟩
  rw [h]
  simp

/-- C4, amended: let the inner event text `rawEv` be one that `Unmarshal`
decodes, to `x`. Every envelope payload that is a JSON text for an object
with the type `event_callback`, at most one member each, of the right JSON
type, under `token`, `team_id`, `api_app_id`, `event_ts` (strings) and
`authed_users` (an array of strings), and the text `rawEv` under `event`,
whatever its white space, the order of its members and the escapes in its
string literals, decodes to an `EventCallback` holding exactly the strings
those literals stand for, with `RawEvent` the text `rawEv`, a contiguous
part of the payload, and `Event` its decode `x`, of the type registered for
the inner event's type. In particular the envelope that `newEventCallback`
of the tests builds around a JSON text `rawEv` decodes to the tests' values
around `rawEv` and `x`. -/
theorem envelope_round_trip {α : Type} (ext : Shape → List Char → Option α)
    (e : Option EventUnmarshaller) (rawEv : List Char) (x : Decoded α)
    (hx : EventUnmarshaller.Unmarshal ext (some eventMapping) rawEv = Except.ok x) :
    (∀ (b : List Char) (ms : List Member) (tok team app ts : List Char)
        (users : List (List Char)),
      IsText (JValue.obj ms) b →
      strOf "type".toList ms = some "event_callback".toList →
      strOf "token".toList ms = some tok →
      strOf "team_id".toList ms = some team →
      strOf "api_app_id".toList ms = some app →
      strOf "event_ts".toList ms = some ts →
      strsOf "authed_users".toList ms = some users →
      rawOf "event".toList ms = some rawEv →
      EventUnmarshaller.Unmarshal ext e b
          = Except.ok (Decoded.eventCallback
              { Token := tok, TeamID := team, APIAppID := app, RawEvent := rawEv,
                Event := some x, EventTS := ts, Type_ := "event_callback".toList,
                AuthedUsers := users }) ∧
        rawEv <:+: b) ∧
      (∃ hdr, unmarshalStruct eventFields ⟨[]⟩ rawEv = Except.ok hdr ∧
        eventMapping.lookup hdr.Type_ = some x.shape) ∧
      ∀ v, Gram 1 (Sym.value v) rawEv →
        EventUnmarshaller.Unmarshal ext e (newEventCallback rawEv)
          = Except.ok (Decoded.eventCallback
              { Token := "z26uFbvR1xHJEdHE1OQiO6t8".toList
                TeamID := "T061EG9RZ".toList
                APIAppID := "A0FFV41KK".toList
                RawEvent := rawEv
                Event := some x
                EventTS := "1465244570.336841".toList
                Type_ := "event_callback".toList
                AuthedUsers := ["U061F7AUR".toList] }) := by
  refine ⟨?_, ?_, fun v hv => ?_⟩
  · intro b ms tok team app ts users hb hty htok hteam happ hts hus hraw
    obtain ⟨raw, hp⟩ := parseJSON_text hb
    exact unmarshal_envelope ext e hx hp hty htok hteam happ hts hus hraw
  · obtain ⟨hdr, h1, h2, _⟩ := Unmarshal_ok hx
    exact ⟨hdr, h1, h2⟩
  · obtain ⟨ms, hb, hty, htok, hteam, happ, hts, hus, hraw⟩ := isText_newEventCallback hv
    obtain ⟨raw, hp⟩ := parseJSON_text hb
    exact (unmarshal_envelope ext e hx hp hty htok hteam happ hts hus hraw).1

set_option maxRecDepth 100000 in
/-- C4, amended, at the envelope of `TestEventCallback` and
`TestEventReactionAdded`, whose inner event, a JSON text with white space
and a nested object, has the type `reaction_added`. -/
theorem envelope_round_trip_witness :
    EventUnmarshaller.Unmarshal noExt none (newEventCallback reactionAddedJSON)
      = Except.ok (Decoded.eventCallback
          { Token := "z26uFbvR1xHJEdHE1OQiO6t8".toList
            TeamID := "T061EG9RZ".toList
            APIAppID := "A0FFV41KK".toList
            RawEvent := reactionAddedJSON
            Event := some (Decoded.reactionAdded
              { Type_ := "reaction_added".toList
                User := "U061F1EUR".toList
                Item := { Type_ := "message".toList, Channel := "C061EG9SL".toList,
                          Timestamp := "1464196127.000002".toList }
                Reaction := "slightly_smiling_face".toList })
            EventTS := "1465244570.336841".toList
            Type_ := "event_callback".toList
            AuthedUsers := ["U061F7AUR".toList] }) :=
  (envelope_round_trip noExt none reactionAddedJSON
    (Decoded.reactionAdded
      { Type_ := "reaction_added".toList
        User := "U061F1EUR".toList
        Item := { Type_ := "message".toList, Channel := "C061EG9SL".toList,
                  Timestamp := "1464196127.000002".toList }
        Reaction := "slightly_smiling_face".toList })
    (by rfl)).2.2 _
    (Gram.obj 1 "\n  ".toList _ _ (by decide) (by decide)
      (Gram.membersCons 2 "type".toList _ [] " ".toList _ _ [] "\n  ".toList _ _
        (encStr_plain _ (by decide)) (by decide) (by decide)
        (Gram.str 2 "reaction_added".toList _ (encStr_plain _ (by decide)))
        (by decide) (by decide)
      (Gram.membersCons 2 "user".toList _ [] " ".toList _ _ [] "\n  ".toList _ _
        (encStr_plain _ (by decide)) (by decide) (by decide)
        (Gram.str 2 "U061F1EUR".toList _ (encStr_plain _ (by decide)))
        (by decide) (by decide)
      (Gram.membersCons 2 "item".toList _ [] " ".toList _ _ [] "\n  ".toList _ _
        (encStr_plain _ (by decide)) (by decide) (by decide)
        (Gram.obj 2 "\n          ".toList _ _ (by decide) (by decide)
          (Gram.membersCons 3 "type".toList _ [] " ".toList _ _ [] "\n          ".toList _ _
            (encStr_plain _ (by decide)) (by decide) (by decide)
            (Gram.str 3 "message".toList _ (encStr_plain _ (by decide)))
            (by decide) (by decide)
          (Gram.membersCons 3 "channel".toList _ [] " ".toList _ _ [] "\n          ".toList _ _
            (encStr_plain _ (by decide)) (by decide) (by decide)
            (Gram.str 3 "C061EG9SL".toList _ (encStr_plain _ (by decide)))
            (by decide) (by decide)
          (Gram.membersOne 3 "ts".toList _ [] " ".toList _ _ "\n  ".toList
            (encStr_plain _ (by decide)) (by decide) (by decide)
            (Gram.str 3 "1464196127.000002".toList _ (encStr_plain _ (by decide)))
            (by decide)))))
        (by decide) (by decide)
      (Gram.membersOne 2 "reaction".toList _ [] " ".toList _ _ "\n".toList
        (encStr_plain _ (by decide)) (by decide) (by decide)
        (Gram.str 2 "slightly_smiling_face".toList _ (encStr_plain _ (by decide)))
        (by decide))))))

end Slack
